import Mathlib

/-!
# Page layout analysis of `libsrc/pdfla.cpp`

A shallow embedding of `clsPdfLaInternals` (word-separation estimator, whitespace
cover, line builder, block builder and the two page entry points) together with
theorems about it.

Conventions of the embedding:

* `float` values are exact rationals (`ℚ`); the concrete pages evaluated on these
  definitions have small integer coordinates, on which the two agree.
* The whitespace search is embedded a second time, in `PDFLA.Binary32`, with boxes
  stored as origin and size and every arithmetic result rounded to binary32, as the
  source computes them. There the edge of a sub-rectangle can miss the edge of the pivot
  by one unit in the last place, which the exact embedding cannot show.
* A `std::vector` is a `List`; a vector of `shared_ptr` that the code nulls out
  is a `List (Option _)`.
* `MIN_ITEM_SIZE` is declared outside `pdfla.cpp`; it is a parameter of every
  definition that reads it.
* The geometry header (`stuBoundingBox` and friends) and the container helpers
  (`argmax`, `min`, `mean`, `sortByBoundingBoxes`) are not part of `pdfla.cpp`; they
  are modelled from the specification and marked as such.
-/

namespace PDFLA

/-! ## Geometry -/

/-- Modelled from the spec: the `Point (x, y)` of the geometry header, which is not part of
`pdfla.cpp`. -/
structure stuPoint where
  X : ℚ
  Y : ℚ
deriving DecidableEq

/-- Modelled from the spec: the `Size (w, h)` of the geometry header, which is not part of
`pdfla.cpp`. -/
structure stuSize where
  Width : ℚ
  Height : ℚ
deriving DecidableEq

/-- Modelled from the spec: the area of a size (`_pageSize.area()`), declared in the missing
geometry header. -/
def stuSize.area (s : stuSize) : ℚ := s.Width * s.Height

/-- Modelled from the spec: `BoundingBox {origin, size}`, an axis-aligned rectangle with the
origin at its top-left corner and y growing downward; declared in the missing geometry header. -/
structure stuBoundingBox where
  Origin : stuPoint
  Size : stuSize
deriving DecidableEq

namespace stuBoundingBox

/-- Modelled from the spec: derived read-only `left`. -/
def left (b : stuBoundingBox) : ℚ := b.Origin.X

/-- Modelled from the spec: derived read-only `top`. -/
def top (b : stuBoundingBox) : ℚ := b.Origin.Y

/-- Modelled from the spec: derived read-only `right`. -/
def right (b : stuBoundingBox) : ℚ := b.Origin.X + b.Size.Width

/-- Modelled from the spec: derived read-only `bottom`. -/
def bottom (b : stuBoundingBox) : ℚ := b.Origin.Y + b.Size.Height

/-- Modelled from the spec: derived read-only `width`. -/
def width (b : stuBoundingBox) : ℚ := b.Size.Width

/-- Modelled from the spec: derived read-only `height`. -/
def height (b : stuBoundingBox) : ℚ := b.Size.Height

/-- Modelled from the spec: derived read-only `area`. -/
def area (b : stuBoundingBox) : ℚ := b.Size.Width * b.Size.Height

/-- Modelled from the spec: the four-coordinate constructor
`stuBoundingBox(left, top, right, bottom)` that `getRawWhitespaceCover` calls; declared in the
missing geometry header. -/
def fromEdges (l t r b : ℚ) : stuBoundingBox := ⟨⟨l, t⟩, ⟨r - l, b - t⟩⟩

/-- Modelled from the spec: the default-constructed box (`std::make_shared<stuBoundingBox>()`),
all zero; declared in the missing geometry header. -/
def zero : stuBoundingBox := ⟨⟨0, 0⟩, ⟨0, 0⟩⟩

/-- Modelled from the spec: `horizontalOverlap`, the signed length of the projected overlap on
X, negative if disjoint. -/
def horizontalOverlap (a b : stuBoundingBox) : ℚ := min a.right b.right - max a.left b.left

/-- Modelled from the spec: `verticalOverlap`, the same on Y. -/
def verticalOverlap (a b : stuBoundingBox) : ℚ := min a.bottom b.bottom - max a.top b.top

/-- Modelled from the spec: `horizontalOverlapRatio`, the overlap divided by the shorter
side. -/
def horizontalOverlapRatio (a b : stuBoundingBox) : ℚ :=
  a.horizontalOverlap b / min a.width b.width

/-- Modelled from the spec: `verticalOverlapRatio`, the overlap divided by the shorter side. -/
def verticalOverlapRatio (a b : stuBoundingBox) : ℚ :=
  a.verticalOverlap b / min a.height b.height

/-- Modelled from the spec: `hasIntersectionWith`; two boxes intersect when their projections
overlap by a positive length on both axes. Boxes that only share an edge do not intersect: the
whitespace search of `getRawWhitespaceCover` builds each sub-rectangle with an edge on the pivot
obstacle and keeps it as free of the pivot. -/
def hasIntersectionWith (a b : stuBoundingBox) : Bool :=
  decide (0 < a.horizontalOverlap b ∧ 0 < a.verticalOverlap b)

/-- Modelled from the spec: `unionWith` (and the mutating `unionWith_`), the minimum
enclosing box of the two. -/
def unionWith (a b : stuBoundingBox) : stuBoundingBox :=
  fromEdges (min a.left b.left) (min a.top b.top) (max a.right b.right) (max a.bottom b.bottom)

end stuBoundingBox

/-! ## Document model -/

/-- Modelled from the spec: `ItemType`; the core only tells `Char` from the rest. -/
inductive enuDocItemType where
  | Char
  | Figure
deriving DecidableEq

/-- Modelled from the spec: `DocItem {type, boundingBox, …}`; the glyph attributes are opaque to
the core and left out. -/
structure stuDocItem where
  Type_ : enuDocItemType
  BoundingBox : stuBoundingBox
deriving DecidableEq

/-- Modelled from the spec: `DocLine {boundingBox, items}`. -/
structure stuDocLine where
  BoundingBox : stuBoundingBox
  Items : List stuDocItem
deriving DecidableEq

/-- Modelled from the spec: the kinds of bounding-box ordering of `sortByBoundingBoxes`. -/
inductive enuBoundingBoxOrdering where
  | T2BL2R
  | L2R
  | L2RT2B
deriving DecidableEq

/-- Modelled from the spec: the strict "comes before" test of each ordering. `T2BL2R` compares
`top`, except that two boxes whose vertical overlap exceeds half their smaller height are on the
same row and compare by `left`; `L2R` compares `left`; `L2RT2B` compares `left`, then `top`. -/
def enuBoundingBoxOrdering.before (o : enuBoundingBoxOrdering) (a b : stuBoundingBox) : Bool :=
  match o with
  | .T2BL2R =>
    if a.verticalOverlap b > (1 / 2) * min a.height b.height then decide (a.left < b.left)
    else decide (a.top < b.top)
  | .L2R => decide (a.left < b.left)
  | .L2RT2B => decide (a.left < b.left ∨ (a.left = b.left ∧ a.top < b.top))

/-- Modelled from the spec: `sortByBoundingBoxes<ordering>`, a stable sort (here a stable
insertion sort: `x` is placed in front of the first element that it does not come after). -/
def sortByBoundingBoxes {α : Type} (o : enuBoundingBoxOrdering) (box : α → stuBoundingBox)
    (l : List α) : List α :=
  l.insertionSort (fun x y => o.before (box y) (box x) = false)

/-- Modelled from the spec: `DocLine.mergeWith_(other)` appends the items and unions the
boxes. -/
def stuDocLine.mergeWith_ (l other : stuDocLine) : stuDocLine :=
  ⟨l.BoundingBox.unionWith other.BoundingBox, l.Items ++ other.Items⟩

/-- Modelled from the spec: `TextBlock {boundingBox, lines}` (`stuDocTextBlock`, declared
outside `pdfla.cpp`). -/
structure stuDocTextBlock where
  BoundingBox : stuBoundingBox
  Lines : List stuDocLine
deriving DecidableEq

/-- Modelled from the spec: `DocBlock`, the variant `TextBlock | FigureBlock` (`clsDocBlockPtr`,
declared outside `pdfla.cpp`). -/
inductive DocBlock where
  | Text (t : stuDocTextBlock)
  | Figure (BoundingBox : stuBoundingBox)
deriving DecidableEq

/-! ## Container helpers -/

/-- Scans for the first maximum: `i` is the index of the next element, `best` the index of the
maximum so far and `bv` its value. -/
def argmaxAux {α β : Type} [LinearOrder β] (f : α → β) : List α → Nat → Nat → β → Nat
  | [], _, best, _ => best
  | x :: xs, i, best, bv =>
    if bv < f x then argmaxAux f xs (i + 1) i (f x) else argmaxAux f xs (i + 1) best bv

/-- Modelled from the spec: `argmax(container, f)` of the missing `algorithm.hpp`, the index of
the maximum of `f`, ties broken by lowest index, `0` on an empty container. -/
def argmax {α β : Type} [LinearOrder β] (c : List α) (f : α → β) : Nat :=
  match c with
  | [] => 0
  | x :: xs => argmaxAux f xs 1 0 (f x)

/-- Modelled from the spec: `min(container, f)` of the missing `algorithm.hpp`, the first
element at which `f` is least (`none` on an empty container). -/
def minOf {α : Type} (c : List α) (f : α → ℚ) : Option α :=
  match c with
  | [] => none
  | x :: xs => some (xs.foldl (fun best y => if f y < f best then y else best) x)

/-- Modelled from the spec: `mean(container, f)` of the missing `algorithm.hpp`, the sum of `f`
over the container divided by its size. -/
def mean {α : Type} (c : List α) (f : α → ℚ) : ℚ :=
  (c.map f).sum / c.length

/-- Applies `f` to the element at position `n`, if there is one. -/
def updateAt {α : Type} (f : α → α) : Nat → List α → List α
  | _, [] => []
  | 0, x :: xs => f x :: xs
  | n + 1, x :: xs => x :: updateAt f n xs

/-- The conversion `static_cast<int32_t>(x)` of a float: truncation toward zero. -/
def toInt32 (q : ℚ) : Int := if 0 ≤ q then ⌊q⌋ else ⌈q⌉

/-! ## Word-separation estimator -/

/-- One guarded histogram write `++HorzDistanceHistogram[i]`; `none` when the index is outside
the vector (the C++ write is then undefined). -/
def incrementAt (H : List Int) (i : Int) : Option (List Int) :=
  if 0 ≤ i ∧ i.toNat < H.length then some (updateAt (· + 1) i.toNat H) else none

/-- The body of the loop of `computeWordSeparationThreshold` for one adjacent pair. -/
def histogramStep (MIN_ITEM_SIZE _meanCharWidth : ℚ) (H : List Int)
    (PrevItem ThisItem : stuDocItem) : Option (List Int) :=
  if ThisItem.BoundingBox.verticalOverlap PrevItem.BoundingBox > MIN_ITEM_SIZE then
    let dx : Int := toInt32 (ThisItem.BoundingBox.left - PrevItem.BoundingBox.right + 1 / 2)
    if (dx : ℚ) ≥ 3 ∧ (dx : ℚ) ≤ 2 * _meanCharWidth then
      (incrementAt H dx).bind fun H1 =>
        (if dx > 1 then incrementAt H1 (dx - 1) else some H1).bind fun H2 =>
          if dx < (H.length : Int) - 1 then incrementAt H2 (dx + 1) else some H2
    else some H
  else some H

/-- The loop `for (i = 1; i < size; ++i)` of `computeWordSeparationThreshold`, walking the
adjacent pairs. -/
def histogramLoop (MIN_ITEM_SIZE _meanCharWidth : ℚ) :
    List Int → stuDocItem → List stuDocItem → Option (List Int)
  | H, _, [] => some H
  | H, PrevItem, ThisItem :: rest =>
    (histogramStep MIN_ITEM_SIZE _meanCharWidth H PrevItem ThisItem).bind fun H1 =>
      histogramLoop MIN_ITEM_SIZE _meanCharWidth H1 ThisItem rest

/-- The function `clsPdfLaInternals::computeWordSeparationThreshold`; `none` when a histogram
write falls outside the vector. -/
def computeWordSeparationThreshold (MIN_ITEM_SIZE : ℚ) (_sortedDocItems : List stuDocItem)
    (_meanCharWidth _width : ℚ) : Option ℚ :=
  let HorzDistanceHistogram : List Int := List.replicate ⌈_width⌉.toNat 0
  let filled :=
    match _sortedDocItems with
    | [] => some HorzDistanceHistogram
    | first :: rest => histogramLoop MIN_ITEM_SIZE _meanCharWidth HorzDistanceHistogram first rest
  filled.map fun H => (3 / 2) * (argmax H (fun a => a) : ℚ)

/-! ## Whitespace cover -/

/-- The lambda `candidateIsAcceptable` of `getRawWhitespaceCover`. -/
def candidateIsAcceptable (_bounds : stuBoundingBox) : Bool :=
  decide (_bounds.width ≥ 4 ∧ _bounds.height ≥ 4 ∧ _bounds.width + _bounds.height ≥ 128 ∧
    _bounds.area ≥ 2048)

/-- The lambda `calculateCandidateScore` of `getRawWhitespaceCover`. -/
def calculateCandidateScore (_candidate : stuBoundingBox) : ℚ :=
  _candidate.height + (1 / 10) * _candidate.width

/-- A triple `(score, rect, obstacles)` of the working set (`Candidate_t`). -/
abbrev Candidate_t := ℚ × stuBoundingBox × List stuBoundingBox

/-- The four sub-rectangles around the pivot, in the order the code builds them, with exact
edges. -/
def splitAround (Cover Pivot : stuBoundingBox) : List stuBoundingBox :=
  [stuBoundingBox.fromEdges Pivot.right Cover.top Cover.right Cover.bottom,
   stuBoundingBox.fromEdges Cover.left Cover.top Pivot.left Cover.bottom,
   stuBoundingBox.fromEdges Cover.left Pivot.bottom Cover.right Cover.bottom,
   stuBoundingBox.fromEdges Cover.left Cover.top Cover.right Pivot.top]

/-- The candidates pushed for one consumed triple. -/
def newCandidates (Cover Pivot : stuBoundingBox) (Obstacles : List stuBoundingBox) :
    List Candidate_t :=
  (splitAround Cover Pivot).filterMap fun NewCandidate =>
    if candidateIsAcceptable NewCandidate then
      some (calculateCandidateScore NewCandidate, NewCandidate,
        Obstacles.filter fun Item => Item.hasIntersectionWith NewCandidate)
    else none

/-- The `while (true)` loop of the lambda `findNextLargetsCover`, in exact arithmetic, run for
at most `fuel` iterations (`none` when the fuel runs out). The same loop in binary32 is
`Binary32.findNextLargetsCoverLoop`. -/
def findNextLargetsCoverLoop : Nat → List Candidate_t → Option stuBoundingBox
  | 0, _ => none
  | fuel + 1, Candidates =>
    if Candidates.isEmpty then some stuBoundingBox.zero
    else
      let ArgMax := argmax Candidates fun _candidate =>
        if candidateIsAcceptable _candidate.2.1 then _candidate.1 else -1
      match Candidates[ArgMax]? with
      | none => none
      | some (Score, Cover, Obstacles) =>
        if Obstacles.isEmpty ∨ Score < 1 then some Cover
        else
          match minOf Obstacles (fun _obstacle => -_obstacle.area) with
          | none => none
          | some Pivot =>
            findNextLargetsCoverLoop fuel
              ((Candidates ++ newCandidates Cover Pivot Obstacles).eraseIdx ArgMax)

/-- The lambda `findNextLargetsCover` of `getRawWhitespaceCover`, in exact arithmetic. The loop
is given `5 ^ (number of obstacles) + 1` iterations, within which it returns when no edge is
rounded. -/
def findNextLargetsCover (_bounds : stuBoundingBox) (_obstacles : List stuBoundingBox) :
    Option stuBoundingBox :=
  findNextLargetsCoverLoop (5 ^ _obstacles.length + 1)
    [(calculateCandidateScore _bounds, _bounds, _obstacles)]

/-- The loop `for (i = 0; i < MAX_COVER_NUMBER_OF_ITEMS; ++i)` of `getRawWhitespaceCover`, with
`n` iterations left. -/
def getRawWhitespaceCoverLoop (_bounds : stuBoundingBox) :
    Nat → List stuBoundingBox → List stuBoundingBox → Option (List stuBoundingBox)
  | 0, _, Result => some Result
  | n + 1, Obstacles, Result =>
    match findNextLargetsCover _bounds Obstacles with
    | none => none
    | some NextCover =>
      if candidateIsAcceptable NextCover then
        getRawWhitespaceCoverLoop _bounds n (Obstacles ++ [NextCover]) (Result ++ [NextCover])
      else some Result

/-- The constant `MAX_COVER_NUMBER_OF_ITEMS` of `getRawWhitespaceCover`. -/
def MAX_COVER_NUMBER_OF_ITEMS : Nat := 30

/-- The function `clsPdfLaInternals::getRawWhitespaceCover` (its third argument,
`_minCoverLegSize`, is never read). -/
def getRawWhitespaceCover (_bounds : stuBoundingBox) (_obstacles : List stuBoundingBox) :
    Option (List stuBoundingBox) :=
  getRawWhitespaceCoverLoop _bounds MAX_COVER_NUMBER_OF_ITEMS _obstacles []

/-- The body of the blob loop of `getWhitespaceCoverage` for one item; the state is the blob
list and `PrevItem`. -/
def blobStep (_wordSeparationThreshold : ℚ) (st : List stuDocItem × Option stuDocItem)
    (ThisItem : stuDocItem) : List stuDocItem × Option stuDocItem :=
  if ThisItem.Type_ ≠ enuDocItemType.Char then st
  else
    match st.1.getLast?, st.2 with
    | some Back, some PrevItem =>
      if ThisItem.Type_ = PrevItem.Type_ ∧
          ThisItem.BoundingBox.verticalOverlapRatio PrevItem.BoundingBox > 1 / 2 ∧
          (toInt32 (ThisItem.BoundingBox.left - PrevItem.BoundingBox.right + 1 / 2) : ℚ) <
            _wordSeparationThreshold then
        (st.1.dropLast ++ [{ Back with BoundingBox := Back.BoundingBox.unionWith ThisItem.BoundingBox }],
          some ThisItem)
      else (st.1 ++ [ThisItem], some ThisItem)
    | _, _ => (st.1 ++ [ThisItem], some ThisItem)

/-- The obstacle list of `getWhitespaceCoverage`: the word blobs followed by the figures that
take at most `MAX_IMAGE_BLOB_AREA_FACTOR` of the page. -/
def pageBlobs (_sortedDocItems : List stuDocItem) (_pageSize : stuSize)
    (_wordSeparationThreshold : ℚ) : List stuDocItem :=
  (_sortedDocItems.foldl (blobStep _wordSeparationThreshold) ([], none)).1 ++
    (_sortedDocItems.filter fun _item => _item.Type_ ≠ enuDocItemType.Char).filter fun Item =>
      decide (Item.BoundingBox.area ≤ (1 / 2) * _pageSize.area)

/-- The inner statement of the extension loop of `getWhitespaceCoverage`: a vertical cover item
is stretched over a horizontal helper that lies right above or below it. -/
def extendCoverItem (MIN_ITEM_SIZE : ℚ) (CoverItem HelperItem : stuBoundingBox) :
    stuBoundingBox :=
  if CoverItem.horizontalOverlap HelperItem ≥ (95 / 100) * CoverItem.width ∧
      CoverItem.verticalOverlap HelperItem > -MIN_ITEM_SIZE then
    let Y0 := min CoverItem.top HelperItem.top
    let Y1 := max CoverItem.bottom HelperItem.bottom
    ⟨⟨CoverItem.Origin.X, Y0⟩, ⟨CoverItem.Size.Width, Y1 - Y0⟩⟩
  else CoverItem

/-- The body of the last loop of `getWhitespaceCoverage`: a candidate is merged into every
stored item it intersects with nearly full horizontal overlap, or else stored itself. -/
def mergeCoverItem (Cover : List stuBoundingBox) (CandidateCoverItem : stuBoundingBox) :
    List stuBoundingBox :=
  let fits := fun (StoredCoverItem : stuBoundingBox) =>
    StoredCoverItem.hasIntersectionWith CandidateCoverItem &&
      decide (StoredCoverItem.horizontalOverlapRatio CandidateCoverItem ≥ 95 / 100)
  if Cover.any fits then
    Cover.map fun StoredCoverItem =>
      if fits StoredCoverItem then StoredCoverItem.unionWith CandidateCoverItem
      else StoredCoverItem
  else Cover ++ [CandidateCoverItem]

/-- The post-processing of `getWhitespaceCoverage` (from `auto Cover = filter(...)` on). -/
def postProcessCover (MIN_ITEM_SIZE : ℚ) (RawCover : List stuBoundingBox) :
    List stuBoundingBox :=
  let Cover := RawCover.filter fun a => decide (a.width < a.height)
  let Helpers := RawCover.filter fun a => decide (a.width ≥ a.height)
  let Extended := Cover.map fun CoverItem => Helpers.foldl (extendCoverItem MIN_ITEM_SIZE) CoverItem
  Extended.foldl mergeCoverItem []

/-- The function `clsPdfLaInternals::getWhitespaceCoverage` (`_meanCharWidth` is only passed on
to the unused `_minCoverLegSize`). -/
def getWhitespaceCoverage (MIN_ITEM_SIZE : ℚ) (_sortedDocItems : List stuDocItem)
    (_pageSize : stuSize) (_wordSeparationThreshold : ℚ) : Option (List stuBoundingBox) :=
  (getRawWhitespaceCover ⟨⟨0, 0⟩, _pageSize⟩
    ((pageBlobs _sortedDocItems _pageSize _wordSeparationThreshold).map fun Item =>
      Item.BoundingBox)).map (postProcessCover MIN_ITEM_SIZE)

/-! ## Same-line predicates -/

/-- The template `areHorizontallyOnSameLine`, on the bounding boxes of its two arguments. -/
def areHorizontallyOnSameLine (_item1 _item2 : stuBoundingBox) : Bool :=
  let HorizontalOverlap := _item2.horizontalOverlap _item1
  if HorizontalOverlap ≤ -(5 / 2) * max _item1.height _item2.height then false else true

/-- The template `areVerticallyOnSameLine`, on the bounding boxes of its two arguments. -/
def areVerticallyOnSameLine (MIN_ITEM_SIZE : ℚ) (_item1 _item2 : stuBoundingBox) : Bool :=
  let VerticalOverlap := _item2.verticalOverlap _item1
  if _item1.height < (1 / 2) * _item2.height ∨ _item2.height < (1 / 2) * _item1.height then
    decide (VerticalOverlap > MIN_ITEM_SIZE)
  else decide (VerticalOverlap > (1 / 2) * min _item1.height _item2.height)

/-- The flag `OverlapsWithCover` that both stages of the line builder compute for a union
box. -/
def overlapsWithCover (WhitespaceCover : List stuBoundingBox) (Union : stuBoundingBox) : Bool :=
  WhitespaceCover.any fun CoverItem =>
    CoverItem.hasIntersectionWith Union && decide (CoverItem.verticalOverlap Union > 3)

/-! ## Line builder -/

/-- The test of the inner loop of Stage A: the line `ResultItem` may take `Item`. -/
def lineAccepts (MIN_ITEM_SIZE : ℚ) (WhitespaceCover : List stuBoundingBox) (Item : stuDocItem)
    (ResultItem : stuDocLine) : Bool :=
  areHorizontallyOnSameLine Item.BoundingBox ResultItem.BoundingBox &&
    areVerticallyOnSameLine MIN_ITEM_SIZE Item.BoundingBox ResultItem.BoundingBox &&
    !overlapsWithCover WhitespaceCover (ResultItem.BoundingBox.unionWith Item.BoundingBox)

/-- The two statements that close the body of Stage A:
`Line->BoundingBox.unionWith_(Item->BoundingBox); Line->Items.push_back(Item)`. -/
def addItem (Item : stuDocItem) (Line : stuDocLine) : stuDocLine :=
  ⟨Line.BoundingBox.unionWith Item.BoundingBox, Line.Items ++ [Item]⟩

/-- Applies `f` to the last element that satisfies `p`; `none` when there is none. This is the
inner loop of Stage A, which keeps overwriting `Line` and so ends on the last match. -/
def updateLast {α : Type} (p : α → Bool) (f : α → α) : List α → Option (List α)
  | [] => none
  | x :: xs =>
    match updateLast p f xs with
    | some ys => some (x :: ys)
    | none => if p x then some (f x :: xs) else none

/-- The body of Stage A for one character. -/
def assignItem (MIN_ITEM_SIZE : ℚ) (WhitespaceCover : List stuBoundingBox)
    (ResultLines : List stuDocLine) (Item : stuDocItem) : List stuDocLine :=
  match updateLast (lineAccepts MIN_ITEM_SIZE WhitespaceCover Item) (addItem Item) ResultLines with
  | some lines => lines
  | none => ResultLines ++ [addItem Item ⟨Item.BoundingBox, []⟩]

/-- Stage A of `findPageLinesAndFigures` (lines 329 to 354): the characters are assigned to
lines. -/
def assignCharsToLines (MIN_ITEM_SIZE : ℚ) (WhitespaceCover : List stuBoundingBox)
    (SortedChars : List stuDocItem) : List stuDocLine :=
  SortedChars.foldl (assignItem MIN_ITEM_SIZE WhitespaceCover) []

/-- The vector `IndexesOfSegmentsOfSameLine` of Stage B, each index paired with the line its
slot holds. -/
def indexesOfSegmentsOfSameLine (MIN_ITEM_SIZE : ℚ) (WhitespaceCover : List stuBoundingBox)
    (ResultLines : List (Option stuDocLine)) (LineSegment : stuDocLine) :
    List (Nat × stuDocLine) :=
  ResultLines.enum.filterMap fun il =>
    match il.2 with
    | none => none
    | some l =>
      if areVerticallyOnSameLine MIN_ITEM_SIZE LineSegment.BoundingBox l.BoundingBox &&
          !overlapsWithCover WhitespaceCover (LineSegment.BoundingBox.unionWith l.BoundingBox)
      then some (il.1, l) else none

/-- The merge walk of Stage B (`for (size_t i : IndexesOfSegmentsOfSameLine)`): the first line
becomes `Merged`; a later one is merged unless `horizontalOverlap` converts to `true`, that is
unless it is not zero, in which case the walk breaks; every line walked over has its slot
reset. -/
def mergeWalk : Option stuDocLine → List (Nat × stuDocLine) → List (Option stuDocLine) →
    Option stuDocLine × List (Option stuDocLine)
  | Merged, [], ResultLines => (Merged, ResultLines)
  | none, (i, l) :: rest, ResultLines => mergeWalk (some l) rest (ResultLines.set i none)
  | some Merged, (i, l) :: rest, ResultLines =>
    if Merged.BoundingBox.horizontalOverlap l.BoundingBox ≠ 0 then (some Merged, ResultLines)
    else mergeWalk (some (Merged.mergeWith_ l)) rest (ResultLines.set i none)

/-- The body of the loop of Stage B for the slot `k` (`LineSegment` is `ResultLines[k]`). The
`std::sort` of the indexes by `left` is modelled by a stable insertion sort. -/
def mergeSegmentsAt (MIN_ITEM_SIZE : ℚ) (WhitespaceCover : List stuBoundingBox)
    (ResultLines : List (Option stuDocLine)) (k : Nat) : List (Option stuDocLine) :=
  match ResultLines[k]? with
  | some (some LineSegment) =>
    let Indexes := indexesOfSegmentsOfSameLine MIN_ITEM_SIZE WhitespaceCover ResultLines LineSegment
    if Indexes.isEmpty then ResultLines
    else
      let Sorted := Indexes.insertionSort fun a b => a.2.BoundingBox.left ≤ b.2.BoundingBox.left
      match mergeWalk none Sorted ResultLines with
      | (some Merged, Lines) =>
        Lines.set k (some { Merged with
          Items := sortByBoundingBoxes .L2R (fun i => i.BoundingBox) Merged.Items })
      | (none, Lines) => Lines
  | _ => ResultLines

/-- Stage B of `findPageLinesAndFigures` (lines 359 to 399): the fragment-merge pass over the
slots, followed by the removal of the null slots. -/
def mergeLineSegments (MIN_ITEM_SIZE : ℚ) (WhitespaceCover : List stuBoundingBox)
    (ResultLines : List stuDocLine) : List stuDocLine :=
  ((List.range ResultLines.length).foldl (mergeSegmentsAt MIN_ITEM_SIZE WhitespaceCover)
    (ResultLines.map some)).filterMap id

/-- The body of the figure loop of `findPageLinesAndFigures` once the area test has passed: the
figure is united into the first result figure it intersects, or appended. -/
def consolidateFigure (Item : stuDocItem) : List stuDocItem → List stuDocItem
  | [] => [Item]
  | ResultFigureItem :: rest =>
    if ResultFigureItem.BoundingBox.hasIntersectionWith Item.BoundingBox then
      { ResultFigureItem with
        BoundingBox := ResultFigureItem.BoundingBox.unionWith Item.BoundingBox } :: rest
    else ResultFigureItem :: consolidateFigure Item rest

/-- The figure loop of `findPageLinesAndFigures` (lines 312 to 328). -/
def consolidateFigures (SortedFigures : List stuDocItem) (_pageSize : stuSize) :
    List stuDocItem :=
  SortedFigures.foldl (fun ResultFigures Item =>
    if Item.BoundingBox.area ≤ (1 / 2) * _pageSize.area then consolidateFigure Item ResultFigures
    else ResultFigures) []

/-- The characters of the page in `T2BL2R` order (`SortedChars`). -/
def sortedChars (_docItems : List stuDocItem) : List stuDocItem :=
  sortByBoundingBoxes .T2BL2R (fun i => i.BoundingBox)
    (_docItems.filter fun e => !decide (e.Type_ ≠ enuDocItemType.Char))

/-- The other items of the page in `T2BL2R` order (`SortedFigures`). -/
def sortedFigures (_docItems : List stuDocItem) : List stuDocItem :=
  sortByBoundingBoxes .T2BL2R (fun i => i.BoundingBox)
    (_docItems.filter fun e => decide (e.Type_ ≠ enuDocItemType.Char))

/-- The whitespace cover that `findPageLinesAndFigures` computes for a page (lines 303 to
310). -/
def pageWhitespaceCover (MIN_ITEM_SIZE : ℚ) (_docItems : List stuDocItem) (_pageSize : stuSize) :
    Option (List stuBoundingBox) :=
  let SortedChars := sortedChars _docItems
  let MeanCharWidth := mean SortedChars fun e => e.BoundingBox.width
  (computeWordSeparationThreshold MIN_ITEM_SIZE SortedChars MeanCharWidth _pageSize.Width).bind
    fun WordSeparationThreshold =>
      getWhitespaceCoverage MIN_ITEM_SIZE (SortedChars ++ sortedFigures _docItems) _pageSize
        WordSeparationThreshold

/-- The function `clsPdfLaInternals::findPageLinesAndFigures`. -/
def findPageLinesAndFigures (MIN_ITEM_SIZE : ℚ) (_docItems : List stuDocItem)
    (_pageSize : stuSize) : Option (List stuDocLine × List stuDocItem) :=
  (pageWhitespaceCover MIN_ITEM_SIZE _docItems _pageSize).map fun WhitespaceCover =>
    (mergeLineSegments MIN_ITEM_SIZE WhitespaceCover
        (assignCharsToLines MIN_ITEM_SIZE WhitespaceCover (sortedChars _docItems)),
      consolidateFigures (sortedFigures _docItems) _pageSize)

/-! ## Block builder -/

/-- A text block under construction: its box and its lines, each line with the position it has
in `_pageLines`, which stands for the address the code compares (`PossibleBlocker.get() ==
Line.get()`). -/
structure TextBlockBuild where
  BoundingBox : stuBoundingBox
  Lines : List (Nat × stuDocLine)

/-- The test of the loop over `Result` in `findPageTextBlocks`: the block `ResultItem` takes
`Line`. -/
def blockAccepts (_pageFigures : List stuDocItem) (SortedLines : List (Nat × stuDocLine))
    (Line : Nat × stuDocLine) (ResultItem : TextBlockBuild) : Bool :=
  decide (ResultItem.BoundingBox.horizontalOverlap Line.2.BoundingBox ≥ 5) &&
    (let Union := ResultItem.BoundingBox.unionWith Line.2.BoundingBox
     !(_pageFigures.any fun PossibleBlocker =>
        Union.hasIntersectionWith PossibleBlocker.BoundingBox) &&
     !(SortedLines.any fun PossibleBlocker =>
        decide (PossibleBlocker.1 ≠ Line.1) &&
        !(decide (PossibleBlocker.2.BoundingBox.horizontalOverlap Line.2.BoundingBox >
              Line.2.BoundingBox.height) &&
          decide (PossibleBlocker.2.BoundingBox.horizontalOverlap ResultItem.BoundingBox >
              Line.2.BoundingBox.height)) &&
        !(ResultItem.Lines.any fun ResultItemLine => decide (PossibleBlocker.1 = ResultItemLine.1)) &&
        Union.hasIntersectionWith PossibleBlocker.2.BoundingBox))

/-- The two statements that close the body of the loop of `findPageTextBlocks`. -/
def addLine (Line : Nat × stuDocLine) (Block : TextBlockBuild) : TextBlockBuild :=
  ⟨Block.BoundingBox.unionWith Line.2.BoundingBox, Block.Lines ++ [Line]⟩

/-- Applies `f` to the first element that satisfies `p`; `none` when there is none. This is the
loop over `Result` of `findPageTextBlocks`, which breaks on the first match. -/
def updateFirst {α : Type} (p : α → Bool) (f : α → α) : List α → Option (List α)
  | [] => none
  | x :: xs => if p x then some (f x :: xs) else (updateFirst p f xs).map (x :: ·)

/-- The body of the loop of `findPageTextBlocks` for one line. -/
def placeLine (_pageFigures : List stuDocItem) (SortedLines : List (Nat × stuDocLine))
    (Result : List TextBlockBuild) (Line : Nat × stuDocLine) : List TextBlockBuild :=
  match updateFirst (blockAccepts _pageFigures SortedLines Line) (addLine Line) Result with
  | some blocks => blocks
  | none => Result ++ [addLine Line ⟨Line.2.BoundingBox, []⟩]

/-- The lines of `_pageLines` with their positions, in `L2RT2B` order (`SortedLines`). -/
def sortedLines (_pageLines : List stuDocLine) : List (Nat × stuDocLine) :=
  sortByBoundingBoxes .L2RT2B (fun l => l.2.BoundingBox) _pageLines.enum

/-- The blocks of `findPageTextBlocks` with the positions of their lines still attached. -/
def buildTextBlocks (_pageLines : List stuDocLine) (_pageFigures : List stuDocItem) :
    List TextBlockBuild :=
  (sortedLines _pageLines).foldl (placeLine _pageFigures (sortedLines _pageLines)) []

/-- The function `clsPdfLaInternals::findPageTextBlocks`. -/
def findPageTextBlocks (_pageLines : List stuDocLine) (_pageFigures : List stuDocItem) :
    List stuDocTextBlock :=
  (buildTextBlocks _pageLines _pageFigures).map fun b => ⟨b.BoundingBox, b.Lines.map (·.2)⟩

/-! ## Entry points -/

/-- The intake filter of `getPageBlocks`. -/
def passesIntakeFilter (MIN_ITEM_SIZE : ℚ) (e : stuDocItem) : Bool :=
  decide (e.BoundingBox.width > MIN_ITEM_SIZE ∧ e.BoundingBox.height > MIN_ITEM_SIZE)

/-- The function `clsPdfLaInternals::getPageBlocks`, as a function of what the PDF wrapper
returns for the page: its items and its size. The debug raster is left out. -/
def getPageBlocks (MIN_ITEM_SIZE : ℚ) (pageItems : List stuDocItem) (PageSize : stuSize) :
    Option (List DocBlock) :=
  let Items := pageItems.filter (passesIntakeFilter MIN_ITEM_SIZE)
  (findPageLinesAndFigures MIN_ITEM_SIZE Items PageSize).map fun LinesFigures =>
    (findPageTextBlocks LinesFigures.1 LinesFigures.2).map DocBlock.Text ++
      LinesFigures.2.map fun Item => DocBlock.Figure Item.BoundingBox

/-- The function `clsPdfLaInternals::getTextBlocks`, as a function of the items and the size of
the page. -/
def getTextBlocks (MIN_ITEM_SIZE : ℚ) (pageItems : List stuDocItem) (PageSize : stuSize) :
    Option (List DocBlock) :=
  (findPageLinesAndFigures MIN_ITEM_SIZE pageItems PageSize).map fun LinesFigures =>
    (findPageTextBlocks LinesFigures.1 LinesFigures.2).map DocBlock.Text

/-! ## Vocabulary of the statements -/

/-- The lines of a block: those of a text block, none for a figure block. -/
def DocBlock.lines : DocBlock → List stuDocLine
  | .Text t => t.Lines
  | .Figure _ => []

/-- The union (minimum enclosing box) of a non-empty family of boxes; `none` for the empty
family. -/
def enclosingBox : List stuBoundingBox → Option stuBoundingBox
  | [] => none
  | b :: bs => some (bs.foldl stuBoundingBox.unionWith b)

/-- The items of a line are in ascending order of `BoundingBox.left`. -/
def leftSorted (l : stuDocLine) : Prop :=
  (l.Items.map fun i => i.BoundingBox.left).Sorted (· ≤ ·)

/-- The line would list itself among the segments of its own line in Stage B: it is vertically
on the same line as itself and its box is not cut by the cover. -/
def selfCandidate (MIN_ITEM_SIZE : ℚ) (WhitespaceCover : List stuBoundingBox)
    (L : stuDocLine) : Prop :=
  areVerticallyOnSameLine MIN_ITEM_SIZE L.BoundingBox L.BoundingBox = true ∧
    overlapsWithCover WhitespaceCover (L.BoundingBox.unionWith L.BoundingBox) = false

/-- A row of `n` characters of width 8 and height `h`, the first at `(x, y)`, each starting
5 units right of the right edge of the one before it. -/
def rowWithGapsOfFive (x y h : ℚ) : Nat → List stuDocItem
  | 0 => []
  | n + 1 =>
    ⟨.Char, stuBoundingBox.fromEdges x y (x + 8) (y + h)⟩ :: rowWithGapsOfFive (x + 13) y h n

/-- The rectangle `r` is a sub-rectangle of `b`. -/
def stuBoundingBox.containedIn (r b : stuBoundingBox) : Prop :=
  b.left ≤ r.left ∧ b.top ≤ r.top ∧ r.right ≤ b.right ∧ r.bottom ≤ b.bottom

/-- The measure that the loop of `findNextLargetsCover` decreases in exact arithmetic: every
triple of the working set counts for `5` to the power of the length of its obstacle list. -/
def searchMeasure (Candidates : List Candidate_t) : Nat :=
  (Candidates.map fun c => 5 ^ c.2.2.length).sum

/-- The score by which the loop of `findNextLargetsCover` picks a triple: the stored score of an
acceptable rectangle, `-1` for any other (the functor given to `argmax`). -/
def effectiveScore (_candidate : Candidate_t) : ℚ :=
  if candidateIsAcceptable _candidate.2.1 then _candidate.1 else -1

/-- What the loop of `findNextLargetsCover` keeps true of a triple of its working set, for the
obstacle list `_obstacles` the search was started with: the stored score is the score of the
rectangle; every obstacle that intersects the rectangle is in the triple's list; and that list
is the whole obstacle list (the root triple) or holds only obstacles that intersect the
rectangle (a pushed triple). -/
def candidateSound (_obstacles : List stuBoundingBox) (c : Candidate_t) : Prop :=
  c.1 = calculateCandidateScore c.2.1 ∧
  (∀ o ∈ _obstacles, o.hasIntersectionWith c.2.1 = true → o ∈ c.2.2) ∧
  (c.2.2 = _obstacles ∨
    ∀ o ∈ c.2.2, o ∈ _obstacles ∧ o.hasIntersectionWith c.2.1 = true)

/-- The items that a slot of Stage B holds: those of its line, none for a null slot. -/
def itemsOfSlot : Option stuDocLine → List stuDocItem
  | none => []
  | some l => l.Items

/-- The summed height of the boxes of `ms` that cross the column just left of `c`. -/
def heightLeftOf (ms : List stuBoundingBox) (c : ℚ) : ℚ :=
  ((ms.filter fun m => decide (m.left < c ∧ c ≤ m.right)).map fun m => m.height).sum

/-- The summed height of the boxes of `ms` that cross the column just right of `c`. -/
def heightRightOf (ms : List stuBoundingBox) (c : ℚ) : ℚ :=
  ((ms.filter fun m => decide (m.left ≤ c ∧ c < m.right)).map fun m => m.height).sum

/-- The factor by which the stack over the edge of the core of a merged cover item outweighs
the part of the item beyond that edge, after `n` candidates: each merge costs one twentieth. -/
def mergeSlack (n : Nat) : ℚ := 20 * (19 / 20) ^ n

/-- The invariant of the union-merge loop of `getWhitespaceCoverage` for a stored item `S` that
is the union of the (extended) raw items `ms`: there is a core `[c₁, c₂]` of columns over which
the raw items stack at least as high as the core is wide, the stacks over its two edges
outweigh `γ` times what lies beyond the edge, and the core is at least `γ / 20` of the width. -/
def stackedCore (γ : ℚ) (S : stuBoundingBox) (ms : List stuBoundingBox) : Prop :=
  ∃ c₁ c₂ : ℚ, S.left ≤ c₁ ∧ c₁ < c₂ ∧ c₂ ≤ S.right ∧
    (c₂ - c₁) + γ * (S.right - c₂) < heightLeftOf ms c₂ ∧
    (c₂ - c₁) + γ * (c₁ - S.left) < heightRightOf ms c₁ ∧
    (∀ c, c₁ ≤ c → c < c₂ → c₂ - c₁ ≤ heightRightOf ms c) ∧
    (∀ c, c₁ < c → c ≤ c₂ → c₂ - c₁ ≤ heightLeftOf ms c) ∧
    γ * (S.right - S.left) ≤ 20 * (c₂ - c₁)

/-- The raw items that make up a stored item `S` of the union-merge loop: `S` encloses each of
them, they are vertical, and no two of them intersect. -/
def mergedFrom (S : stuBoundingBox) (ms : List stuBoundingBox) : Prop :=
  (∀ m ∈ ms, S.left ≤ m.left ∧ m.right ≤ S.right ∧ S.top ≤ m.top ∧ m.bottom ≤ S.bottom ∧
    0 < m.width ∧ m.width < m.height) ∧
  ms.Pairwise fun a b => a.hasIntersectionWith b = false

/-- The indexes that the body of the loop of `computeWordSeparationThreshold` writes for one
adjacent pair, in the order of the writes, on a histogram of `size` bins: `dx`, then `dx - 1`
when `dx > 1`, then `dx + 1` when `dx < size - 1`; none when a guard rejects the pair. -/
def writtenIndexes (MIN_ITEM_SIZE _meanCharWidth : ℚ) (size : Nat)
    (PrevItem ThisItem : stuDocItem) : List Int :=
  if ThisItem.BoundingBox.verticalOverlap PrevItem.BoundingBox > MIN_ITEM_SIZE then
    let dx : Int := toInt32 (ThisItem.BoundingBox.left - PrevItem.BoundingBox.right + 1 / 2)
    if (dx : ℚ) ≥ 3 ∧ (dx : ℚ) ≤ 2 * _meanCharWidth then
      [dx] ++ (if dx > 1 then [dx - 1] else []) ++ (if dx < (size : Int) - 1 then [dx + 1] else [])
    else []
  else []

/-! ## The whitespace search in binary32 arithmetic

The source computes on `float`, and a `stuBoundingBox` stores an origin and a size: the
constructor from four edges stores `right - left` and `bottom - top` rounded, and `right()` and
`bottom()` add them back, rounded again. The definitions of this section repeat the search of
`getRawWhitespaceCover` with every arithmetic result rounded to binary32; the other definitions
of the file compute on exact rationals. -/

namespace Binary32

/-- The integer nearest to `q`, the even one of the two when `q` lies halfway. -/
def roundHalfEven (q : ℚ) : Int :=
  if q - ⌊q⌋ < 1 / 2 then ⌊q⌋
  else if q - ⌊q⌋ > 1 / 2 then ⌊q⌋ + 1
  else if ⌊q⌋ % 2 = 0 then ⌊q⌋ else ⌊q⌋ + 1

/-- The binary exponent of a positive `x`, found by halving or doubling `x` at most `fuel`
times: `e` plus the `k` with `2 ^ k ≤ x < 2 ^ (k + 1)`. -/
def exponentAux : Nat → ℚ → Int → Int
  | 0, _, e => e
  | fuel + 1, x, e =>
    if 2 ≤ x then exponentAux fuel (x / 2) (e + 1)
    else if x < 1 then exponentAux fuel (2 * x) (e - 1)
    else e

/-- The power `2 ^ e` for an integer `e`. -/
def pow2 (e : Int) : ℚ :=
  if 0 ≤ e then ((2 ^ e.toNat : Nat) : ℚ) else 1 / ((2 ^ (-e).toNat : Nat) : ℚ)

/-- The binary32 value of a real result, rounded to nearest with ties to even: 24 significant
bits, and multiples of `2 ^ -149` below `2 ^ -126`. Overflow to infinity is left out (no value of
the search comes near `2 ^ 128`). -/
def fl (q : ℚ) : ℚ :=
  if q = 0 then 0
  else
    let quantum := pow2 (max (exponentAux 300 |q| 0) (-126) - 23)
    (roundHalfEven (q / quantum) : ℚ) * quantum

/-- Modelled from the spec: derived read-only `right` of a box stored as origin and size, the
rounded sum of the two. -/
def right (b : stuBoundingBox) : ℚ := fl (b.Origin.X + b.Size.Width)

/-- Modelled from the spec: derived read-only `bottom`, the rounded sum of origin and size. -/
def bottom (b : stuBoundingBox) : ℚ := fl (b.Origin.Y + b.Size.Height)

/-- Modelled from the spec: derived read-only `area`, the rounded product of the sides. -/
def area (b : stuBoundingBox) : ℚ := fl (b.Size.Width * b.Size.Height)

/-- Modelled from the spec: the four-coordinate constructor
`stuBoundingBox(left, top, right, bottom)`; the origin is kept, the size is the rounded
difference of the edges. -/
def fromEdges (l t r b : ℚ) : stuBoundingBox := ⟨⟨l, t⟩, ⟨fl (r - l), fl (b - t)⟩⟩

/-- Modelled from the spec: `horizontalOverlap`, the signed length of the projected overlap on
X, rounded. -/
def horizontalOverlap (a b : stuBoundingBox) : ℚ :=
  fl (min (right a) (right b) - max a.left b.left)

/-- Modelled from the spec: `verticalOverlap`, the same on Y. -/
def verticalOverlap (a b : stuBoundingBox) : ℚ :=
  fl (min (bottom a) (bottom b) - max a.top b.top)

/-- Modelled from the spec: `hasIntersectionWith`; two boxes intersect when their projections
overlap by a positive length on both axes. -/
def hasIntersectionWith (a b : stuBoundingBox) : Bool :=
  decide (0 < horizontalOverlap a b ∧ 0 < verticalOverlap a b)

/-- The lambda `candidateIsAcceptable` of `getRawWhitespaceCover`. -/
def candidateIsAcceptable (_bounds : stuBoundingBox) : Bool :=
  decide (_bounds.width ≥ 4 ∧ _bounds.height ≥ 4 ∧ fl (_bounds.width + _bounds.height) ≥ 128 ∧
    area _bounds ≥ 2048)

/-- The lambda `calculateCandidateScore` of `getRawWhitespaceCover`; `0.1f` is the binary32
value of one tenth. -/
def calculateCandidateScore (_candidate : stuBoundingBox) : ℚ :=
  fl (_candidate.height + fl (fl (1 / 10) * _candidate.width))

/-- The four sub-rectangles around the pivot, in the order the code builds them. -/
def splitAround (Cover Pivot : stuBoundingBox) : List stuBoundingBox :=
  [fromEdges (right Pivot) Cover.top (right Cover) (bottom Cover),
   fromEdges Cover.left Cover.top Pivot.left (bottom Cover),
   fromEdges Cover.left (bottom Pivot) (right Cover) (bottom Cover),
   fromEdges Cover.left Cover.top (right Cover) Pivot.top]

/-- The candidates pushed for one consumed triple. -/
def newCandidates (Cover Pivot : stuBoundingBox) (Obstacles : List stuBoundingBox) :
    List Candidate_t :=
  (splitAround Cover Pivot).filterMap fun NewCandidate =>
    if candidateIsAcceptable NewCandidate then
      some (calculateCandidateScore NewCandidate, NewCandidate,
        Obstacles.filter fun Item => hasIntersectionWith Item NewCandidate)
    else none

/-- The `while (true)` loop of the lambda `findNextLargetsCover`, run for at most `fuel`
iterations: `none` when the loop has not returned by then. -/
def findNextLargetsCoverLoop : Nat → List Candidate_t → Option stuBoundingBox
  | 0, _ => none
  | fuel + 1, Candidates =>
    if Candidates.isEmpty then some stuBoundingBox.zero
    else
      let ArgMax := argmax Candidates fun _candidate =>
        if candidateIsAcceptable _candidate.2.1 then _candidate.1 else -1
      match Candidates[ArgMax]? with
      | none => none
      | some (Score, Cover, Obstacles) =>
        if Obstacles.isEmpty ∨ Score < 1 then some Cover
        else
          match minOf Obstacles (fun _obstacle => -area _obstacle) with
          | none => none
          | some Pivot =>
            findNextLargetsCoverLoop fuel
              ((Candidates ++ newCandidates Cover Pivot Obstacles).eraseIdx ArgMax)

/-- The lambda `findNextLargetsCover` of `getRawWhitespaceCover`, its loop run for at most
`fuel` iterations. -/
def findNextLargetsCover (fuel : Nat) (_bounds : stuBoundingBox)
    (_obstacles : List stuBoundingBox) : Option stuBoundingBox :=
  findNextLargetsCoverLoop fuel [(calculateCandidateScore _bounds, _bounds, _obstacles)]

/-- The loop `for (i = 0; i < MAX_COVER_NUMBER_OF_ITEMS; ++i)` of `getRawWhitespaceCover`, with
`n` iterations left; every search is run for at most `fuel` iterations. -/
def getRawWhitespaceCoverLoop (fuel : Nat) (_bounds : stuBoundingBox) :
    Nat → List stuBoundingBox → List stuBoundingBox → Option (List stuBoundingBox)
  | 0, _, Result => some Result
  | n + 1, Obstacles, Result =>
    match findNextLargetsCover fuel _bounds Obstacles with
    | none => none
    | some NextCover =>
      if candidateIsAcceptable NextCover then
        getRawWhitespaceCoverLoop fuel _bounds n (Obstacles ++ [NextCover])
          (Result ++ [NextCover])
      else some Result

/-- The function `clsPdfLaInternals::getRawWhitespaceCover`, every search run for at most `fuel`
iterations (`none` when one of them has not returned by then). -/
def getRawWhitespaceCover (fuel : Nat) (_bounds : stuBoundingBox)
    (_obstacles : List stuBoundingBox) : Option (List stuBoundingBox) :=
  getRawWhitespaceCoverLoop fuel _bounds MAX_COVER_NUMBER_OF_ITEMS _obstacles []

/-- The bounds of the examples: a page of `100` by `200`. -/
def examplePage : stuBoundingBox := ⟨⟨0, 0⟩, ⟨100, 200⟩⟩

/-- An obstacle over the left of the page, with the edges `(0, 0, 25.9, 200)`: origin `0` and
width the binary32 value of `25.9`. -/
def exampleStrip : stuBoundingBox := ⟨⟨0, 0⟩, ⟨fl (259 / 10), 200⟩⟩

/-- An obstacle on the right of the page, built from the edges `(62.7, 35, 100, 165)`. -/
def exampleFigure : stuBoundingBox := fromEdges (fl (627 / 10)) 35 100 165

/-- An obstacle over the right of the page, built from the edges `(62.7, 0, 100, 200)`. -/
def exampleColumn : stuBoundingBox := fromEdges (fl (627 / 10)) 0 100 200

/-- A small obstacle built from the edges `(12, 50, 25.9, 60)`. -/
def exampleBlob : stuBoundingBox := fromEdges 12 50 (fl (259 / 10)) 60

/-- The rectangle that the search builds from the edges `(25.9, 0, 62.7, 200)`: origin `25.9`
and width `fl (62.7 - 25.9)`. -/
def exampleGutter : stuBoundingBox := fromEdges (fl (259 / 10)) 0 (fl (627 / 10)) 200

end Binary32

/-! ## Evaluations at concrete pages -/

/-- Claim C1 (the code at the failing input): on the page of scenario S3 the right-hand
character passes the intake filter, yet `getPageBlocks` returns blocks none of whose lines lists
it. -/
theorem getPageBlocks_loses_character :
    passesIntakeFilter 1 ⟨.Char, stuBoundingBox.fromEdges 160 10 200 22⟩ = true ∧
    ∃ blocks,
      getPageBlocks 1
        [⟨.Char, stuBoundingBox.fromEdges 0 10 40 22⟩,
         ⟨.Char, stuBoundingBox.fromEdges 160 10 200 22⟩,
         ⟨.Figure, stuBoundingBox.fromEdges 60 0 140 50⟩] ⟨200, 50⟩ = some blocks ∧
      ∀ b ∈ blocks, ∀ l ∈ b.lines,
        (⟨.Char, stuBoundingBox.fromEdges 160 10 200 22⟩ : stuDocItem) ∉ l.Items :=
  ⟨by decide!,
   [.Text ⟨stuBoundingBox.fromEdges 0 10 40 22,
      [⟨stuBoundingBox.fromEdges 0 10 40 22, [⟨.Char, stuBoundingBox.fromEdges 0 10 40 22⟩]⟩]⟩,
    .Figure (stuBoundingBox.fromEdges 60 0 140 50)],
   by decide!, by decide!⟩

/-- Claim C9 (the code at scenario S3): `getPageBlocks` returns one text block, holding the
left character only, followed by the figure block; the right character is in no block. -/
theorem getPageBlocks_scenario_S3 :
    getPageBlocks 1
      [⟨.Char, stuBoundingBox.fromEdges 0 10 40 22⟩,
       ⟨.Char, stuBoundingBox.fromEdges 160 10 200 22⟩,
       ⟨.Figure, stuBoundingBox.fromEdges 60 0 140 50⟩] ⟨200, 50⟩ =
    some
      [.Text ⟨stuBoundingBox.fromEdges 0 10 40 22,
         [⟨stuBoundingBox.fromEdges 0 10 40 22, [⟨.Char, stuBoundingBox.fromEdges 0 10 40 22⟩]⟩]⟩,
       .Figure (stuBoundingBox.fromEdges 60 0 140 50)] := by
  decide!

end PDFLA

namespace PDFLA

/-! ## Geometry lemmas -/

namespace stuBoundingBox

theorem ext_edges {a b : stuBoundingBox} (hl : a.left = b.left) (ht : a.top = b.top)
    (hr : a.right = b.right) (hb : a.bottom = b.bottom) : a = b := by
  rcases a with ⟨⟨ax, ay⟩, ⟨aw, ah⟩⟩
  rcases b with ⟨⟨bx, b_y⟩, ⟨bw, bh⟩⟩
  simp only [left, top, right, bottom] at hl ht hr hb
  subst hl ht
  have hw : aw = bw := by linarith
  have hh : ah = bh := by linarith
  subst hw hh
  rfl

@[simp] theorem left_fromEdges (l t r b : ℚ) : (fromEdges l t r b).left = l := rfl

@[simp] theorem top_fromEdges (l t r b : ℚ) : (fromEdges l t r b).top = t := rfl

@[simp] theorem right_fromEdges (l t r b : ℚ) : (fromEdges l t r b).right = r := by
  simp [fromEdges, right]

@[simp] theorem bottom_fromEdges (l t r b : ℚ) : (fromEdges l t r b).bottom = b := by
  simp [fromEdges, bottom]

@[simp] theorem width_fromEdges (l t r b : ℚ) : (fromEdges l t r b).width = r - l := rfl

@[simp] theorem height_fromEdges (l t r b : ℚ) : (fromEdges l t r b).height = b - t := rfl

theorem width_eq (a : stuBoundingBox) : a.width = a.right - a.left := by
  simp [width, right, left]

theorem height_eq (a : stuBoundingBox) : a.height = a.bottom - a.top := by
  simp [height, bottom, top]

@[simp] theorem left_unionWith (a b : stuBoundingBox) :
    (a.unionWith b).left = min a.left b.left := rfl

@[simp] theorem top_unionWith (a b : stuBoundingBox) :
    (a.unionWith b).top = min a.top b.top := rfl

@[simp] theorem right_unionWith (a b : stuBoundingBox) :
    (a.unionWith b).right = max a.right b.right := by
  simp [unionWith]

@[simp] theorem bottom_unionWith (a b : stuBoundingBox) :
    (a.unionWith b).bottom = max a.bottom b.bottom := by
  simp [unionWith]

theorem unionWith_self (a : stuBoundingBox) : a.unionWith a = a := by
  apply ext_edges <;> simp

theorem unionWith_comm (a b : stuBoundingBox) : a.unionWith b = b.unionWith a := by
  apply ext_edges <;> simp [min_comm, max_comm]

theorem unionWith_assoc (a b c : stuBoundingBox) :
    (a.unionWith b).unionWith c = a.unionWith (b.unionWith c) := by
  apply ext_edges <;> simp [min_assoc, max_assoc]

theorem unionWith_right_comm (a b c : stuBoundingBox) :
    (a.unionWith b).unionWith c = (a.unionWith c).unionWith b := by
  rw [unionWith_assoc, unionWith_comm b c, ← unionWith_assoc]

theorem foldl_unionWith_assoc (a b : stuBoundingBox) (l : List stuBoundingBox) :
    l.foldl unionWith (a.unionWith b) = a.unionWith (l.foldl unionWith b) := by
  induction l generalizing b with
  | nil => rfl
  | cons c l ih => simp only [List.foldl_cons]; rw [unionWith_assoc, ih]

end stuBoundingBox

theorem enclosingBox_perm {l₁ l₂ : List stuBoundingBox} (h : l₁.Perm l₂) :
    enclosingBox l₁ = enclosingBox l₂ := by
  induction h with
  | nil => rfl
  | cons x h _ =>
    simp only [enclosingBox]
    haveI : RightCommutative stuBoundingBox.unionWith := ⟨stuBoundingBox.unionWith_right_comm⟩
    rw [h.foldl_eq]
  | swap x y l =>
    simp only [enclosingBox, List.foldl_cons]
    rw [stuBoundingBox.unionWith_comm]
  | trans _ _ ih₁ ih₂ => exact ih₁.trans ih₂

theorem enclosingBox_append_singleton {l : List stuBoundingBox} {u b : stuBoundingBox}
    (h : enclosingBox l = some u) : enclosingBox (l ++ [b]) = some (u.unionWith b) := by
  cases l with
  | nil => simp [enclosingBox] at h
  | cons a l =>
    simp only [enclosingBox, Option.some.injEq] at h
    simp [enclosingBox, List.foldl_append, h]

theorem enclosingBox_append {l₁ l₂ : List stuBoundingBox} {u v : stuBoundingBox}
    (h₁ : enclosingBox l₁ = some u) (h₂ : enclosingBox l₂ = some v) :
    enclosingBox (l₁ ++ l₂) = some (u.unionWith v) := by
  cases l₁ with
  | nil => simp [enclosingBox] at h₁
  | cons a l₁ =>
    cases l₂ with
    | nil => simp [enclosingBox] at h₂
    | cons b l₂ =>
      simp only [enclosingBox, Option.some.injEq] at h₁ h₂
      simp only [enclosingBox, List.cons_append, List.foldl_append, List.foldl_cons, h₁,
        Option.some.injEq]
      rw [stuBoundingBox.foldl_unionWith_assoc, h₂]

end PDFLA

namespace PDFLA

/-! ## The two update helpers -/

theorem updateLast_none {α : Type} {p : α → Bool} {f : α → α} :
    ∀ {l : List α}, updateLast p f l = none → ∀ y ∈ l, p y = false
  | [], _, y, hy => by simp at hy
  | x :: xs, h, y, hy => by
    simp only [updateLast] at h
    cases hxs : updateLast p f xs with
    | some ys => simp [hxs] at h
    | none =>
      rw [hxs] at h
      rcases List.mem_cons.1 hy with rfl | hmem
      · by_contra hp
        simp [hp] at h
      · exact updateLast_none hxs y hmem

theorem updateLast_some {α : Type} {p : α → Bool} {f : α → α} :
    ∀ {l l' : List α}, updateLast p f l = some l' →
      ∃ l₁ x l₂, l = l₁ ++ x :: l₂ ∧ l' = l₁ ++ f x :: l₂ ∧ p x = true ∧ ∀ y ∈ l₂, p y = false
  | [], l', h => by simp [updateLast] at h
  | x :: xs, l', h => by
    simp only [updateLast] at h
    cases hxs : updateLast p f xs with
    | some ys =>
      rw [hxs] at h
      obtain ⟨l₁, y, l₂, h₁, h₂, h₃, h₄⟩ := updateLast_some hxs
      refine ⟨x :: l₁, y, l₂, by simp [h₁], ?_, h₃, h₄⟩
      simp only [Option.some.injEq] at h
      simp [← h, h₂]
    | none =>
      rw [hxs] at h
      by_cases hp : p x = true
      · simp only [hp, if_true, Option.some.injEq] at h
        refine ⟨[], x, xs, rfl, by simp [← h], hp, ?_⟩
        exact updateLast_none hxs
      · simp [hp] at h

theorem updateFirst_some {α : Type} {p : α → Bool} {f : α → α} :
    ∀ {l l' : List α}, updateFirst p f l = some l' →
      ∃ l₁ x l₂, l = l₁ ++ x :: l₂ ∧ l' = l₁ ++ f x :: l₂ ∧ p x = true
  | [], l', h => by simp [updateFirst] at h
  | x :: xs, l', h => by
    simp only [updateFirst] at h
    by_cases hp : p x = true
    · simp only [hp, if_true, Option.some.injEq] at h
      exact ⟨[], x, xs, rfl, by simp [← h], hp⟩
    · simp only [hp, Bool.false_eq_true, if_false, Option.map_eq_some'] at h
      obtain ⟨ys, hys, rfl⟩ := h
      obtain ⟨l₁, y, l₂, h₁, h₂, h₃⟩ := updateFirst_some hys
      exact ⟨x :: l₁, y, l₂, by simp [h₁], by simp [h₂], h₃⟩

/-! ## Invariants of the line builder -/

theorem assignItem_forall {MIN_ITEM_SIZE : ℚ} {WhitespaceCover : List stuBoundingBox}
    {P : stuDocLine → Prop} {Item : stuDocItem} {ResultLines : List stuDocLine}
    (hnew : P (addItem Item ⟨Item.BoundingBox, []⟩))
    (hadd : ∀ L, P L → lineAccepts MIN_ITEM_SIZE WhitespaceCover Item L = true →
      P (addItem Item L))
    (h : ∀ L ∈ ResultLines, P L) :
    ∀ L ∈ assignItem MIN_ITEM_SIZE WhitespaceCover ResultLines Item, P L := by
  intro L hL
  unfold assignItem at hL
  cases hu : updateLast (lineAccepts MIN_ITEM_SIZE WhitespaceCover Item) (addItem Item)
      ResultLines with
  | some lines =>
    rw [hu] at hL
    obtain ⟨l₁, x, l₂, h₁, h₂, h₃, -⟩ := updateLast_some hu
    subst h₁ h₂
    simp only [List.mem_append, List.mem_cons] at hL h
    rcases hL with hL | rfl | hL
    · exact h L (Or.inl hL)
    · exact hadd x (h x (Or.inr (Or.inl rfl))) h₃
    · exact h L (Or.inr (Or.inr hL))
  | none =>
    rw [hu] at hL
    simp only [List.mem_append, List.mem_singleton] at hL
    rcases hL with hL | rfl
    · exact h L hL
    · exact hnew

theorem foldl_assignItem_forall {MIN_ITEM_SIZE : ℚ} {WhitespaceCover : List stuBoundingBox}
    {P : stuDocLine → Prop} (SortedChars : List stuDocItem)
    (hnew : ∀ Item ∈ SortedChars, P (addItem Item ⟨Item.BoundingBox, []⟩))
    (hadd : ∀ Item ∈ SortedChars, ∀ L, P L →
      lineAccepts MIN_ITEM_SIZE WhitespaceCover Item L = true → P (addItem Item L))
    (ResultLines : List stuDocLine) (h : ∀ L ∈ ResultLines, P L) :
    ∀ L ∈ SortedChars.foldl (assignItem MIN_ITEM_SIZE WhitespaceCover) ResultLines, P L := by
  induction SortedChars generalizing ResultLines with
  | nil => simpa using h
  | cons c cs ih =>
    simp only [List.foldl_cons]
    apply ih
    · exact fun i hi => hnew i (List.mem_cons_of_mem _ hi)
    · exact fun i hi => hadd i (List.mem_cons_of_mem _ hi)
    · exact assignItem_forall (hnew c (List.mem_cons_self _ _))
        (hadd c (List.mem_cons_self _ _)) h

theorem assignCharsToLines_forall {MIN_ITEM_SIZE : ℚ} {WhitespaceCover : List stuBoundingBox}
    {P : stuDocLine → Prop} (SortedChars : List stuDocItem)
    (hnew : ∀ Item ∈ SortedChars, P (addItem Item ⟨Item.BoundingBox, []⟩))
    (hadd : ∀ Item ∈ SortedChars, ∀ L, P L →
      lineAccepts MIN_ITEM_SIZE WhitespaceCover Item L = true → P (addItem Item L)) :
    ∀ L ∈ assignCharsToLines MIN_ITEM_SIZE WhitespaceCover SortedChars, P L :=
  foldl_assignItem_forall SortedChars hnew hadd [] (by simp)

theorem mem_indexesOfSegmentsOfSameLine {MIN_ITEM_SIZE : ℚ}
    {WhitespaceCover : List stuBoundingBox} {ResultLines : List (Option stuDocLine)}
    {LineSegment : stuDocLine} {p : Nat × stuDocLine} :
    p ∈ indexesOfSegmentsOfSameLine MIN_ITEM_SIZE WhitespaceCover ResultLines LineSegment ↔
      ResultLines[p.1]? = some (some p.2) ∧
      areVerticallyOnSameLine MIN_ITEM_SIZE LineSegment.BoundingBox p.2.BoundingBox = true ∧
      overlapsWithCover WhitespaceCover
        (LineSegment.BoundingBox.unionWith p.2.BoundingBox) = false := by
  unfold indexesOfSegmentsOfSameLine
  rw [List.mem_filterMap]
  constructor
  · rintro ⟨⟨i, o⟩, hmem, hf⟩
    rw [List.mk_mem_enum_iff_getElem?] at hmem
    cases o with
    | none => simp at hf
    | some l =>
      simp only at hf
      split at hf
      · rename_i hc
        simp only [Option.some.injEq] at hf
        subst hf
        simp only [Bool.and_eq_true, Bool.not_eq_true'] at hc
        exact ⟨hmem, hc.1, hc.2⟩
      · simp at hf
  · rintro ⟨h₁, h₂, h₃⟩
    refine ⟨(p.1, some p.2), List.mk_mem_enum_iff_getElem?.2 h₁, ?_⟩
    simp [h₂, h₃]

theorem mergeWalk_forall {P : stuDocLine → Prop}
    (hmerge : ∀ a b, P a → P b → P (a.mergeWith_ b)) :
    ∀ (Sorted : List (Nat × stuDocLine)) (Merged : Option stuDocLine)
      (ResultLines : List (Option stuDocLine)),
      (∀ M, Merged = some M → P M) → (∀ p ∈ Sorted, P p.2) →
      (∀ L, some L ∈ ResultLines → P L) →
      (∀ M, (mergeWalk Merged Sorted ResultLines).1 = some M → P M) ∧
      (∀ L, some L ∈ (mergeWalk Merged Sorted ResultLines).2 → P L)
  | [], Merged, ResultLines, hM, _, hR => by
    have hnil : mergeWalk Merged [] ResultLines = (Merged, ResultLines) := by
      cases Merged <;> rfl
    rw [hnil]
    exact ⟨hM, hR⟩
  | (i, l) :: rest, none, ResultLines, _, hS, hR => by
    simp only [mergeWalk]
    apply mergeWalk_forall hmerge rest
    · intro M hM
      cases hM
      exact hS (i, l) (List.mem_cons_self _ _)
    · exact fun p hp => hS p (List.mem_cons_of_mem _ hp)
    · intro L hL
      rcases List.mem_or_eq_of_mem_set hL with h | h
      · exact hR L h
      · cases h
  | (i, l) :: rest, some M₀, ResultLines, hM, hS, hR => by
    simp only [mergeWalk]
    split
    · exact ⟨fun M h => hM M h, hR⟩
    · apply mergeWalk_forall hmerge rest
      · intro M hM'
        cases hM'
        exact hmerge _ _ (hM M₀ rfl) (hS (i, l) (List.mem_cons_self _ _))
      · exact fun p hp => hS p (List.mem_cons_of_mem _ hp)
      · intro L hL
        rcases List.mem_or_eq_of_mem_set hL with h | h
        · exact hR L h
        · cases h

theorem mergeSegmentsAt_forall {MIN_ITEM_SIZE : ℚ} {WhitespaceCover : List stuBoundingBox}
    {P : stuDocLine → Prop} (hmerge : ∀ a b, P a → P b → P (a.mergeWith_ b))
    (hsort : ∀ L, P L →
      P { L with Items := sortByBoundingBoxes .L2R (fun i => i.BoundingBox) L.Items })
    (ResultLines : List (Option stuDocLine)) (k : Nat)
    (h : ∀ L, some L ∈ ResultLines → P L) :
    ∀ L, some L ∈ mergeSegmentsAt MIN_ITEM_SIZE WhitespaceCover ResultLines k → P L := by
  intro L hL
  unfold mergeSegmentsAt at hL
  split at hL
  · rename_i LineSegment hk
    simp only at hL
    split at hL
    · exact h L hL
    · have hw := mergeWalk_forall hmerge
        ((indexesOfSegmentsOfSameLine MIN_ITEM_SIZE WhitespaceCover ResultLines
          LineSegment).insertionSort fun a b => a.2.BoundingBox.left ≤ b.2.BoundingBox.left)
        none ResultLines (by simp)
        (by
          intro p hp
          rw [List.mem_insertionSort] at hp
          have := (mem_indexesOfSegmentsOfSameLine.1 hp).1
          exact h _ (List.mem_iff_getElem?.2 ⟨_, this⟩))
        h
      split at hL
      · rename_i Merged Lines hmw
        rw [hmw] at hw
        rcases List.mem_or_eq_of_mem_set hL with h' | h'
        · exact hw.2 L h'
        · cases h'
          exact hsort _ (hw.1 Merged rfl)
      · rename_i Lines hmw
        rw [hmw] at hw
        exact hw.2 L hL
  · exact h L hL

theorem mergeLineSegments_forall {MIN_ITEM_SIZE : ℚ} {WhitespaceCover : List stuBoundingBox}
    {P : stuDocLine → Prop} (hmerge : ∀ a b, P a → P b → P (a.mergeWith_ b))
    (hsort : ∀ L, P L →
      P { L with Items := sortByBoundingBoxes .L2R (fun i => i.BoundingBox) L.Items })
    (ResultLines : List stuDocLine) (h : ∀ L ∈ ResultLines, P L) :
    ∀ L ∈ mergeLineSegments MIN_ITEM_SIZE WhitespaceCover ResultLines, P L := by
  have key : ∀ (ks : List Nat) (slots : List (Option stuDocLine)),
      (∀ L, some L ∈ slots → P L) →
      ∀ L, some L ∈ ks.foldl (mergeSegmentsAt MIN_ITEM_SIZE WhitespaceCover) slots → P L := by
    intro ks
    induction ks with
    | nil => intro slots hs; simpa using hs
    | cons k ks ih =>
      intro slots hs
      simp only [List.foldl_cons]
      exact ih _ (mergeSegmentsAt_forall hmerge hsort slots k hs)
  intro L hL
  unfold mergeLineSegments at hL
  rw [List.mem_filterMap] at hL
  obtain ⟨o, ho, hoL⟩ := hL
  simp only [id] at hoL
  subst hoL
  refine key _ _ ?_ L ho
  intro L' hL'
  rw [List.mem_map] at hL'
  obtain ⟨a, ha, hEq⟩ := hL'
  cases hEq
  exact h _ ha

end PDFLA

namespace PDFLA

/-! ## Line boxes -/

theorem lineBox_addItem_new (Item : stuDocItem) :
    enclosingBox ((addItem Item ⟨Item.BoundingBox, []⟩).Items.map fun i => i.BoundingBox) =
      some (addItem Item ⟨Item.BoundingBox, []⟩).BoundingBox := by
  simp [addItem, enclosingBox, stuBoundingBox.unionWith_self]

theorem lineBox_addItem (Item : stuDocItem) (L : stuDocLine)
    (h : enclosingBox (L.Items.map fun i => i.BoundingBox) = some L.BoundingBox) :
    enclosingBox ((addItem Item L).Items.map fun i => i.BoundingBox) =
      some (addItem Item L).BoundingBox := by
  simp only [addItem, List.map_append, List.map_cons, List.map_nil]
  exact enclosingBox_append_singleton h

theorem lineBox_mergeWith_ (a b : stuDocLine)
    (ha : enclosingBox (a.Items.map fun i => i.BoundingBox) = some a.BoundingBox)
    (hb : enclosingBox (b.Items.map fun i => i.BoundingBox) = some b.BoundingBox) :
    enclosingBox ((a.mergeWith_ b).Items.map fun i => i.BoundingBox) =
      some (a.mergeWith_ b).BoundingBox := by
  simp only [stuDocLine.mergeWith_, List.map_append]
  exact enclosingBox_append ha hb

theorem lineBox_sort (L : stuDocLine)
    (h : enclosingBox (L.Items.map fun i => i.BoundingBox) = some L.BoundingBox) :
    enclosingBox (({ L with
        Items := sortByBoundingBoxes .L2R (fun i => i.BoundingBox) L.Items } : stuDocLine).Items.map
          fun i => i.BoundingBox) =
      some ({ L with
        Items := sortByBoundingBoxes .L2R (fun i => i.BoundingBox) L.Items } : stuDocLine).BoundingBox := by
  simp only [sortByBoundingBoxes]
  rw [enclosingBox_perm ((List.perm_insertionSort _ L.Items).map _)]
  exact h

/-- Claim C2: every line that `findPageLinesAndFigures` returns has a bounding box equal to the
union (minimum enclosing box) of the bounding boxes of its items. -/
theorem findPageLinesAndFigures_line_box_is_union (MIN_ITEM_SIZE : ℚ)
    (_docItems : List stuDocItem) (_pageSize : stuSize) (Lines : List stuDocLine)
    (Figures : List stuDocItem)
    (h : findPageLinesAndFigures MIN_ITEM_SIZE _docItems _pageSize = some (Lines, Figures)) :
    ∀ L ∈ Lines, enclosingBox (L.Items.map fun i => i.BoundingBox) = some L.BoundingBox := by
  unfold findPageLinesAndFigures at h
  rw [Option.map_eq_some'] at h
  obtain ⟨WhitespaceCover, -, hEq⟩ := h
  simp only [Prod.mk.injEq] at hEq
  rw [← hEq.1]
  apply mergeLineSegments_forall lineBox_mergeWith_ lineBox_sort
  exact assignCharsToLines_forall _ (fun Item _ => lineBox_addItem_new Item)
    (fun Item _ L hL _ => lineBox_addItem Item L hL)

/-- Claim C2 (witness): the theorem at the page of scenario S1 and its one line. -/
theorem findPageLinesAndFigures_line_box_is_union_witness :
    enclosingBox
        ([(⟨.Char, stuBoundingBox.fromEdges 0 2 8 14⟩ : stuDocItem),
          ⟨.Char, stuBoundingBox.fromEdges 9 2 17 14⟩,
          ⟨.Char, stuBoundingBox.fromEdges 18 2 26 14⟩].map fun i => i.BoundingBox) =
      some (stuBoundingBox.fromEdges 0 2 26 14) :=
  findPageLinesAndFigures_line_box_is_union 1
    [⟨.Char, stuBoundingBox.fromEdges 0 2 8 14⟩, ⟨.Char, stuBoundingBox.fromEdges 9 2 17 14⟩,
     ⟨.Char, stuBoundingBox.fromEdges 18 2 26 14⟩] ⟨100, 20⟩
    [⟨stuBoundingBox.fromEdges 0 2 26 14,
      [⟨.Char, stuBoundingBox.fromEdges 0 2 8 14⟩, ⟨.Char, stuBoundingBox.fromEdges 9 2 17 14⟩,
       ⟨.Char, stuBoundingBox.fromEdges 18 2 26 14⟩]⟩] [] (by decide!)
    ⟨stuBoundingBox.fromEdges 0 2 26 14,
      [⟨.Char, stuBoundingBox.fromEdges 0 2 8 14⟩, ⟨.Char, stuBoundingBox.fromEdges 9 2 17 14⟩,
       ⟨.Char, stuBoundingBox.fromEdges 18 2 26 14⟩]⟩ (List.mem_singleton_self _)

end PDFLA

namespace PDFLA

/-! ## Invariants of the block builder -/

theorem perm_append_singleton_middle {α : Type} (A B C : List α) (a : α) :
    (A ++ ((B ++ [a]) ++ C)).Perm ((A ++ (B ++ C)) ++ [a]) := by
  simp only [List.append_assoc]
  exact ((@List.perm_append_comm _ [a] C).append_left B).append_left A

/-- What the loop of `findPageTextBlocks` maintains: every block has lines, its box is the union
of their boxes, and the blocks hold exactly the lines processed so far. -/
theorem placeLine_invariant (_pageFigures : List stuDocItem)
    (SortedLines : List (Nat × stuDocLine)) (Result : List TextBlockBuild)
    (Line : Nat × stuDocLine) (processed : List (Nat × stuDocLine))
    (hbox : ∀ b ∈ Result, b.Lines ≠ [] ∧
      enclosingBox (b.Lines.map fun l => l.2.BoundingBox) = some b.BoundingBox)
    (hperm : (Result.flatMap fun b => b.Lines).Perm processed) :
    (∀ b ∈ placeLine _pageFigures SortedLines Result Line, b.Lines ≠ [] ∧
      enclosingBox (b.Lines.map fun l => l.2.BoundingBox) = some b.BoundingBox) ∧
    ((placeLine _pageFigures SortedLines Result Line).flatMap fun b => b.Lines).Perm
      (processed ++ [Line]) := by
  unfold placeLine
  cases hu : updateFirst (blockAccepts _pageFigures SortedLines Line) (addLine Line) Result with
  | some blocks =>
    obtain ⟨l₁, x, l₂, h₁, h₂, -⟩ := updateFirst_some hu
    subst h₁ h₂
    simp only
    constructor
    · intro b hb
      simp only [List.mem_append, List.mem_cons] at hb hbox
      rcases hb with hb | rfl | hb
      · exact hbox b (Or.inl hb)
      · have hx := hbox x (Or.inr (Or.inl rfl))
        refine ⟨by simp [addLine], ?_⟩
        simp only [addLine, List.map_append, List.map_cons, List.map_nil]
        exact enclosingBox_append_singleton hx.2
      · exact hbox b (Or.inr (Or.inr hb))
    · simp only [List.flatMap_append, List.flatMap_cons] at hperm ⊢
      exact (perm_append_singleton_middle _ _ _ _).trans (hperm.append_right [Line])
  | none =>
    simp only
    constructor
    · intro b hb
      simp only [List.mem_append, List.mem_singleton] at hb
      rcases hb with hb | rfl
      · exact hbox b hb
      · simp [addLine, enclosingBox, stuBoundingBox.unionWith_self]
    · simp only [List.flatMap_append, List.flatMap_cons, List.flatMap_nil, addLine,
        List.nil_append, List.append_nil]
      exact hperm.append_right [Line]

theorem foldl_placeLine_invariant (_pageFigures : List stuDocItem)
    (SortedLines : List (Nat × stuDocLine)) (todo : List (Nat × stuDocLine)) :
    ∀ (Result : List TextBlockBuild) (processed : List (Nat × stuDocLine)),
      (∀ b ∈ Result, b.Lines ≠ [] ∧
        enclosingBox (b.Lines.map fun l => l.2.BoundingBox) = some b.BoundingBox) →
      (Result.flatMap fun b => b.Lines).Perm processed →
      (∀ b ∈ todo.foldl (placeLine _pageFigures SortedLines) Result, b.Lines ≠ [] ∧
        enclosingBox (b.Lines.map fun l => l.2.BoundingBox) = some b.BoundingBox) ∧
      ((todo.foldl (placeLine _pageFigures SortedLines) Result).flatMap fun b => b.Lines).Perm
        (processed ++ todo) := by
  induction todo with
  | nil => intro Result processed hbox hperm; simpa using ⟨hbox, hperm⟩
  | cons Line todo ih =>
    intro Result processed hbox hperm
    have step := placeLine_invariant _pageFigures SortedLines Result Line processed hbox hperm
    have := ih _ _ step.1 step.2
    simpa using this

theorem buildTextBlocks_invariant (_pageLines : List stuDocLine)
    (_pageFigures : List stuDocItem) :
    (∀ b ∈ buildTextBlocks _pageLines _pageFigures, b.Lines ≠ [] ∧
      enclosingBox (b.Lines.map fun l => l.2.BoundingBox) = some b.BoundingBox) ∧
    ((buildTextBlocks _pageLines _pageFigures).flatMap fun b => b.Lines).Perm _pageLines.enum := by
  have h := foldl_placeLine_invariant _pageFigures (sortedLines _pageLines)
    (sortedLines _pageLines) [] [] (by simp) (by simp)
  refine ⟨h.1, ?_⟩
  have h₂ := h.2
  simp only [List.nil_append] at h₂
  exact h₂.trans (List.perm_insertionSort _ _)

/-- Claim C3: every text block that `findPageTextBlocks` returns has at least one line and a
bounding box equal to the union of the boxes of its lines; and the blocks partition the input
lines: every position of the input list occurs exactly once among the lines of the blocks (so
the lines of all blocks together are the input lines, each once). -/
theorem findPageTextBlocks_blocks_partition_lines (_pageLines : List stuDocLine)
    (_pageFigures : List stuDocItem) :
    (∀ T ∈ findPageTextBlocks _pageLines _pageFigures, T.Lines ≠ [] ∧
      enclosingBox (T.Lines.map fun l => l.BoundingBox) = some T.BoundingBox) ∧
    ((buildTextBlocks _pageLines _pageFigures).flatMap fun b => b.Lines).Perm _pageLines.enum ∧
    ((findPageTextBlocks _pageLines _pageFigures).flatMap fun T => T.Lines).Perm _pageLines := by
  have h := buildTextBlocks_invariant _pageLines _pageFigures
  refine ⟨?_, h.2, ?_⟩
  · intro T hT
    unfold findPageTextBlocks at hT
    rw [List.mem_map] at hT
    obtain ⟨b, hb, rfl⟩ := hT
    have hb' := h.1 b hb
    refine ⟨by simpa using hb'.1, ?_⟩
    simpa [List.map_map, Function.comp] using hb'.2
  · have hmap := h.2.map Prod.snd
    rw [List.enum_map_snd] at hmap
    unfold findPageTextBlocks
    rw [List.flatMap_map]
    rw [List.map_flatMap] at hmap
    exact hmap

/-- Claim C3 (witness): the theorem at the two lines of scenario S3 with its figure; the lines
of the blocks are the two input lines. -/
theorem findPageTextBlocks_blocks_partition_lines_witness :
    ((findPageTextBlocks
        [⟨stuBoundingBox.fromEdges 0 10 40 22, [⟨.Char, stuBoundingBox.fromEdges 0 10 40 22⟩]⟩,
         ⟨stuBoundingBox.fromEdges 160 10 200 22,
           [⟨.Char, stuBoundingBox.fromEdges 160 10 200 22⟩]⟩]
        [⟨.Figure, stuBoundingBox.fromEdges 60 0 140 50⟩]).flatMap fun T => T.Lines).Perm
      [⟨stuBoundingBox.fromEdges 0 10 40 22, [⟨.Char, stuBoundingBox.fromEdges 0 10 40 22⟩]⟩,
       ⟨stuBoundingBox.fromEdges 160 10 200 22,
         [⟨.Char, stuBoundingBox.fromEdges 160 10 200 22⟩]⟩] :=
  (findPageTextBlocks_blocks_partition_lines _ _).2.2

end PDFLA

namespace PDFLA

theorem placeLine_forall {_pageFigures : List stuDocItem}
    {SortedLines : List (Nat × stuDocLine)} {P : TextBlockBuild → Prop}
    {Result : List TextBlockBuild} {Line : Nat × stuDocLine}
    (hnew : P (addLine Line ⟨Line.2.BoundingBox, []⟩))
    (hadd : ∀ b, P b → blockAccepts _pageFigures SortedLines Line b = true → P (addLine Line b))
    (h : ∀ b ∈ Result, P b) :
    ∀ b ∈ placeLine _pageFigures SortedLines Result Line, P b := by
  intro b hb
  unfold placeLine at hb
  cases hu : updateFirst (blockAccepts _pageFigures SortedLines Line) (addLine Line) Result with
  | some blocks =>
    rw [hu] at hb
    obtain ⟨l₁, x, l₂, h₁, h₂, h₃⟩ := updateFirst_some hu
    subst h₁ h₂
    simp only [List.mem_append, List.mem_cons] at hb h
    rcases hb with hb | rfl | hb
    · exact h b (Or.inl hb)
    · exact hadd x (h x (Or.inr (Or.inl rfl))) h₃
    · exact h b (Or.inr (Or.inr hb))
  | none =>
    rw [hu] at hb
    simp only [List.mem_append, List.mem_singleton] at hb
    rcases hb with hb | rfl
    · exact h b hb
    · exact hnew

theorem buildTextBlocks_forall {_pageLines : List stuDocLine} {_pageFigures : List stuDocItem}
    {P : TextBlockBuild → Prop}
    (hnew : ∀ Line : Nat × stuDocLine, P (addLine Line ⟨Line.2.BoundingBox, []⟩))
    (hadd : ∀ (Line : Nat × stuDocLine) b, P b →
      blockAccepts _pageFigures (sortedLines _pageLines) Line b = true → P (addLine Line b)) :
    ∀ b ∈ buildTextBlocks _pageLines _pageFigures, P b := by
  have key : ∀ (todo : List (Nat × stuDocLine)) (Result : List TextBlockBuild),
      (∀ b ∈ Result, P b) →
      ∀ b ∈ todo.foldl (placeLine _pageFigures (sortedLines _pageLines)) Result, P b := by
    intro todo
    induction todo with
    | nil => intro Result h; simpa using h
    | cons Line todo ih =>
      intro Result h
      simp only [List.foldl_cons]
      exact ih _ (placeLine_forall (hnew Line) (hadd Line) h)
  exact key _ [] (by simp)

theorem blockAccepts_no_figure {_pageFigures : List stuDocItem}
    {SortedLines : List (Nat × stuDocLine)} {Line : Nat × stuDocLine} {b : TextBlockBuild}
    (h : blockAccepts _pageFigures SortedLines Line b = true) :
    ∀ f ∈ _pageFigures,
      (b.BoundingBox.unionWith Line.2.BoundingBox).hasIntersectionWith f.BoundingBox = false := by
  unfold blockAccepts at h
  simp only [Bool.and_eq_true, Bool.not_eq_true', List.any_eq_false] at h
  intro f hf
  simpa using h.2.1 f hf

theorem buildTextBlocks_avoid_figures (_pageLines : List stuDocLine)
    (_pageFigures : List stuDocItem) :
    ∀ b ∈ buildTextBlocks _pageLines _pageFigures, 2 ≤ b.Lines.length →
      ∀ f ∈ _pageFigures, b.BoundingBox.hasIntersectionWith f.BoundingBox = false := by
  apply buildTextBlocks_forall
  · intro Line h
    simp [addLine] at h
  · intro Line b _ hacc _
    exact blockAccepts_no_figure hacc

/-- Claim C4 (counterexample): a page with one figure and one character drawn inside it; the
text block of the character and the figure block intersect. -/
theorem getPageBlocks_text_block_inside_figure :
    getPageBlocks 1
      [⟨.Char, stuBoundingBox.fromEdges 10 10 20 22⟩,
       ⟨.Figure, stuBoundingBox.fromEdges 0 0 50 50⟩] ⟨100, 100⟩ =
    some
      [.Text ⟨stuBoundingBox.fromEdges 10 10 20 22,
         [⟨stuBoundingBox.fromEdges 10 10 20 22, [⟨.Char, stuBoundingBox.fromEdges 10 10 20 22⟩]⟩]⟩,
       .Figure (stuBoundingBox.fromEdges 0 0 50 50)] ∧
    (stuBoundingBox.fromEdges 10 10 20 22).hasIntersectionWith
      (stuBoundingBox.fromEdges 0 0 50 50) = true := by
  decide!

/-- Claim C4 (amended): in the result of `getPageBlocks`, a text block that holds two or more
lines intersects no figure block. -/
theorem getPageBlocks_multiline_blocks_avoid_figures (MIN_ITEM_SIZE : ℚ)
    (pageItems : List stuDocItem) (PageSize : stuSize) (Blocks : List DocBlock)
    (h : getPageBlocks MIN_ITEM_SIZE pageItems PageSize = some Blocks)
    (T : stuDocTextBlock) (F : stuBoundingBox)
    (hT : DocBlock.Text T ∈ Blocks) (hF : DocBlock.Figure F ∈ Blocks)
    (hlines : 2 ≤ T.Lines.length) :
    T.BoundingBox.hasIntersectionWith F = false := by
  unfold getPageBlocks at h
  rw [Option.map_eq_some'] at h
  obtain ⟨⟨Lines, Figures⟩, -, rfl⟩ := h
  simp only [List.mem_append, List.mem_map, reduceCtorEq, and_false, exists_false, or_false,
    false_or, DocBlock.Text.injEq, DocBlock.Figure.injEq, exists_eq_right] at hT hF
  obtain ⟨f, hf, rfl⟩ := hF
  unfold findPageTextBlocks at hT
  rw [List.mem_map] at hT
  obtain ⟨b, hb, rfl⟩ := hT
  exact buildTextBlocks_avoid_figures Lines Figures b hb (by simpa using hlines) f hf

end PDFLA

namespace PDFLA

/-- Claim C4 (witness): the amended theorem at a page with two stacked lines and a figure to
their right. -/
theorem getPageBlocks_multiline_blocks_avoid_figures_witness :
    (stuBoundingBox.fromEdges 0 0 50 32).hasIntersectionWith
      (stuBoundingBox.fromEdges 60 0 90 30) = false :=
  getPageBlocks_multiline_blocks_avoid_figures 1
    [⟨.Char, stuBoundingBox.fromEdges 0 0 50 12⟩, ⟨.Char, stuBoundingBox.fromEdges 0 20 50 32⟩,
     ⟨.Figure, stuBoundingBox.fromEdges 60 0 90 30⟩] ⟨100, 50⟩
    [.Text ⟨stuBoundingBox.fromEdges 0 0 50 32,
       [⟨stuBoundingBox.fromEdges 0 0 50 12, [⟨.Char, stuBoundingBox.fromEdges 0 0 50 12⟩]⟩,
        ⟨stuBoundingBox.fromEdges 0 20 50 32, [⟨.Char, stuBoundingBox.fromEdges 0 20 50 32⟩]⟩]⟩,
     .Figure (stuBoundingBox.fromEdges 60 0 90 30)]
    (by decide!)
    ⟨stuBoundingBox.fromEdges 0 0 50 32,
       [⟨stuBoundingBox.fromEdges 0 0 50 12, [⟨.Char, stuBoundingBox.fromEdges 0 0 50 12⟩]⟩,
        ⟨stuBoundingBox.fromEdges 0 20 50 32, [⟨.Char, stuBoundingBox.fromEdges 0 20 50 32⟩]⟩]⟩
    (stuBoundingBox.fromEdges 60 0 90 30) (by decide!) (by decide!) (by decide)

end PDFLA

namespace PDFLA

theorem lineAccepts_not_overlapsWithCover {MIN_ITEM_SIZE : ℚ}
    {WhitespaceCover : List stuBoundingBox} {Item : stuDocItem} {L : stuDocLine}
    (h : lineAccepts MIN_ITEM_SIZE WhitespaceCover Item L = true) :
    overlapsWithCover WhitespaceCover (addItem Item L).BoundingBox = false := by
  unfold lineAccepts at h
  simp only [Bool.and_eq_true, Bool.not_eq_true'] at h
  exact h.2

/-- Claim C5 (counterexample): a wide line above two staggered columns. The whitespace cover of
the page holds the gutter `(90,12,110,150)` between the columns; `getPageBlocks` returns a single
text block with box `(0,0,200,52)`, which the gutter intersects with vertical overlap `40` while
lying strictly inside it horizontally. -/
theorem getPageBlocks_block_contains_gutter :
    pageWhitespaceCover 1
      [⟨.Char, stuBoundingBox.fromEdges 0 0 200 12⟩, ⟨.Char, stuBoundingBox.fromEdges 10 20 90 32⟩,
       ⟨.Char, stuBoundingBox.fromEdges 110 40 190 52⟩] ⟨200, 150⟩ =
      some [stuBoundingBox.fromEdges 90 12 110 150, stuBoundingBox.fromEdges 0 32 90 150,
        stuBoundingBox.fromEdges 110 52 200 150] ∧
    getPageBlocks 1
      [⟨.Char, stuBoundingBox.fromEdges 0 0 200 12⟩, ⟨.Char, stuBoundingBox.fromEdges 10 20 90 32⟩,
       ⟨.Char, stuBoundingBox.fromEdges 110 40 190 52⟩] ⟨200, 150⟩ =
      some [.Text ⟨stuBoundingBox.fromEdges 0 0 200 52,
        [⟨stuBoundingBox.fromEdges 0 0 200 12, [⟨.Char, stuBoundingBox.fromEdges 0 0 200 12⟩]⟩,
         ⟨stuBoundingBox.fromEdges 10 20 90 32, [⟨.Char, stuBoundingBox.fromEdges 10 20 90 32⟩]⟩,
         ⟨stuBoundingBox.fromEdges 110 40 190 52,
           [⟨.Char, stuBoundingBox.fromEdges 110 40 190 52⟩]⟩]⟩] ∧
    (stuBoundingBox.fromEdges 90 12 110 150).hasIntersectionWith
      (stuBoundingBox.fromEdges 0 0 200 52) = true ∧
    (stuBoundingBox.fromEdges 90 12 110 150).verticalOverlap
      (stuBoundingBox.fromEdges 0 0 200 52) > 3 ∧
    (stuBoundingBox.fromEdges 90 12 110 150).left > (stuBoundingBox.fromEdges 0 0 200 52).left ∧
    (stuBoundingBox.fromEdges 90 12 110 150).right <
      (stuBoundingBox.fromEdges 0 0 200 52).right := by
  decide!

/-- Claim C5 (amended): gutters are respected where Stage A joins a character to a line. For
every whitespace cover and every character list, a line built by Stage A that holds two or more
characters has a box that no rectangle of the cover both intersects and overlaps vertically by
more than 3. -/
theorem assignCharsToLines_respects_cover (MIN_ITEM_SIZE : ℚ)
    (WhitespaceCover : List stuBoundingBox) (SortedChars : List stuDocItem) :
    ∀ L ∈ assignCharsToLines MIN_ITEM_SIZE WhitespaceCover SortedChars, 2 ≤ L.Items.length →
      ∀ g ∈ WhitespaceCover,
        ¬(g.hasIntersectionWith L.BoundingBox = true ∧ g.verticalOverlap L.BoundingBox > 3) := by
  have h : ∀ L ∈ assignCharsToLines MIN_ITEM_SIZE WhitespaceCover SortedChars,
      2 ≤ L.Items.length → overlapsWithCover WhitespaceCover L.BoundingBox = false := by
    apply assignCharsToLines_forall
    · intro Item _ hlen
      simp [addItem] at hlen
    · intro Item _ L _ hacc _
      exact lineAccepts_not_overlapsWithCover hacc
  intro L hL hlen g hg hcontra
  have := h L hL hlen
  unfold overlapsWithCover at this
  rw [List.any_eq_false] at this
  apply this g hg
  simp [hcontra.1, hcontra.2]

/-- Claim C5 (witness): the amended theorem at the three characters of scenario S1 and a cover
made of one rectangle to their right. -/
theorem assignCharsToLines_respects_cover_witness :
    ¬((stuBoundingBox.fromEdges 30 0 40 100).hasIntersectionWith
          (stuBoundingBox.fromEdges 0 2 26 14) = true ∧
      (stuBoundingBox.fromEdges 30 0 40 100).verticalOverlap
          (stuBoundingBox.fromEdges 0 2 26 14) > 3) :=
  assignCharsToLines_respects_cover 1 [stuBoundingBox.fromEdges 30 0 40 100]
    [⟨.Char, stuBoundingBox.fromEdges 0 2 8 14⟩, ⟨.Char, stuBoundingBox.fromEdges 9 2 17 14⟩,
     ⟨.Char, stuBoundingBox.fromEdges 18 2 26 14⟩]
    ⟨stuBoundingBox.fromEdges 0 2 26 14,
      [⟨.Char, stuBoundingBox.fromEdges 0 2 8 14⟩, ⟨.Char, stuBoundingBox.fromEdges 9 2 17 14⟩,
       ⟨.Char, stuBoundingBox.fromEdges 18 2 26 14⟩]⟩
    (by decide!) (by decide) _ (by simp)

end PDFLA

namespace PDFLA

/-! ## Left-sorted items -/

theorem verticalOverlap_pos_of_areVerticallyOnSameLine {MIN_ITEM_SIZE : ℚ}
    (hMIN : 0 ≤ MIN_ITEM_SIZE) {a b : stuBoundingBox}
    (h : areVerticallyOnSameLine MIN_ITEM_SIZE a b = true) : 0 < b.verticalOverlap a := by
  unfold areVerticallyOnSameLine at h
  simp only at h
  split at h
  · have := of_decide_eq_true h
    linarith
  · rename_i hc
    have h' := of_decide_eq_true h
    rw [not_or, not_lt, not_lt] at hc
    have ha : 0 ≤ a.height := by linarith [hc.1, hc.2]
    have hb : 0 ≤ b.height := by linarith [hc.1, hc.2]
    have : 0 ≤ min a.height b.height := le_min ha hb
    linarith

theorem height_unionWith_pos {a b : stuBoundingBox} (h : 0 < b.verticalOverlap a) :
    0 < (b.unionWith a).height := by
  rw [stuBoundingBox.height_eq, stuBoundingBox.bottom_unionWith, stuBoundingBox.top_unionWith]
  unfold stuBoundingBox.verticalOverlap at h
  have h₁ : min b.bottom a.bottom ≤ max b.bottom a.bottom := le_trans (min_le_left _ _) (le_max_left _ _)
  have h₂ : min b.top a.top ≤ max b.top a.top := le_trans (min_le_left _ _) (le_max_left _ _)
  linarith

theorem areVerticallyOnSameLine_self {MIN_ITEM_SIZE : ℚ} {u : stuBoundingBox}
    (h : 0 < u.height) : areVerticallyOnSameLine MIN_ITEM_SIZE u u = true := by
  unfold areVerticallyOnSameLine
  have hv : u.verticalOverlap u = u.height := by
    unfold stuBoundingBox.verticalOverlap
    rw [min_self, max_self, stuBoundingBox.height_eq]
  simp only [hv, min_self]
  rw [if_neg (by rw [or_self, not_lt]; linarith)]
  exact decide_eq_true (by linarith)

theorem selfCandidate_addItem {MIN_ITEM_SIZE : ℚ} (hMIN : 0 ≤ MIN_ITEM_SIZE)
    {WhitespaceCover : List stuBoundingBox} {Item : stuDocItem} {L : stuDocLine}
    (h : lineAccepts MIN_ITEM_SIZE WhitespaceCover Item L = true) :
    selfCandidate MIN_ITEM_SIZE WhitespaceCover (addItem Item L) := by
  constructor
  · apply areVerticallyOnSameLine_self
    apply height_unionWith_pos
    apply verticalOverlap_pos_of_areVerticallyOnSameLine hMIN
    unfold lineAccepts at h
    simp only [Bool.and_eq_true] at h
    exact h.1.2
  · rw [stuBoundingBox.unionWith_self]
    exact lineAccepts_not_overlapsWithCover h

theorem leftSorted_of_length_le_one {L : stuDocLine} (h : L.Items.length ≤ 1) :
    leftSorted L := by
  unfold leftSorted
  match hI : L.Items, h with
  | [], _ => simp
  | [x], _ => simp
  | _ :: _ :: _, h => simp at h

theorem leftSorted_sort (L : stuDocLine) :
    leftSorted { L with Items := sortByBoundingBoxes .L2R (fun i => i.BoundingBox) L.Items } := by
  unfold leftSorted sortByBoundingBoxes
  simp only
  haveI : IsTotal stuDocItem (fun x y =>
      enuBoundingBoxOrdering.L2R.before y.BoundingBox x.BoundingBox = false) :=
    ⟨fun a b => by
      simp only [enuBoundingBoxOrdering.before, decide_eq_false_iff_not, not_lt]
      exact le_total _ _⟩
  haveI : IsTrans stuDocItem (fun x y =>
      enuBoundingBoxOrdering.L2R.before y.BoundingBox x.BoundingBox = false) :=
    ⟨fun a b c => by
      simp only [enuBoundingBoxOrdering.before, decide_eq_false_iff_not, not_lt]
      exact le_trans⟩
  have hs := List.sorted_insertionSort (fun x y : stuDocItem =>
      enuBoundingBoxOrdering.L2R.before y.BoundingBox x.BoundingBox = false) L.Items
  unfold List.Sorted at hs ⊢
  rw [List.pairwise_map]
  refine hs.imp ?_
  intro a b hab
  simpa [enuBoundingBoxOrdering.before] using hab

theorem assignCharsToLines_sorted_or_selfCandidate {MIN_ITEM_SIZE : ℚ}
    (hMIN : 0 ≤ MIN_ITEM_SIZE) (WhitespaceCover : List stuBoundingBox)
    (SortedChars : List stuDocItem) :
    ∀ L ∈ assignCharsToLines MIN_ITEM_SIZE WhitespaceCover SortedChars,
      leftSorted L ∨ selfCandidate MIN_ITEM_SIZE WhitespaceCover L := by
  apply assignCharsToLines_forall
  · intro Item _
    exact Or.inl (leftSorted_of_length_le_one (by simp [addItem]))
  · intro Item _ L _ hacc
    exact Or.inr (selfCandidate_addItem hMIN hacc)

theorem mergeWalk_getElem?_some :
    ∀ (Sorted : List (Nat × stuDocLine)) (Merged : Option stuDocLine)
      (ResultLines : List (Option stuDocLine)) (j : Nat) (L : stuDocLine),
      (mergeWalk Merged Sorted ResultLines).2[j]? = some (some L) →
      ResultLines[j]? = some (some L)
  | [], Merged, ResultLines, j, L, h => by
    have hnil : mergeWalk Merged [] ResultLines = (Merged, ResultLines) := by
      cases Merged <;> rfl
    rw [hnil] at h
    exact h
  | (i, l) :: rest, none, ResultLines, j, L, h => by
    simp only [mergeWalk] at h
    have := mergeWalk_getElem?_some rest _ _ j L h
    rw [List.getElem?_set] at this
    split at this
    · split at this <;> simp at this
    · exact this
  | (i, l) :: rest, some M₀, ResultLines, j, L, h => by
    simp only [mergeWalk] at h
    split at h
    · exact h
    · have := mergeWalk_getElem?_some rest _ _ j L h
      rw [List.getElem?_set] at this
      split at this
      · split at this <;> simp at this
      · exact this

theorem mergeWalk_length :
    ∀ (Sorted : List (Nat × stuDocLine)) (Merged : Option stuDocLine)
      (ResultLines : List (Option stuDocLine)),
      (mergeWalk Merged Sorted ResultLines).2.length = ResultLines.length
  | [], Merged, ResultLines => by
    cases Merged <;> rfl
  | (i, l) :: rest, none, ResultLines => by
    simp only [mergeWalk]
    rw [mergeWalk_length rest, List.length_set]
  | (i, l) :: rest, some M₀, ResultLines => by
    simp only [mergeWalk]
    split
    · rfl
    · rw [mergeWalk_length rest, List.length_set]

theorem mergeSegmentsAt_length (MIN_ITEM_SIZE : ℚ) (WhitespaceCover : List stuBoundingBox)
    (ResultLines : List (Option stuDocLine)) (k : Nat) :
    (mergeSegmentsAt MIN_ITEM_SIZE WhitespaceCover ResultLines k).length =
      ResultLines.length := by
  unfold mergeSegmentsAt
  split
  · simp only
    split
    · rfl
    · split
      · rename_i Merged Lines hmw
        rw [List.length_set]
        have h2 := congrArg (fun p => p.2.length) hmw
        simp only [mergeWalk_length] at h2
        exact h2.symm
      · rename_i Lines hmw
        have h2 := congrArg (fun p => p.2.length) hmw
        simp only [mergeWalk_length] at h2
        exact h2.symm
  · rfl

/-- What the loop of Stage B has established when it reaches slot `k`: the live lines in the
slots before `k` have their items in ascending order of `left`, the others have them so or
would list themselves among their own segments. -/
theorem mergeSegmentsAt_sorted_invariant (MIN_ITEM_SIZE : ℚ)
    (WhitespaceCover : List stuBoundingBox) (ResultLines : List (Option stuDocLine)) (k : Nat)
    (h : ∀ i L, ResultLines[i]? = some (some L) →
      (i < k → leftSorted L) ∧ (leftSorted L ∨ selfCandidate MIN_ITEM_SIZE WhitespaceCover L)) :
    ∀ i L, (mergeSegmentsAt MIN_ITEM_SIZE WhitespaceCover ResultLines k)[i]? = some (some L) →
      (i < k + 1 → leftSorted L) ∧
        (leftSorted L ∨ selfCandidate MIN_ITEM_SIZE WhitespaceCover L) := by
  intro i L hi
  unfold mergeSegmentsAt at hi
  split at hi
  · rename_i LineSegment hk
    simp only at hi
    split at hi
    · rename_i hempty
      refine ⟨fun hlt => ?_, (h i L hi).2⟩
      rcases Nat.lt_succ_iff_lt_or_eq.1 hlt with hlt' | rfl
      · exact (h i L hi).1 hlt'
      · rw [hk] at hi
        cases hi
        rcases (h i L hk).2 with hs | hs
        · exact hs
        · exfalso
          have hmem : (i, L) ∈ indexesOfSegmentsOfSameLine MIN_ITEM_SIZE WhitespaceCover
              ResultLines L := mem_indexesOfSegmentsOfSameLine.2 ⟨hk, hs.1, hs.2⟩
          rw [List.isEmpty_iff] at hempty
          rw [hempty] at hmem
          simp at hmem
    · rename_i hne
      split at hi
      · rename_i Merged Lines hmw
        rw [List.getElem?_set] at hi
        split at hi
        · split at hi
          · cases hi
            exact ⟨fun _ => leftSorted_sort Merged, Or.inl (leftSorted_sort Merged)⟩
          · cases hi
        · rename_i hki
          have hL : Lines[i]? = some (some L) := hi
          have hw := mergeWalk_getElem?_some _ none ResultLines i L (by rw [hmw]; exact hL)
          refine ⟨fun hlt => (h i L hw).1 ?_, (h i L hw).2⟩
          omega
      · rename_i Lines hmw
        exfalso
        cases hS : (indexesOfSegmentsOfSameLine MIN_ITEM_SIZE WhitespaceCover ResultLines
          LineSegment).insertionSort fun a b => a.2.BoundingBox.left ≤ b.2.BoundingBox.left with
        | nil =>
          have hlen := congrArg List.length hS
          rw [List.length_insertionSort] at hlen
          simp only [List.length_nil, List.length_eq_zero] at hlen
          exact hne (by simp [hlen])
        | cons p rest =>
          rw [hS] at hmw
          obtain ⟨pi, pl⟩ := p
          simp only [mergeWalk] at hmw
          have : ∀ (S : List (Nat × stuDocLine)) (M : stuDocLine)
              (R : List (Option stuDocLine)), (mergeWalk (some M) S R).1 ≠ none := by
            intro S
            induction S with
            | nil => intro M R; simp [mergeWalk]
            | cons q S ih =>
              intro M R
              obtain ⟨qi, ql⟩ := q
              simp only [mergeWalk]
              split
              · simp
              · exact ih _ _
          exact this rest pl _ (by rw [hmw])
  · rename_i hk
    refine ⟨fun hlt => ?_, (h i L hi).2⟩
    rcases Nat.lt_succ_iff_lt_or_eq.1 hlt with hlt' | rfl
    · exact (h i L hi).1 hlt'
    · exact (hk L hi).elim

theorem foldl_mergeSegmentsAt_sorted (MIN_ITEM_SIZE : ℚ)
    (WhitespaceCover : List stuBoundingBox) (ResultLines : List (Option stuDocLine))
    (h : ∀ (i : Nat) (L : stuDocLine), ResultLines[i]? = some (some L) →
      leftSorted L ∨ selfCandidate MIN_ITEM_SIZE WhitespaceCover L) (n : Nat) :
    (∀ i L, ((List.range n).foldl (mergeSegmentsAt MIN_ITEM_SIZE WhitespaceCover)
        ResultLines)[i]? = some (some L) →
      (i < n → leftSorted L) ∧ (leftSorted L ∨ selfCandidate MIN_ITEM_SIZE WhitespaceCover L)) ∧
    ((List.range n).foldl (mergeSegmentsAt MIN_ITEM_SIZE WhitespaceCover) ResultLines).length =
      ResultLines.length := by
  induction n with
  | zero =>
    refine ⟨fun i L hi => ⟨fun hlt => absurd hlt (Nat.not_lt_zero _), ?_⟩, rfl⟩
    exact h i L hi
  | succ n ih =>
    rw [List.range_succ, List.foldl_append]
    simp only [List.foldl_cons, List.foldl_nil]
    refine ⟨mergeSegmentsAt_sorted_invariant _ _ _ n ih.1, ?_⟩
    rw [mergeSegmentsAt_length, ih.2]

/-- Claim C6: when `MIN_ITEM_SIZE` is not negative, within every line that
`findPageLinesAndFigures` returns the items are in ascending order of `BoundingBox.left`; this
covers the lines that Stage B skips because their list of candidate indexes is empty. -/
theorem findPageLinesAndFigures_items_left_sorted (MIN_ITEM_SIZE : ℚ)
    (hMIN : 0 ≤ MIN_ITEM_SIZE) (_docItems : List stuDocItem) (_pageSize : stuSize)
    (Lines : List stuDocLine) (Figures : List stuDocItem)
    (h : findPageLinesAndFigures MIN_ITEM_SIZE _docItems _pageSize = some (Lines, Figures)) :
    ∀ L ∈ Lines, leftSorted L := by
  unfold findPageLinesAndFigures at h
  rw [Option.map_eq_some'] at h
  obtain ⟨WhitespaceCover, -, hEq⟩ := h
  simp only [Prod.mk.injEq] at hEq
  rw [← hEq.1]
  intro L hL
  unfold mergeLineSegments at hL
  rw [List.mem_filterMap] at hL
  obtain ⟨o, ho, hoL⟩ := hL
  simp only [id] at hoL
  subst hoL
  obtain ⟨i, hi⟩ := List.mem_iff_getElem?.1 ho
  have hA := assignCharsToLines_sorted_or_selfCandidate hMIN WhitespaceCover
    (sortedChars _docItems)
  have hB := foldl_mergeSegmentsAt_sorted MIN_ITEM_SIZE WhitespaceCover
    ((assignCharsToLines MIN_ITEM_SIZE WhitespaceCover (sortedChars _docItems)).map some)
    (by
      intro j L' hj
      rw [List.getElem?_map] at hj
      cases hg : (assignCharsToLines MIN_ITEM_SIZE WhitespaceCover (sortedChars _docItems))[j]? with
      | none => simp [hg] at hj
      | some L'' =>
        rw [hg] at hj
        simp only [Option.map_some', Option.some.injEq] at hj
        subst hj
        exact hA _ (List.mem_iff_getElem?.2 ⟨j, hg⟩))
    (assignCharsToLines MIN_ITEM_SIZE WhitespaceCover (sortedChars _docItems)).length
  have hlt : i < (assignCharsToLines MIN_ITEM_SIZE WhitespaceCover
      (sortedChars _docItems)).length := by
    have := (List.getElem?_eq_some_iff.1 hi).1
    rw [hB.2, List.length_map] at this
    exact this
  exact (hB.1 i L hi).1 hlt

end PDFLA

namespace PDFLA

/-- Claim C6 (witness): the theorem at the page of scenario S1 and its one line. -/
theorem findPageLinesAndFigures_items_left_sorted_witness :
    leftSorted ⟨stuBoundingBox.fromEdges 0 2 26 14,
      [⟨.Char, stuBoundingBox.fromEdges 0 2 8 14⟩, ⟨.Char, stuBoundingBox.fromEdges 9 2 17 14⟩,
       ⟨.Char, stuBoundingBox.fromEdges 18 2 26 14⟩]⟩ :=
  findPageLinesAndFigures_items_left_sorted 1 (by norm_num)
    [⟨.Char, stuBoundingBox.fromEdges 0 2 8 14⟩, ⟨.Char, stuBoundingBox.fromEdges 9 2 17 14⟩,
     ⟨.Char, stuBoundingBox.fromEdges 18 2 26 14⟩] ⟨100, 20⟩
    [⟨stuBoundingBox.fromEdges 0 2 26 14,
      [⟨.Char, stuBoundingBox.fromEdges 0 2 8 14⟩, ⟨.Char, stuBoundingBox.fromEdges 9 2 17 14⟩,
       ⟨.Char, stuBoundingBox.fromEdges 18 2 26 14⟩]⟩] [] (by decide!)
    _ (List.mem_singleton_self _)

end PDFLA

namespace PDFLA

/-- Claim C7 (the code at the failing input): three characters that Stage A leaves in three
one-character lines (the cover of the page is empty). One run of the fragment-merge pass returns
the lines of `(50,10,60,22)` and `(0,11,10,23)`; a second run on that output drops the line of
`(50,10,60,22)`, so the pass is not idempotent. -/
theorem mergeLineSegments_second_pass_changes_output :
    pageWhitespaceCover 1
      [⟨.Char, stuBoundingBox.fromEdges 100 8 110 12⟩, ⟨.Char, stuBoundingBox.fromEdges 0 11 10 23⟩,
       ⟨.Char, stuBoundingBox.fromEdges 50 10 60 22⟩] ⟨120, 30⟩ = some [] ∧
    assignCharsToLines 1 []
      (sortedChars
        [⟨.Char, stuBoundingBox.fromEdges 100 8 110 12⟩,
         ⟨.Char, stuBoundingBox.fromEdges 0 11 10 23⟩,
         ⟨.Char, stuBoundingBox.fromEdges 50 10 60 22⟩]) =
      [⟨stuBoundingBox.fromEdges 100 8 110 12, [⟨.Char, stuBoundingBox.fromEdges 100 8 110 12⟩]⟩,
       ⟨stuBoundingBox.fromEdges 0 11 10 23, [⟨.Char, stuBoundingBox.fromEdges 0 11 10 23⟩]⟩,
       ⟨stuBoundingBox.fromEdges 50 10 60 22, [⟨.Char, stuBoundingBox.fromEdges 50 10 60 22⟩]⟩] ∧
    mergeLineSegments 1 []
      [⟨stuBoundingBox.fromEdges 100 8 110 12, [⟨.Char, stuBoundingBox.fromEdges 100 8 110 12⟩]⟩,
       ⟨stuBoundingBox.fromEdges 0 11 10 23, [⟨.Char, stuBoundingBox.fromEdges 0 11 10 23⟩]⟩,
       ⟨stuBoundingBox.fromEdges 50 10 60 22, [⟨.Char, stuBoundingBox.fromEdges 50 10 60 22⟩]⟩] =
      [⟨stuBoundingBox.fromEdges 50 10 60 22, [⟨.Char, stuBoundingBox.fromEdges 50 10 60 22⟩]⟩,
       ⟨stuBoundingBox.fromEdges 0 11 10 23, [⟨.Char, stuBoundingBox.fromEdges 0 11 10 23⟩]⟩] ∧
    mergeLineSegments 1 []
      [⟨stuBoundingBox.fromEdges 50 10 60 22, [⟨.Char, stuBoundingBox.fromEdges 50 10 60 22⟩]⟩,
       ⟨stuBoundingBox.fromEdges 0 11 10 23, [⟨.Char, stuBoundingBox.fromEdges 0 11 10 23⟩]⟩] =
      [⟨stuBoundingBox.fromEdges 0 11 10 23, [⟨.Char, stuBoundingBox.fromEdges 0 11 10 23⟩]⟩] := by
  decide!

/-- Claim C8 (the code at the failing input): a page with an ordinary character and a character
of width `1`, which the intake filter of `getPageBlocks` rejects (`MIN_ITEM_SIZE = 1`).
`getPageBlocks` returns the text block of the first character only, while `getTextBlocks`, which
does not filter, also returns a text block for the second. -/
theorem getTextBlocks_skips_intake_filter :
    getPageBlocks 1
      [⟨.Char, stuBoundingBox.fromEdges 0 0 10 10⟩, ⟨.Char, stuBoundingBox.fromEdges 50 50 51 60⟩]
      ⟨100, 100⟩ =
      some [.Text ⟨stuBoundingBox.fromEdges 0 0 10 10,
        [⟨stuBoundingBox.fromEdges 0 0 10 10, [⟨.Char, stuBoundingBox.fromEdges 0 0 10 10⟩]⟩]⟩] ∧
    getTextBlocks 1
      [⟨.Char, stuBoundingBox.fromEdges 0 0 10 10⟩, ⟨.Char, stuBoundingBox.fromEdges 50 50 51 60⟩]
      ⟨100, 100⟩ =
      some [.Text ⟨stuBoundingBox.fromEdges 0 0 10 10,
          [⟨stuBoundingBox.fromEdges 0 0 10 10, [⟨.Char, stuBoundingBox.fromEdges 0 0 10 10⟩]⟩]⟩,
        .Text ⟨stuBoundingBox.fromEdges 50 50 51 60,
          [⟨stuBoundingBox.fromEdges 50 50 51 60,
            [⟨.Char, stuBoundingBox.fromEdges 50 50 51 60⟩]⟩]⟩] := by
  decide!

end PDFLA

namespace PDFLA

/-! ## Collinear characters -/

end PDFLA

namespace PDFLA

end PDFLA

namespace PDFLA

end PDFLA

namespace PDFLA

/-! ## Evaluations of the whitespace search, the merge walk and the histogram -/

/-- Claim C14 (the code at the failing input): bounds `(0,0,100,400)` and one obstacle
`(-300,0,-200,400)` that lies wholly to the left of them. The search splits the bounds around
that obstacle, and the sub-rectangle "right of the pivot" starts at the pivot's right edge,
`-200`: the cover returned is `(-200,0,100,400)`, which is not contained in the bounds. The page
of that size with one character at that place gets this rectangle as its whitespace cover. -/
theorem getRawWhitespaceCover_leaves_bounds :
    getRawWhitespaceCover (stuBoundingBox.fromEdges 0 0 100 400)
      [stuBoundingBox.fromEdges (-300) 0 (-200) 400] =
      some [stuBoundingBox.fromEdges (-200) 0 100 400] ∧
    (stuBoundingBox.fromEdges (-200) 0 100 400).left <
      (stuBoundingBox.fromEdges 0 0 100 400).left ∧
    pageWhitespaceCover 1 [⟨.Char, stuBoundingBox.fromEdges (-300) 0 (-200) 400⟩] ⟨100, 400⟩ =
      some [stuBoundingBox.fromEdges (-200) 0 100 400] := by
  decide!

/-- Claim C15 (the code at the failing input): two live fragments of one row with a gap of 120
between them and an empty cover. They are vertically on the same line, their union is not cut,
and their `horizontalOverlap` is `-120`; the pass does not merge them: its output is the left
fragment alone, the items of the right one are gone. Two fragments that touch
(`horizontalOverlap = 0`) are merged. -/
theorem mergeLineSegments_gap_not_merged :
    areVerticallyOnSameLine 1 (stuBoundingBox.fromEdges 0 10 40 22)
      (stuBoundingBox.fromEdges 160 10 200 22) = true ∧
    (stuBoundingBox.fromEdges 0 10 40 22).horizontalOverlap
      (stuBoundingBox.fromEdges 160 10 200 22) = -120 ∧
    mergeLineSegments 1 []
      [⟨stuBoundingBox.fromEdges 0 10 40 22, [⟨.Char, stuBoundingBox.fromEdges 0 10 40 22⟩]⟩,
       ⟨stuBoundingBox.fromEdges 160 10 200 22,
         [⟨.Char, stuBoundingBox.fromEdges 160 10 200 22⟩]⟩] =
      [⟨stuBoundingBox.fromEdges 0 10 40 22, [⟨.Char, stuBoundingBox.fromEdges 0 10 40 22⟩]⟩] ∧
    mergeLineSegments 1 []
      [⟨stuBoundingBox.fromEdges 0 10 40 22, [⟨.Char, stuBoundingBox.fromEdges 0 10 40 22⟩]⟩,
       ⟨stuBoundingBox.fromEdges 40 10 80 22, [⟨.Char, stuBoundingBox.fromEdges 40 10 80 22⟩]⟩] =
      [⟨stuBoundingBox.fromEdges 0 10 80 22,
        [⟨.Char, stuBoundingBox.fromEdges 0 10 40 22⟩,
         ⟨.Char, stuBoundingBox.fromEdges 40 10 80 22⟩]⟩] := by
  decide!

/-- Claim C19 (the code at the failing input): page width `0`, mean character width `8`, two
characters of one row with a gap of `5`. The histogram has length `0` and the loop performs the
write `++HorzDistanceHistogram[5]`, which is outside the vector; the embedding returns `none`
for such a write. With a gap of `1` no write is made and the result is `0`. -/
theorem computeWordSeparationThreshold_zero_width_writes :
    computeWordSeparationThreshold 1
      [⟨.Char, stuBoundingBox.fromEdges 0 0 8 12⟩, ⟨.Char, stuBoundingBox.fromEdges 13 0 21 12⟩]
      8 0 = none ∧
    computeWordSeparationThreshold 1
      [⟨.Char, stuBoundingBox.fromEdges 0 0 8 12⟩, ⟨.Char, stuBoundingBox.fromEdges 9 0 17 12⟩]
      8 0 = some 0 := by
  decide!

/-- Claim C16 (counterexample): ten characters of width `8` on one row, `5` apart, on a page of
width `200`. Each of the nine pairs adds one to the bins `4`, `5` and `6`, so the three bins tie
at `9` (the first eight bins are shown); the maximum is found at index `4` and the result is
`6`, not `7.5`. -/
theorem computeWordSeparationThreshold_scenario_S6 :
    computeWordSeparationThreshold 1
      [⟨.Char, stuBoundingBox.fromEdges 0 0 8 12⟩, ⟨.Char, stuBoundingBox.fromEdges 13 0 21 12⟩,
       ⟨.Char, stuBoundingBox.fromEdges 26 0 34 12⟩, ⟨.Char, stuBoundingBox.fromEdges 39 0 47 12⟩,
       ⟨.Char, stuBoundingBox.fromEdges 52 0 60 12⟩, ⟨.Char, stuBoundingBox.fromEdges 65 0 73 12⟩,
       ⟨.Char, stuBoundingBox.fromEdges 78 0 86 12⟩, ⟨.Char, stuBoundingBox.fromEdges 91 0 99 12⟩,
       ⟨.Char, stuBoundingBox.fromEdges 104 0 112 12⟩,
       ⟨.Char, stuBoundingBox.fromEdges 117 0 125 12⟩] 8 200 = some 6 ∧
    (histogramLoop 1 8 (List.replicate 200 0) ⟨.Char, stuBoundingBox.fromEdges 0 0 8 12⟩
      [⟨.Char, stuBoundingBox.fromEdges 13 0 21 12⟩,
       ⟨.Char, stuBoundingBox.fromEdges 26 0 34 12⟩, ⟨.Char, stuBoundingBox.fromEdges 39 0 47 12⟩,
       ⟨.Char, stuBoundingBox.fromEdges 52 0 60 12⟩, ⟨.Char, stuBoundingBox.fromEdges 65 0 73 12⟩,
       ⟨.Char, stuBoundingBox.fromEdges 78 0 86 12⟩, ⟨.Char, stuBoundingBox.fromEdges 91 0 99 12⟩,
       ⟨.Char, stuBoundingBox.fromEdges 104 0 112 12⟩,
       ⟨.Char, stuBoundingBox.fromEdges 117 0 125 12⟩]).map (List.take 8) =
      some [0, 0, 0, 0, 9, 9, 9, 0] := by
  decide!

/-- Claim C17 (counterexample): `MIN_ITEM_SIZE = 1`, a base character `(0,10,8,22)` of height
12 and, right of it, a glyph `(8,6,12,10)` of height 4 with top `6`. The two boxes only touch
(vertical overlap `0`), `areVerticallyOnSameLine` is false, and Stage A puts the glyph and the
base character on two lines. -/
theorem superscript_scenario_S4_two_lines :
    areVerticallyOnSameLine 1 (stuBoundingBox.fromEdges 8 6 12 10)
      (stuBoundingBox.fromEdges 0 10 8 22) = false ∧
    areHorizontallyOnSameLine (stuBoundingBox.fromEdges 8 6 12 10)
      (stuBoundingBox.fromEdges 0 10 8 22) = true ∧
    assignCharsToLines 1 []
      (sortedChars [⟨.Char, stuBoundingBox.fromEdges 0 10 8 22⟩,
        ⟨.Char, stuBoundingBox.fromEdges 8 6 12 10⟩]) =
      [⟨stuBoundingBox.fromEdges 8 6 12 10, [⟨.Char, stuBoundingBox.fromEdges 8 6 12 10⟩]⟩,
       ⟨stuBoundingBox.fromEdges 0 10 8 22, [⟨.Char, stuBoundingBox.fromEdges 0 10 8 22⟩]⟩] := by
  decide!

end PDFLA

namespace PDFLA

/-! ## Superscripts -/

theorem updateLast_append_singleton {α : Type} (p : α → Bool) (f : α → α) (l : List α) (x : α)
    (h : p x = true) : updateLast p f (l ++ [x]) = some (l ++ [f x]) := by
  induction l with
  | nil => simp [updateLast, h]
  | cons y l ih => simp [updateLast, ih]

/-- Claim C17 (amended): a glyph of height 4 next to a base line of height 12 is vertically on
the line when its vertical overlap with the line exceeds `MIN_ITEM_SIZE` (the small-against-large
branch), and horizontally on it when the horizontal overlap exceeds `-30`; Stage A then adds the
glyph to that line, provided the line is the last one and the union is not cut by the cover. -/
theorem superscript_joins_base_line (MIN_ITEM_SIZE : ℚ) (WhitespaceCover : List stuBoundingBox)
    (ResultLines : List stuDocLine) (Base : stuDocLine) (Glyph : stuDocItem)
    (hBase : Base.BoundingBox.height = 12) (hGlyph : Glyph.BoundingBox.height = 4)
    (hv : Base.BoundingBox.verticalOverlap Glyph.BoundingBox > MIN_ITEM_SIZE)
    (hh : Base.BoundingBox.horizontalOverlap Glyph.BoundingBox > -30)
    (hc : overlapsWithCover WhitespaceCover
      (Base.BoundingBox.unionWith Glyph.BoundingBox) = false) :
    areVerticallyOnSameLine MIN_ITEM_SIZE Glyph.BoundingBox Base.BoundingBox = true ∧
    areHorizontallyOnSameLine Glyph.BoundingBox Base.BoundingBox = true ∧
    assignItem MIN_ITEM_SIZE WhitespaceCover (ResultLines ++ [Base]) Glyph =
      ResultLines ++ [addItem Glyph Base] := by
  have h₁ : areVerticallyOnSameLine MIN_ITEM_SIZE Glyph.BoundingBox Base.BoundingBox = true := by
    unfold areVerticallyOnSameLine
    simp only [hBase, hGlyph]
    rw [if_pos (Or.inl (by norm_num))]
    exact decide_eq_true hv
  have h₂ : areHorizontallyOnSameLine Glyph.BoundingBox Base.BoundingBox = true := by
    unfold areHorizontallyOnSameLine
    simp only [hBase, hGlyph]
    rw [if_neg]
    rw [not_le]
    have : max (4 : ℚ) 12 = 12 := by norm_num
    rw [this]
    linarith
  refine ⟨h₁, h₂, ?_⟩
  have hacc : lineAccepts MIN_ITEM_SIZE WhitespaceCover Glyph Base = true := by
    simp [lineAccepts, h₁, h₂, hc]
  unfold assignItem
  rw [updateLast_append_singleton _ _ _ _ hacc]

/-- Claim C17 (witness): the amended theorem at `MIN_ITEM_SIZE = 1`, the base line
`(0,10,8,22)` and the glyph `(8,8,12,12)`, which overlaps the base vertically by `2`. -/
theorem superscript_joins_base_line_witness :
    areVerticallyOnSameLine 1 (stuBoundingBox.fromEdges 8 8 12 12)
        (stuBoundingBox.fromEdges 0 10 8 22) = true ∧
    areHorizontallyOnSameLine (stuBoundingBox.fromEdges 8 8 12 12)
        (stuBoundingBox.fromEdges 0 10 8 22) = true ∧
    assignItem 1 []
        ([] ++ [⟨stuBoundingBox.fromEdges 0 10 8 22,
          [⟨.Char, stuBoundingBox.fromEdges 0 10 8 22⟩]⟩])
        ⟨.Char, stuBoundingBox.fromEdges 8 8 12 12⟩ =
      [] ++ [addItem ⟨.Char, stuBoundingBox.fromEdges 8 8 12 12⟩
        ⟨stuBoundingBox.fromEdges 0 10 8 22, [⟨.Char, stuBoundingBox.fromEdges 0 10 8 22⟩]⟩] :=
  superscript_joins_base_line 1 [] []
    ⟨stuBoundingBox.fromEdges 0 10 8 22, [⟨.Char, stuBoundingBox.fromEdges 0 10 8 22⟩]⟩
    ⟨.Char, stuBoundingBox.fromEdges 8 8 12 12⟩ (by decide!) (by decide!) (by decide!)
    (by decide!) (by decide!)

end PDFLA

namespace PDFLA

/-! ## The histogram of scenario S6 -/

theorem argmaxAux_replicate_zero (m i best : Nat) (bv : Int) (h : 0 ≤ bv) :
    argmaxAux (fun a : Int => a) (List.replicate m 0) i best bv = best := by
  induction m generalizing i with
  | zero => rfl
  | succ m ih =>
    simp only [List.replicate_succ, argmaxAux]
    rw [if_neg (not_lt.2 h)]
    exact ih _

theorem histogramStep_gap_five {MIN_ITEM_SIZE : ℚ} (a b c d e f g : Int) (rest : List Int)
    (PrevItem ThisItem : stuDocItem)
    (hv : ThisItem.BoundingBox.verticalOverlap PrevItem.BoundingBox > MIN_ITEM_SIZE)
    (hd : ThisItem.BoundingBox.left - PrevItem.BoundingBox.right = 5) :
    histogramStep MIN_ITEM_SIZE 8 (a :: b :: c :: d :: e :: f :: g :: rest) PrevItem ThisItem =
      some (a :: b :: c :: d :: (e + 1) :: (f + 1) :: (g + 1) :: rest) := by
  have hdx : toInt32 (ThisItem.BoundingBox.left - PrevItem.BoundingBox.right + 1 / 2) = 5 := by
    rw [hd]
    decide!
  unfold histogramStep
  rw [if_pos hv]
  simp only [hdx]
  rw [if_pos (by norm_num)]
  have h₁ : incrementAt (a :: b :: c :: d :: e :: f :: g :: rest) 5 =
      some (a :: b :: c :: d :: e :: (f + 1) :: g :: rest) := by
    unfold incrementAt
    rw [if_pos (by simp)]
    rfl
  have h₂ : incrementAt (a :: b :: c :: d :: e :: (f + 1) :: g :: rest) (5 - 1) =
      some (a :: b :: c :: d :: (e + 1) :: (f + 1) :: g :: rest) := by
    unfold incrementAt
    rw [if_pos (by simp)]
    rfl
  have h₃ : incrementAt (a :: b :: c :: d :: (e + 1) :: (f + 1) :: g :: rest) (5 + 1) =
      some (a :: b :: c :: d :: (e + 1) :: (f + 1) :: (g + 1) :: rest) := by
    unfold incrementAt
    rw [if_pos (by simp)]
    rfl
  rw [h₁, Option.some_bind, if_pos (by norm_num), h₂, Option.some_bind,
    if_pos (by simp only [List.length_cons]; push_cast; omega), h₃]

theorem histogramLoop_rowWithGapsOfFive {MIN_ITEM_SIZE : ℚ} (y h : ℚ) (hh : MIN_ITEM_SIZE < h)
    (a b c d : Int) (rest : List Int) :
    ∀ (n : Nat) (x : ℚ) (e f g : Int),
      histogramLoop MIN_ITEM_SIZE 8 (a :: b :: c :: d :: e :: f :: g :: rest)
        ⟨.Char, stuBoundingBox.fromEdges x y (x + 8) (y + h)⟩
        (rowWithGapsOfFive (x + 13) y h n) =
      some (a :: b :: c :: d :: (e + n) :: (f + n) :: (g + n) :: rest)
  | 0, x, e, f, g => by simp [rowWithGapsOfFive, histogramLoop]
  | n + 1, x, e, f, g => by
    simp only [rowWithGapsOfFive, histogramLoop]
    rw [histogramStep_gap_five]
    · rw [Option.some_bind, histogramLoop_rowWithGapsOfFive y h hh a b c d rest n]
      push_cast
      simp only [add_assoc, add_comm (1 : Int)]
    · simp only [stuBoundingBox.verticalOverlap, stuBoundingBox.bottom_fromEdges,
        stuBoundingBox.top_fromEdges, min_self, max_self]
      linarith
    · simp only [stuBoundingBox.left_fromEdges, stuBoundingBox.right_fromEdges]
      ring

/-- Claim C16 (amended): for the ten characters of scenario S6 (width 8, one row, gaps of 5,
mean character width 8, height above `MIN_ITEM_SIZE`) on a page wide enough to hold them, the
histogram of `computeWordSeparationThreshold` has the value 9 in each of the bins 4, 5 and 6 and
0 elsewhere, its maximum is found at index 4 (the lowest of the tied bins), and the result is
`6 = 1.5 × 4`. -/
theorem computeWordSeparationThreshold_row_of_ten (MIN_ITEM_SIZE x y h W : ℚ)
    (hh : MIN_ITEM_SIZE < h) (hx : 0 ≤ x) (hW : x + 125 ≤ W) :
    (∃ zeros,
      histogramLoop MIN_ITEM_SIZE 8 (List.replicate ⌈W⌉.toNat 0)
        ⟨.Char, stuBoundingBox.fromEdges x y (x + 8) (y + h)⟩
        (rowWithGapsOfFive (x + 13) y h 9) =
        some ([0, 0, 0, 0, 9, 9, 9] ++ List.replicate zeros 0) ∧
      argmax ([0, 0, 0, 0, 9, 9, 9] ++ List.replicate zeros (0 : Int)) (fun a => a) = 4) ∧
    computeWordSeparationThreshold MIN_ITEM_SIZE (rowWithGapsOfFive x y h 10) 8 W = some 6 := by
  have hn : 7 ≤ ⌈W⌉.toNat := by
    have h₁ : (125 : ℚ) ≤ W := by linarith
    have h₂ : ((125 : ℤ) : ℚ) ≤ ((⌈W⌉ : ℤ) : ℚ) := by
      push_cast
      exact le_trans h₁ (Int.le_ceil W)
    have h₃ : (125 : ℤ) ≤ ⌈W⌉ := by exact_mod_cast h₂
    omega
  obtain ⟨m, hm⟩ : ∃ m, ⌈W⌉.toNat = 7 + m := ⟨⌈W⌉.toNat - 7, by omega⟩
  have hrep : List.replicate (7 + m) (0 : Int) =
      0 :: 0 :: 0 :: 0 :: 0 :: 0 :: 0 :: List.replicate m 0 := by
    rw [List.replicate_add]
    rfl
  have hloop : histogramLoop MIN_ITEM_SIZE 8 (List.replicate ⌈W⌉.toNat 0)
      ⟨.Char, stuBoundingBox.fromEdges x y (x + 8) (y + h)⟩
      (rowWithGapsOfFive (x + 13) y h 9) =
      some ([0, 0, 0, 0, 9, 9, 9] ++ List.replicate m 0) := by
    rw [hm, hrep, histogramLoop_rowWithGapsOfFive y h hh]
    norm_num
  have harg : argmax ([0, 0, 0, 0, 9, 9, 9] ++ List.replicate m (0 : Int)) (fun a => a) = 4 := by
    simp only [argmax, List.cons_append, List.nil_append, argmaxAux]
    norm_num
    exact argmaxAux_replicate_zero _ _ _ _ (by norm_num)
  refine ⟨⟨m, hloop, harg⟩, ?_⟩
  unfold computeWordSeparationThreshold
  simp only [rowWithGapsOfFive] at hloop ⊢
  rw [hloop]
  simp only [Option.map_some', harg]
  norm_num

end PDFLA

namespace PDFLA

/-- Claim C16 (witness): the amended theorem at `MIN_ITEM_SIZE = 1`, a row that starts at
`(0, 0)` with height 12, and a page of width 200. -/
theorem computeWordSeparationThreshold_row_of_ten_witness :
    computeWordSeparationThreshold 1 (rowWithGapsOfFive 0 0 12 10) 8 200 = some 6 :=
  (computeWordSeparationThreshold_row_of_ten 1 0 0 12 200 (by norm_num) (by norm_num)
    (by norm_num)).2

end PDFLA

namespace PDFLA

/-! ## The container helpers -/

theorem argmaxAux_spec {α β : Type} [LinearOrder β] (f : α → β) :
    ∀ (l pre : List α) (best : Nat) (xb : α), pre[best]? = some xb →
      (∀ y ∈ pre, f y ≤ f xb) →
      ∃ x, (pre ++ l)[argmaxAux f l pre.length best (f xb)]? = some x ∧
        ∀ y ∈ pre ++ l, f y ≤ f x
  | [], pre, best, xb, hb, hmax => by
    refine ⟨xb, ?_, ?_⟩
    · simpa [argmaxAux] using hb
    · simpa using hmax
  | z :: l, pre, best, xb, hb, hmax => by
    simp only [argmaxAux]
    split
    · rename_i hlt
      have := argmaxAux_spec f l (pre ++ [z]) pre.length z (by simp)
        (by
          intro y hy
          rcases List.mem_append.1 hy with hy | hy
          · exact le_trans (hmax y hy) (le_of_lt hlt)
          · simp only [List.mem_singleton] at hy
            subst hy
            exact le_refl _)
      simpa using this
    · rename_i hlt
      have := argmaxAux_spec f l (pre ++ [z]) best xb
        (by rw [List.getElem?_append_left]; exact hb; exact (List.getElem?_eq_some_iff.1 hb).1)
        (by
          intro y hy
          rcases List.mem_append.1 hy with hy | hy
          · exact hmax y hy
          · simp only [List.mem_singleton] at hy
            subst hy
            exact not_lt.1 hlt)
      simpa using this

/-- On a non-empty container `argmax` returns the index of an element at which `f` is
greatest. -/
theorem argmax_spec {α β : Type} [LinearOrder β] (f : α → β) (cs : List α) (hc : cs ≠ []) :
    ∃ x, cs[argmax cs f]? = some x ∧ ∀ y ∈ cs, f y ≤ f x := by
  cases cs with
  | nil => exact absurd rfl hc
  | cons z l =>
    have := argmaxAux_spec f l [z] 0 z rfl (by simp)
    simpa [argmax] using this

theorem minOf_mem {α : Type} (f : α → ℚ) :
    ∀ (c : List α) (p : α), minOf c f = some p → p ∈ c
  | [], p, h => by simp [minOf] at h
  | x :: xs, p, h => by
    simp only [minOf, Option.some.injEq] at h
    subst h
    have key : ∀ (l : List α) (b : α),
        l.foldl (fun best y => if f y < f best then y else best) b ∈ b :: l := by
      intro l
      induction l with
      | nil => intro b; simp
      | cons y l ih =>
        intro b
        simp only [List.foldl_cons]
        have := ih (if f y < f b then y else b)
        rcases List.mem_cons.1 this with h | h
        · rw [h]
          split <;> simp
        · exact List.mem_cons_of_mem _ (List.mem_cons_of_mem _ h)
    exact key xs x

theorem minOf_ne_none {α : Type} (f : α → ℚ) (c : List α) (hc : c ≠ []) :
    ∃ p, minOf c f = some p := by
  cases c with
  | nil => exact absurd rfl hc
  | cons x xs => exact ⟨_, rfl⟩

/-! ## Rectangles of the whitespace search in exact arithmetic -/

namespace stuBoundingBox

theorem hasIntersectionWith_comm (a b : stuBoundingBox) :
    a.hasIntersectionWith b = b.hasIntersectionWith a := by
  simp only [hasIntersectionWith, horizontalOverlap, verticalOverlap, min_comm, max_comm]

theorem hasIntersectionWith_of_containedIn {o c p : stuBoundingBox} (hcp : c.containedIn p)
    (h : o.hasIntersectionWith c = true) : o.hasIntersectionWith p = true := by
  obtain ⟨h₁, h₂, h₃, h₄⟩ := hcp
  simp only [hasIntersectionWith, horizontalOverlap, verticalOverlap, decide_eq_true_eq] at h ⊢
  have a₁ : min o.right c.right ≤ min o.right p.right := min_le_min (le_refl _) h₃
  have a₂ : max o.left p.left ≤ max o.left c.left := max_le_max (le_refl _) h₁
  have a₃ : min o.bottom c.bottom ≤ min o.bottom p.bottom := min_le_min (le_refl _) h₄
  have a₄ : max o.top p.top ≤ max o.top c.top := max_le_max (le_refl _) h₂
  exact ⟨by linarith [h.1], by linarith [h.2]⟩

theorem containedIn_refl (a : stuBoundingBox) : a.containedIn a :=
  ⟨le_refl _, le_refl _, le_refl _, le_refl _⟩

theorem containedIn_trans {a b c : stuBoundingBox} (h₁ : a.containedIn b)
    (h₂ : b.containedIn c) : a.containedIn c :=
  ⟨le_trans h₂.1 h₁.1, le_trans h₂.2.1 h₁.2.1, le_trans h₁.2.2.1 h₂.2.2.1,
    le_trans h₁.2.2.2 h₂.2.2.2⟩

end stuBoundingBox

theorem candidateIsAcceptable_iff (b : stuBoundingBox) :
    candidateIsAcceptable b = true ↔
      4 ≤ b.width ∧ 4 ≤ b.height ∧ 128 ≤ b.width + b.height ∧ 2048 ≤ b.area := by
  simp [candidateIsAcceptable]

theorem candidateIsAcceptable_of_containedIn {r y : stuBoundingBox} (h : r.containedIn y)
    (hr : candidateIsAcceptable r = true) : candidateIsAcceptable y = true := by
  rw [candidateIsAcceptable_iff] at hr ⊢
  obtain ⟨h₁, h₂, h₃, h₄⟩ := h
  obtain ⟨a₁, a₂, a₃, a₄⟩ := hr
  have hw : r.width ≤ y.width := by
    rw [stuBoundingBox.width_eq, stuBoundingBox.width_eq]
    linarith
  have hh : r.height ≤ y.height := by
    rw [stuBoundingBox.height_eq, stuBoundingBox.height_eq]
    linarith
  refine ⟨by linarith, by linarith, by linarith, ?_⟩
  have : r.area ≤ y.area := by
    unfold stuBoundingBox.area
    exact mul_le_mul hw hh (by unfold stuBoundingBox.height at a₂; linarith)
      (by unfold stuBoundingBox.width at a₁ hw; linarith)
  linarith

theorem calculateCandidateScore_mono {r y : stuBoundingBox} (h : r.containedIn y) :
    calculateCandidateScore r ≤ calculateCandidateScore y := by
  obtain ⟨h₁, h₂, h₃, h₄⟩ := h
  unfold calculateCandidateScore
  rw [stuBoundingBox.width_eq, stuBoundingBox.width_eq, stuBoundingBox.height_eq,
    stuBoundingBox.height_eq]
  linarith

theorem one_le_score_of_acceptable {b : stuBoundingBox} (h : candidateIsAcceptable b = true) :
    1 ≤ calculateCandidateScore b := by
  rw [candidateIsAcceptable_iff] at h
  unfold calculateCandidateScore
  linarith [h.1, h.2.1]

/-- With exact edges the pivot intersects none of the four sub-rectangles built around it. -/
theorem pivot_hasIntersectionWith_split (Cover Pivot : stuBoundingBox) :
    ∀ c ∈ splitAround Cover Pivot, Pivot.hasIntersectionWith c = false := by
  intro c hc
  simp only [splitAround, List.mem_cons, List.mem_singleton, List.not_mem_nil, or_false] at hc
  simp only [stuBoundingBox.hasIntersectionWith, decide_eq_false_iff_not, not_and, not_lt,
    stuBoundingBox.horizontalOverlap, stuBoundingBox.verticalOverlap]
  rcases hc with rfl | rfl | rfl | rfl
  · intro h
    exfalso
    simp only [stuBoundingBox.right_fromEdges, stuBoundingBox.left_fromEdges] at h
    have a₁ := min_le_left Pivot.right Cover.right
    have a₂ := le_max_right Pivot.left Pivot.right
    linarith
  · intro h
    exfalso
    simp only [stuBoundingBox.right_fromEdges, stuBoundingBox.left_fromEdges] at h
    have a₁ := min_le_right Pivot.right Pivot.left
    have a₂ := le_max_left Pivot.left Cover.left
    linarith
  · intro _
    simp only [stuBoundingBox.bottom_fromEdges, stuBoundingBox.top_fromEdges]
    have a₁ := min_le_left Pivot.bottom Cover.bottom
    have a₂ := le_max_right Pivot.top Pivot.bottom
    linarith
  · intro _
    simp only [stuBoundingBox.bottom_fromEdges, stuBoundingBox.top_fromEdges]
    have a₁ := min_le_right Pivot.bottom Pivot.top
    have a₂ := le_max_left Pivot.top Cover.top
    linarith

theorem mem_newCandidates {Cover Pivot : stuBoundingBox} {Obstacles : List stuBoundingBox}
    {c : Candidate_t} (h : c ∈ newCandidates Cover Pivot Obstacles) :
    c.2.1 ∈ splitAround Cover Pivot ∧ candidateIsAcceptable c.2.1 = true ∧
      c.1 = calculateCandidateScore c.2.1 ∧
      c.2.2 = Obstacles.filter fun Item => Item.hasIntersectionWith c.2.1 := by
  unfold newCandidates at h
  rw [List.mem_filterMap] at h
  obtain ⟨child, hchild, hf⟩ := h
  split at hf
  · rename_i hacc
    simp only [Option.some.injEq] at hf
    subst hf
    exact ⟨hchild, hacc, rfl, rfl⟩
  · simp at hf

theorem mem_newCandidates_of_acceptable {Cover Pivot child : stuBoundingBox}
    {Obstacles : List stuBoundingBox} (hc : child ∈ splitAround Cover Pivot)
    (hacc : candidateIsAcceptable child = true) :
    (calculateCandidateScore child, child,
      Obstacles.filter fun Item => Item.hasIntersectionWith child) ∈
        newCandidates Cover Pivot Obstacles := by
  unfold newCandidates
  rw [List.mem_filterMap]
  exact ⟨child, hc, by simp [hacc]⟩

end PDFLA

namespace PDFLA

/-! ## The loop of the whitespace search in exact arithmetic -/

theorem findNextLargetsCoverLoop_nil (fuel : Nat) :
    findNextLargetsCoverLoop (fuel + 1) [] = some stuBoundingBox.zero := by
  simp [findNextLargetsCoverLoop]

/-- One iteration of the loop on a working set that is not empty, `X` being the triple that
`argmax` picks. -/
theorem findNextLargetsCoverLoop_succ (fuel : Nat) (Candidates : List Candidate_t)
    (X : Candidate_t) (hX : Candidates[argmax Candidates effectiveScore]? = some X) :
    findNextLargetsCoverLoop (fuel + 1) Candidates =
      if X.2.2 = [] ∨ X.1 < 1 then some X.2.1
      else
        match minOf X.2.2 (fun _obstacle => -_obstacle.area) with
        | none => none
        | some Pivot =>
          findNextLargetsCoverLoop fuel
            ((Candidates ++ newCandidates X.2.1 Pivot X.2.2).eraseIdx
              (argmax Candidates effectiveScore)) := by
  obtain ⟨Score, Cover, Obstacles⟩ := X
  have hne : Candidates.isEmpty = false := by
    cases Candidates with
    | nil => simp at hX
    | cons a l => rfl
  have hX' : Candidates[argmax Candidates fun _candidate =>
      if candidateIsAcceptable _candidate.2.1 then _candidate.1 else -1]? =
      some (Score, Cover, Obstacles) := hX
  rw [findNextLargetsCoverLoop]
  simp only [hne, Bool.false_eq_true, if_false, hX', List.isEmpty_iff]
  rfl

theorem searchMeasure_append (A B : List Candidate_t) :
    searchMeasure (A ++ B) = searchMeasure A + searchMeasure B := by
  simp [searchMeasure]

theorem searchMeasure_newCandidates_lt (Cover Pivot : stuBoundingBox)
    (Obstacles : List stuBoundingBox) (hp : Pivot ∈ Obstacles) :
    searchMeasure (newCandidates Cover Pivot Obstacles) < 5 ^ Obstacles.length := by
  have hpos : 0 < Obstacles.length := List.length_pos_of_mem hp
  have hbound : ∀ x ∈ (newCandidates Cover Pivot Obstacles).map fun c => 5 ^ c.2.2.length,
      x ≤ 5 ^ (Obstacles.length - 1) := by
    intro x hx
    rw [List.mem_map] at hx
    obtain ⟨c, hc, rfl⟩ := hx
    obtain ⟨hsplit, -, -, hobs⟩ := mem_newCandidates hc
    have hlt : c.2.2.length < Obstacles.length := by
      rw [hobs, List.length_filter_lt_length_iff_exists]
      exact ⟨Pivot, hp, by simp [pivot_hasIntersectionWith_split Cover Pivot _ hsplit]⟩
    exact Nat.pow_le_pow_right (by norm_num) (by omega)
  have hsum := List.sum_le_card_nsmul _ _ hbound
  have hlen : ((newCandidates Cover Pivot Obstacles).map fun c => 5 ^ c.2.2.length).length ≤ 4 := by
    rw [List.length_map]
    unfold newCandidates
    exact le_trans (List.length_filterMap_le _ _) (by simp [splitAround])
  have h5 : 5 ^ Obstacles.length = 5 * 5 ^ (Obstacles.length - 1) := by
    conv_lhs => rw [show Obstacles.length = (Obstacles.length - 1) + 1 by omega]
    rw [pow_succ, mul_comm]
  unfold searchMeasure
  rw [h5]
  have h4 : ((newCandidates Cover Pivot Obstacles).map fun c => 5 ^ c.2.2.length).length •
      5 ^ (Obstacles.length - 1) ≤ 4 * 5 ^ (Obstacles.length - 1) := by
    rw [smul_eq_mul]
    exact Nat.mul_le_mul_right _ hlen
  have hp5 : 0 < 5 ^ (Obstacles.length - 1) := Nat.pow_pos (by norm_num)
  omega

theorem searchMeasure_eraseIdx (Candidates : List Candidate_t) (i : Nat) (X : Candidate_t)
    (hX : Candidates[i]? = some X) :
    searchMeasure Candidates = searchMeasure (Candidates.eraseIdx i) + 5 ^ X.2.2.length := by
  induction Candidates generalizing i with
  | nil => simp at hX
  | cons a l ih =>
    cases i with
    | zero =>
      simp only [List.getElem?_cons_zero, Option.some.injEq] at hX
      subst hX
      simp [searchMeasure, add_comm]
    | succ i =>
      simp only [List.getElem?_cons_succ] at hX
      have := ih i hX
      simp only [searchMeasure, List.map_cons, List.sum_cons, List.eraseIdx_cons_succ] at this ⊢
      omega

/-- In exact arithmetic every iteration that does not return makes the measure smaller. -/
theorem searchMeasure_step (Candidates : List Candidate_t) (i : Nat) (X : Candidate_t)
    (hX : Candidates[i]? = some X) (Pivot : stuBoundingBox) (hp : Pivot ∈ X.2.2) :
    searchMeasure ((Candidates ++ newCandidates X.2.1 Pivot X.2.2).eraseIdx i) <
      searchMeasure Candidates := by
  have hi : i < Candidates.length := (List.getElem?_eq_some_iff.1 hX).1
  rw [List.eraseIdx_append_of_lt_length hi, searchMeasure_append,
    searchMeasure_eraseIdx Candidates i X hX]
  have := searchMeasure_newCandidates_lt X.2.1 Pivot X.2.2 hp
  omega

/-- In exact arithmetic the loop returns when it is given more iterations than the measure of
its working set. -/
theorem findNextLargetsCoverLoop_isSome :
    ∀ (fuel : Nat) (Candidates : List Candidate_t), searchMeasure Candidates < fuel →
      ∃ r, findNextLargetsCoverLoop fuel Candidates = some r
  | 0, _, h => absurd h (Nat.not_lt_zero _)
  | fuel + 1, Candidates, h => by
    by_cases hne : Candidates = []
    · subst hne
      exact ⟨_, findNextLargetsCoverLoop_nil fuel⟩
    · obtain ⟨X, hX, -⟩ := argmax_spec effectiveScore Candidates hne
      rw [findNextLargetsCoverLoop_succ fuel Candidates X hX]
      split
      · exact ⟨_, rfl⟩
      · rename_i hcond
        rw [not_or] at hcond
        obtain ⟨Pivot, hPivot⟩ := minOf_ne_none (fun _obstacle : stuBoundingBox =>
          -_obstacle.area) X.2.2 hcond.1
        rw [hPivot]
        simp only
        apply findNextLargetsCoverLoop_isSome
        have := searchMeasure_step Candidates _ X hX Pivot (minOf_mem _ _ _ hPivot)
        omega

/-- In exact arithmetic the lambda `findNextLargetsCover` returns a rectangle on every input. -/
theorem findNextLargetsCover_isSome (_bounds : stuBoundingBox)
    (_obstacles : List stuBoundingBox) :
    ∃ r, findNextLargetsCover _bounds _obstacles = some r := by
  unfold findNextLargetsCover
  apply findNextLargetsCoverLoop_isSome
  simp [searchMeasure]

/-- An induction principle for the loop: a property of the working set that every iteration
keeps gives a property of the rectangle returned. -/
theorem findNextLargetsCoverLoop_induct (Inv : List Candidate_t → Prop)
    (Post : stuBoundingBox → Prop) (hempty : Inv [] → Post stuBoundingBox.zero)
    (hret : ∀ (Candidates : List Candidate_t) (X : Candidate_t), Inv Candidates →
      X ∈ Candidates → (∀ Y ∈ Candidates, effectiveScore Y ≤ effectiveScore X) →
      (X.2.2 = [] ∨ X.1 < 1) → Post X.2.1)
    (hstep : ∀ (Candidates : List Candidate_t) (X : Candidate_t) (Pivot : stuBoundingBox),
      Inv Candidates → Candidates[argmax Candidates effectiveScore]? = some X →
      ¬(X.2.2 = [] ∨ X.1 < 1) → Pivot ∈ X.2.2 →
      Inv ((Candidates ++ newCandidates X.2.1 Pivot X.2.2).eraseIdx
        (argmax Candidates effectiveScore))) :
    ∀ (fuel : Nat) (Candidates : List Candidate_t) (r : stuBoundingBox), Inv Candidates →
      findNextLargetsCoverLoop fuel Candidates = some r → Post r
  | 0, _, _, _, h => by simp [findNextLargetsCoverLoop] at h
  | fuel + 1, Candidates, r, hInv, h => by
    by_cases hne : Candidates = []
    · subst hne
      rw [findNextLargetsCoverLoop_nil] at h
      cases h
      exact hempty hInv
    · obtain ⟨X, hX, hmax⟩ := argmax_spec effectiveScore Candidates hne
      rw [findNextLargetsCoverLoop_succ fuel Candidates X hX] at h
      split at h
      · rename_i hcond
        cases h
        exact hret Candidates X hInv (List.mem_iff_getElem?.2 ⟨_, hX⟩) hmax hcond
      · rename_i hcond
        cases hPivot : minOf X.2.2 (fun _obstacle : stuBoundingBox => -_obstacle.area) with
        | none => rw [hPivot] at h; cases h
        | some Pivot =>
          rw [hPivot] at h
          simp only at h
          exact findNextLargetsCoverLoop_induct Inv Post hempty hret hstep fuel _ r
            (hstep Candidates X Pivot hInv hX hcond (minOf_mem _ _ _ hPivot)) h

end PDFLA

namespace PDFLA

/-! ## Soundness of the whitespace search in exact arithmetic -/

/-- When the pivot intersects the rectangle that is split, the four sub-rectangles lie inside
that rectangle. -/
theorem split_containedIn {Cover Pivot : stuBoundingBox}
    (h : Pivot.hasIntersectionWith Cover = true) :
    ∀ c ∈ splitAround Cover Pivot, c.containedIn Cover := by
  simp only [stuBoundingBox.hasIntersectionWith, stuBoundingBox.horizontalOverlap,
    stuBoundingBox.verticalOverlap, decide_eq_true_eq] at h
  obtain ⟨hh, hv⟩ := h
  have a₁ := min_le_left Pivot.right Cover.right
  have a₂ := min_le_right Pivot.right Cover.right
  have a₃ := le_max_left Pivot.left Cover.left
  have a₄ := le_max_right Pivot.left Cover.left
  have b₁ := min_le_left Pivot.bottom Cover.bottom
  have b₂ := min_le_right Pivot.bottom Cover.bottom
  have b₃ := le_max_left Pivot.top Cover.top
  have b₄ := le_max_right Pivot.top Cover.top
  intro c hc
  simp only [splitAround, List.mem_cons, List.mem_singleton, List.not_mem_nil, or_false] at hc
  rcases hc with rfl | rfl | rfl | rfl <;>
    simp only [stuBoundingBox.containedIn, stuBoundingBox.left_fromEdges,
      stuBoundingBox.top_fromEdges, stuBoundingBox.right_fromEdges,
      stuBoundingBox.bottom_fromEdges] <;>
    refine ⟨?_, ?_, ?_, ?_⟩ <;> linarith

theorem candidateSound_newCandidates {_obstacles : List stuBoundingBox} {X c : Candidate_t}
    {Pivot : stuBoundingBox} (hX : candidateSound _obstacles X) (hp : Pivot ∈ X.2.2)
    (hc : c ∈ newCandidates X.2.1 Pivot X.2.2) : candidateSound _obstacles c := by
  obtain ⟨hsplit, -, hscore, hobs⟩ := mem_newCandidates hc
  obtain ⟨-, hXb, hXd⟩ := hX
  refine ⟨hscore, ?_, Or.inr ?_⟩
  · intro o ho hoc
    rw [hobs, List.mem_filter]
    refine ⟨?_, hoc⟩
    rcases hXd with hall | hint
    · rw [hall]; exact ho
    · have hsub := split_containedIn (hint Pivot hp).2 c.2.1 hsplit
      exact hXb o ho (stuBoundingBox.hasIntersectionWith_of_containedIn hsub hoc)
  · intro o ho
    rw [hobs, List.mem_filter] at ho
    refine ⟨?_, ho.2⟩
    rcases hXd with hall | hint
    · rw [← hall]; exact ho.1
    · exact (hint o ho.1).1

theorem candidateSound_step {_obstacles : List stuBoundingBox} {Candidates : List Candidate_t}
    {X : Candidate_t} {Pivot : stuBoundingBox} (i : Nat)
    (h : ∀ c ∈ Candidates, candidateSound _obstacles c) (hX : X ∈ Candidates)
    (hp : Pivot ∈ X.2.2) :
    ∀ c ∈ (Candidates ++ newCandidates X.2.1 Pivot X.2.2).eraseIdx i,
      candidateSound _obstacles c := by
  intro c hc
  rcases List.mem_append.1 (List.mem_of_mem_eraseIdx hc) with hc | hc
  · exact h c hc
  · exact candidateSound_newCandidates (h X hX) hp hc

theorem candidateIsAcceptable_zero : candidateIsAcceptable stuBoundingBox.zero = false := by
  decide!

/-- A rectangle returned by `findNextLargetsCover` that passes the acceptance predicate is
intersected by none of the obstacles. -/
theorem findNextLargetsCover_sound {_bounds : stuBoundingBox}
    {_obstacles : List stuBoundingBox} {r : stuBoundingBox}
    (h : findNextLargetsCover _bounds _obstacles = some r)
    (hacc : candidateIsAcceptable r = true) :
    ∀ o ∈ _obstacles, o.hasIntersectionWith r = false := by
  refine findNextLargetsCoverLoop_induct
    (fun Candidates => ∀ c ∈ Candidates, candidateSound _obstacles c)
    (fun r => candidateIsAcceptable r = true →
      ∀ o ∈ _obstacles, o.hasIntersectionWith r = false)
    ?_ ?_ ?_ _ _ r ?_ h hacc
  · intro _ hz
    rw [candidateIsAcceptable_zero] at hz
    cases hz
  · intro Candidates X hInv hX _ hcond hXacc o ho
    obtain ⟨hscore, hb, -⟩ := hInv X hX
    rcases hcond with hnil | hlt
    · by_contra hne
      have := hb o ho (by simpa using hne)
      rw [hnil] at this
      simp at this
    · have := one_le_score_of_acceptable hXacc
      rw [hscore] at hlt
      linarith
  · intro Candidates X Pivot hInv hX _ hp
    exact candidateSound_step _ hInv (List.mem_iff_getElem?.2 ⟨_, hX⟩) hp
  · intro c hc
    simp only [List.mem_singleton] at hc
    subst hc
    exact ⟨rfl, fun o ho _ => ho, Or.inl rfl⟩

/-- What the loop of `getRawWhitespaceCover` keeps true of its result list. -/
theorem getRawWhitespaceCoverLoop_sound (_bounds : stuBoundingBox)
    (_obstacles : List stuBoundingBox) :
    ∀ (n : Nat) (Result out : List stuBoundingBox),
      (∀ r ∈ Result, candidateIsAcceptable r = true ∧
        ∀ o ∈ _obstacles, o.hasIntersectionWith r = false) →
      Result.Pairwise (fun a b => a.hasIntersectionWith b = false) →
      getRawWhitespaceCoverLoop _bounds n (_obstacles ++ Result) Result = some out →
      (∀ r ∈ out, candidateIsAcceptable r = true ∧
        ∀ o ∈ _obstacles, o.hasIntersectionWith r = false) ∧
      out.Pairwise (fun a b => a.hasIntersectionWith b = false)
  | 0, Result, out, h₁, h₂, h => by
    simp only [getRawWhitespaceCoverLoop, Option.some.injEq] at h
    subst h
    exact ⟨h₁, h₂⟩
  | n + 1, Result, out, h₁, h₂, h => by
    simp only [getRawWhitespaceCoverLoop] at h
    cases hnext : findNextLargetsCover _bounds (_obstacles ++ Result) with
    | none => rw [hnext] at h; cases h
    | some NextCover =>
      rw [hnext] at h
      simp only at h
      split at h
      · rename_i hacc
        have hs := findNextLargetsCover_sound hnext hacc
        rw [List.append_assoc] at h
        refine getRawWhitespaceCoverLoop_sound _bounds _obstacles n _ out ?_ ?_ h
        · intro r hr
          rcases List.mem_append.1 hr with hr | hr
          · exact h₁ r hr
          · simp only [List.mem_singleton] at hr
            subst hr
            exact ⟨hacc, fun o ho => hs o (List.mem_append_left _ ho)⟩
        · rw [List.pairwise_append]
          refine ⟨h₂, List.pairwise_singleton _ _, ?_⟩
          intro a ha b hb
          simp only [List.mem_singleton] at hb
          subst hb
          exact hs a (List.mem_append_right _ ha)
      · simp only [Option.some.injEq] at h
        subst h
        exact ⟨h₁, h₂⟩

theorem getRawWhitespaceCoverLoop_isSome (_bounds : stuBoundingBox) :
    ∀ (n : Nat) (Obstacles Result : List stuBoundingBox),
      ∃ out, getRawWhitespaceCoverLoop _bounds n Obstacles Result = some out
  | 0, _, Result => ⟨Result, rfl⟩
  | n + 1, Obstacles, Result => by
    obtain ⟨NextCover, hnext⟩ := findNextLargetsCover_isSome _bounds Obstacles
    simp only [getRawWhitespaceCoverLoop, hnext]
    split
    · exact getRawWhitespaceCoverLoop_isSome _bounds n _ _
    · exact ⟨_, rfl⟩

/-- In exact arithmetic the function `getRawWhitespaceCover` returns a cover on every input. -/
theorem getRawWhitespaceCover_isSome (_bounds : stuBoundingBox)
    (_obstacles : List stuBoundingBox) :
    ∃ out, getRawWhitespaceCover _bounds _obstacles = some out :=
  getRawWhitespaceCoverLoop_isSome _bounds _ _ _

end PDFLA

namespace PDFLA

/-! ## The empty page -/

theorem argmax_replicate_zero (n : Nat) :
    argmax (List.replicate n (0 : Int)) (fun a => a) = 0 := by
  cases n with
  | zero => rfl
  | succ m =>
    simp only [List.replicate_succ, argmax]
    exact argmaxAux_replicate_zero _ _ _ _ (le_refl _)

/-- Claim C11: for every page size, a page without items gives no block. Every step completes:
the word-separation estimator returns `0` whatever value the mean character width has, the
whitespace-cover search returns a cover, and `getPageBlocks` returns the empty list. -/
theorem getPageBlocks_empty_page (MIN_ITEM_SIZE : ℚ) (PageSize : stuSize) :
    (∀ _meanCharWidth : ℚ,
      computeWordSeparationThreshold MIN_ITEM_SIZE [] _meanCharWidth PageSize.Width = some 0) ∧
    (∃ WhitespaceCover, pageWhitespaceCover MIN_ITEM_SIZE [] PageSize = some WhitespaceCover) ∧
    getPageBlocks MIN_ITEM_SIZE [] PageSize = some [] := by
  have hthr : ∀ _meanCharWidth : ℚ,
      computeWordSeparationThreshold MIN_ITEM_SIZE [] _meanCharWidth PageSize.Width =
        some 0 := by
    intro m
    simp [computeWordSeparationThreshold, argmax_replicate_zero]
  have hcover : ∃ WhitespaceCover,
      pageWhitespaceCover MIN_ITEM_SIZE [] PageSize = some WhitespaceCover := by
    obtain ⟨raw, hraw⟩ := getRawWhitespaceCover_isSome ⟨⟨0, 0⟩, PageSize⟩
      ((pageBlobs ([] ++ []) PageSize 0).map fun Item => Item.BoundingBox)
    refine ⟨postProcessCover MIN_ITEM_SIZE raw, ?_⟩
    have hs : sortedChars [] = [] := rfl
    have hf : sortedFigures [] = [] := rfl
    unfold pageWhitespaceCover
    simp only [hs, hf, hthr, Option.some_bind]
    unfold getWhitespaceCoverage
    rw [hraw]
    rfl
  refine ⟨hthr, hcover, ?_⟩
  obtain ⟨WhitespaceCover, hc⟩ := hcover
  unfold getPageBlocks
  simp only [List.filter_nil]
  unfold findPageLinesAndFigures
  rw [hc]
  rfl

end PDFLA

namespace PDFLA

/-! ## No fabrication and no duplication -/

theorem flatMap_set_perm {α β : Type} (f : α → List β) :
    ∀ (l : List α) (i : Nat) (x y : α), l[i]? = some x →
      ((l.set i y).flatMap f ++ f x).Perm (l.flatMap f ++ f y)
  | [], i, x, y, h => by simp at h
  | a :: l, 0, x, y, h => by
    simp only [List.getElem?_cons_zero, Option.some.injEq] at h
    subst h
    simp only [List.set_cons_zero, List.flatMap_cons, List.append_assoc]
    have h₁ : (f y ++ (l.flatMap f ++ f a)).Perm ((l.flatMap f ++ f a) ++ f y) :=
      List.perm_append_comm
    have h₂ : ((l.flatMap f ++ f a) ++ f y).Perm ((f a ++ l.flatMap f) ++ f y) :=
      (List.perm_append_comm).append_right _
    simpa using h₁.trans h₂
  | a :: l, i + 1, x, y, h => by
    simp only [List.getElem?_cons_succ] at h
    simp only [List.set_cons_succ, List.flatMap_cons, List.append_assoc]
    exact (flatMap_set_perm f l i x y h).append_left _

theorem flatMap_set_subperm (slots : List (Option stuDocLine)) (k : Nat) (m : stuDocLine) :
    ((slots.set k (some m)).flatMap itemsOfSlot).Subperm
      (m.Items ++ slots.flatMap itemsOfSlot) := by
  cases hk : slots[k]? with
  | none =>
    have hlen : slots.length ≤ k := by
      by_contra hlt
      rw [not_le] at hlt
      rw [List.getElem?_eq_getElem hlt] at hk
      cases hk
    rw [List.set_eq_of_length_le hlen]
    exact (List.sublist_append_right _ _).subperm
  | some x =>
    have h := flatMap_set_perm itemsOfSlot slots k x (some m) hk
    have h₁ : ((slots.set k (some m)).flatMap itemsOfSlot).Subperm
        ((slots.set k (some m)).flatMap itemsOfSlot ++ itemsOfSlot x) :=
      (List.sublist_append_left _ _).subperm
    exact h₁.trans ((h.trans List.perm_append_comm).subperm)

theorem flatMap_filterMap_id (slots : List (Option stuDocLine)) :
    (slots.filterMap id).flatMap (fun L => L.Items) = slots.flatMap itemsOfSlot := by
  induction slots with
  | nil => rfl
  | cons o l ih =>
    cases o with
    | none => simpa [itemsOfSlot] using ih
    | some L => simp [itemsOfSlot, ih]

/-- The merge walk moves items from the slots into `Merged` and loses none, when the indexes it
walks over are distinct and each names a slot that holds the line paired with it. -/
theorem mergeWalk_items_perm :
    ∀ (Sorted : List (Nat × stuDocLine)) (Merged : Option stuDocLine)
      (ResultLines : List (Option stuDocLine)),
      (Sorted.map Prod.fst).Nodup →
      (∀ p ∈ Sorted, ResultLines[p.1]? = some (some p.2)) →
      (itemsOfSlot (mergeWalk Merged Sorted ResultLines).1 ++
        (mergeWalk Merged Sorted ResultLines).2.flatMap itemsOfSlot).Perm
        (itemsOfSlot Merged ++ ResultLines.flatMap itemsOfSlot)
  | [], Merged, ResultLines, _, _ => by
    have hnil : mergeWalk Merged [] ResultLines = (Merged, ResultLines) := by
      cases Merged <;> rfl
    rw [hnil]
  | (i, l) :: rest, none, ResultLines, hnd, hslots => by
    simp only [mergeWalk]
    simp only [List.map_cons, List.nodup_cons] at hnd
    have hrest : ∀ p ∈ rest, (ResultLines.set i none)[p.1]? = some (some p.2) := by
      intro p hp
      have hne : i ≠ p.1 := by
        rintro rfl
        exact hnd.1 (List.mem_map.2 ⟨p, hp, rfl⟩)
      rw [List.getElem?_set, if_neg hne]
      exact hslots p (List.mem_cons_of_mem _ hp)
    have ih := mergeWalk_items_perm rest (some l) (ResultLines.set i none) hnd.2 hrest
    have hset := flatMap_set_perm itemsOfSlot ResultLines i (some l) none
      (hslots (i, l) (List.mem_cons_self _ _))
    simp only [itemsOfSlot, List.append_nil, List.nil_append] at hset ih ⊢
    exact ih.trans (List.perm_append_comm.trans hset)
  | (i, l) :: rest, some M, ResultLines, hnd, hslots => by
    simp only [mergeWalk]
    split
    · exact List.Perm.refl _
    · simp only [List.map_cons, List.nodup_cons] at hnd
      have hrest : ∀ p ∈ rest, (ResultLines.set i none)[p.1]? = some (some p.2) := by
        intro p hp
        have hne : i ≠ p.1 := by
          rintro rfl
          exact hnd.1 (List.mem_map.2 ⟨p, hp, rfl⟩)
        rw [List.getElem?_set, if_neg hne]
        exact hslots p (List.mem_cons_of_mem _ hp)
      have ih := mergeWalk_items_perm rest (some (M.mergeWith_ l)) (ResultLines.set i none)
        hnd.2 hrest
      have hset := flatMap_set_perm itemsOfSlot ResultLines i (some l) none
        (hslots (i, l) (List.mem_cons_self _ _))
      simp only [itemsOfSlot, List.append_nil, stuDocLine.mergeWith_] at hset ih ⊢
      refine ih.trans ?_
      rw [List.append_assoc]
      exact (List.perm_append_comm.trans hset).append_left _

theorem indexesOfSegmentsOfSameLine_nodup (MIN_ITEM_SIZE : ℚ)
    (WhitespaceCover : List stuBoundingBox) (ResultLines : List (Option stuDocLine))
    (LineSegment : stuDocLine) :
    ((indexesOfSegmentsOfSameLine MIN_ITEM_SIZE WhitespaceCover ResultLines
      LineSegment).map Prod.fst).Nodup := by
  have henum : ResultLines.enum.Pairwise (fun a b => a.1 ≠ b.1) := by
    have := List.nodup_enum_map_fst ResultLines
    unfold List.Nodup at this
    rwa [List.pairwise_map] at this
  unfold List.Nodup
  rw [List.pairwise_map]
  unfold indexesOfSegmentsOfSameLine
  refine List.Pairwise.filterMap _ ?_ henum
  intro a a' hne b hb b' hb'
  have e₁ : b.1 = a.1 := by
    cases ha : a.2 with
    | none => simp [ha] at hb
    | some l =>
      simp only [ha, Option.mem_def] at hb
      split at hb
      · cases hb; rfl
      · cases hb
  have e₂ : b'.1 = a'.1 := by
    cases ha : a'.2 with
    | none => simp [ha] at hb'
    | some l =>
      simp only [ha, Option.mem_def] at hb'
      split at hb'
      · cases hb'; rfl
      · cases hb'
  rw [e₁, e₂]
  exact hne

theorem mergeSegmentsAt_items_subperm (MIN_ITEM_SIZE : ℚ)
    (WhitespaceCover : List stuBoundingBox) (ResultLines : List (Option stuDocLine)) (k : Nat) :
    ((mergeSegmentsAt MIN_ITEM_SIZE WhitespaceCover ResultLines k).flatMap itemsOfSlot).Subperm
      (ResultLines.flatMap itemsOfSlot) := by
  unfold mergeSegmentsAt
  split
  · rename_i LineSegment hk
    simp only
    split
    · exact List.Subperm.refl _
    · have hperm : ((indexesOfSegmentsOfSameLine MIN_ITEM_SIZE WhitespaceCover ResultLines
          LineSegment).insertionSort fun a b =>
            a.2.BoundingBox.left ≤ b.2.BoundingBox.left).Perm
          (indexesOfSegmentsOfSameLine MIN_ITEM_SIZE WhitespaceCover ResultLines LineSegment) :=
        List.perm_insertionSort _ _
      have hw := mergeWalk_items_perm
        ((indexesOfSegmentsOfSameLine MIN_ITEM_SIZE WhitespaceCover ResultLines
          LineSegment).insertionSort fun a b => a.2.BoundingBox.left ≤ b.2.BoundingBox.left)
        none ResultLines
        (((hperm.map Prod.fst).nodup_iff).2
          (indexesOfSegmentsOfSameLine_nodup MIN_ITEM_SIZE WhitespaceCover ResultLines
            LineSegment))
        (by
          intro p hp
          rw [List.mem_insertionSort] at hp
          exact (mem_indexesOfSegmentsOfSameLine.1 hp).1)
      split
      · rename_i Merged Lines hmw
        rw [hmw] at hw
        simp only [itemsOfSlot, List.nil_append] at hw
        refine (flatMap_set_subperm Lines k _).trans ?_
        refine List.Perm.subperm (List.Perm.trans ?_ hw)
        exact (List.perm_insertionSort _ _).append_right _
      · rename_i Lines hmw
        rw [hmw] at hw
        simp only [itemsOfSlot, List.nil_append] at hw
        exact hw.subperm
  · exact List.Subperm.refl _

theorem mergeLineSegments_items_subperm (MIN_ITEM_SIZE : ℚ)
    (WhitespaceCover : List stuBoundingBox) (ResultLines : List stuDocLine) :
    ((mergeLineSegments MIN_ITEM_SIZE WhitespaceCover ResultLines).flatMap
      fun L => L.Items).Subperm (ResultLines.flatMap fun L => L.Items) := by
  have key : ∀ (ks : List Nat) (slots : List (Option stuDocLine)),
      ((ks.foldl (mergeSegmentsAt MIN_ITEM_SIZE WhitespaceCover) slots).flatMap
        itemsOfSlot).Subperm (slots.flatMap itemsOfSlot) := by
    intro ks
    induction ks with
    | nil => intro slots; exact List.Subperm.refl _
    | cons k ks ih =>
      intro slots
      simp only [List.foldl_cons]
      exact (ih _).trans (mergeSegmentsAt_items_subperm _ _ slots k)
  unfold mergeLineSegments
  rw [flatMap_filterMap_id]
  refine (key _ _).trans ?_
  rw [← flatMap_filterMap_id]
  simp only [List.filterMap_map, Function.id_comp, List.filterMap_some]
  exact List.Subperm.refl _

theorem assignCharsToLines_items_perm (MIN_ITEM_SIZE : ℚ)
    (WhitespaceCover : List stuBoundingBox) (SortedChars : List stuDocItem) :
    ((assignCharsToLines MIN_ITEM_SIZE WhitespaceCover SortedChars).flatMap
      fun L => L.Items).Perm SortedChars := by
  have key : ∀ (todo : List stuDocItem) (ResultLines : List stuDocLine)
      (done : List stuDocItem), (ResultLines.flatMap fun L => L.Items).Perm done →
      ((todo.foldl (assignItem MIN_ITEM_SIZE WhitespaceCover) ResultLines).flatMap
        fun L => L.Items).Perm (done ++ todo) := by
    intro todo
    induction todo with
    | nil => intro ResultLines done h; simpa using h
    | cons Item todo ih =>
      intro ResultLines done h
      simp only [List.foldl_cons]
      have hstep : ((assignItem MIN_ITEM_SIZE WhitespaceCover ResultLines Item).flatMap
          fun L => L.Items).Perm (done ++ [Item]) := by
        unfold assignItem
        cases hu : updateLast (lineAccepts MIN_ITEM_SIZE WhitespaceCover Item) (addItem Item)
            ResultLines with
        | some lines =>
          obtain ⟨l₁, x, l₂, h₁, h₂, -, -⟩ := updateLast_some hu
          subst h₁ h₂
          simp only [List.flatMap_append, List.flatMap_cons, addItem] at h ⊢
          exact (perm_append_singleton_middle _ _ _ _).trans (h.append_right [Item])
        | none =>
          simp only [List.flatMap_append, List.flatMap_cons, List.flatMap_nil, addItem,
            List.nil_append, List.append_nil]
          exact h.append_right [Item]
      have := ih _ _ hstep
      simpa using this
  exact key SortedChars [] [] (by simp)

/-- Claim C12: the items found across all the lines that `findPageLinesAndFigures` returns form
a sub-multiset of the input Char items: every item of a line is an input character, and no
input character is used twice, in two lines or in one. -/
theorem findPageLinesAndFigures_items_subperm (MIN_ITEM_SIZE : ℚ)
    (_docItems : List stuDocItem) (_pageSize : stuSize) (Lines : List stuDocLine)
    (Figures : List stuDocItem)
    (h : findPageLinesAndFigures MIN_ITEM_SIZE _docItems _pageSize = some (Lines, Figures)) :
    (Lines.flatMap fun L => L.Items).Subperm
      (_docItems.filter fun e => decide (e.Type_ = enuDocItemType.Char)) := by
  unfold findPageLinesAndFigures at h
  rw [Option.map_eq_some'] at h
  obtain ⟨WhitespaceCover, -, hEq⟩ := h
  simp only [Prod.mk.injEq] at hEq
  rw [← hEq.1]
  refine (mergeLineSegments_items_subperm _ _ _).trans ?_
  refine ((assignCharsToLines_items_perm _ _ _).trans ?_).subperm
  unfold sortedChars sortByBoundingBoxes
  refine (List.perm_insertionSort _ _).trans ?_
  have : (fun e : stuDocItem => !decide (e.Type_ ≠ enuDocItemType.Char)) =
      fun e => decide (e.Type_ = enuDocItemType.Char) := by
    funext e
    simp
  rw [this]

/-- Claim C12 (witness): the theorem at the page of scenario S3, where Stage B drops the second
character: the items of the one line returned are among the two input characters. -/
theorem findPageLinesAndFigures_items_subperm_witness :
    (([⟨stuBoundingBox.fromEdges 0 10 40 22,
        [⟨.Char, stuBoundingBox.fromEdges 0 10 40 22⟩]⟩] : List stuDocLine).flatMap
      fun L => L.Items).Subperm
      (([⟨.Char, stuBoundingBox.fromEdges 0 10 40 22⟩,
         ⟨.Char, stuBoundingBox.fromEdges 160 10 200 22⟩,
         ⟨.Figure, stuBoundingBox.fromEdges 60 0 140 50⟩] : List stuDocItem).filter
        fun e => decide (e.Type_ = enuDocItemType.Char)) :=
  findPageLinesAndFigures_items_subperm 1
    [⟨.Char, stuBoundingBox.fromEdges 0 10 40 22⟩,
     ⟨.Char, stuBoundingBox.fromEdges 160 10 200 22⟩,
     ⟨.Figure, stuBoundingBox.fromEdges 60 0 140 50⟩] ⟨200, 50⟩ _
    [⟨.Figure, stuBoundingBox.fromEdges 60 0 140 50⟩] (by decide!)

end PDFLA

namespace PDFLA

/-! ## The final cover holds vertical rectangles only -/

theorem heightLeftOf_append_singleton (ms : List stuBoundingBox) (p : stuBoundingBox) (c : ℚ) :
    heightLeftOf (ms ++ [p]) c =
      heightLeftOf ms c + if p.left < c ∧ c ≤ p.right then p.height else 0 := by
  unfold heightLeftOf
  by_cases h : p.left < c ∧ c ≤ p.right
  · simp [List.filter_append, List.filter_cons, h]
  · simp [List.filter_append, List.filter_cons, h]

theorem heightRightOf_append_singleton (ms : List stuBoundingBox) (p : stuBoundingBox)
    (c : ℚ) :
    heightRightOf (ms ++ [p]) c =
      heightRightOf ms c + if p.left ≤ c ∧ c < p.right then p.height else 0 := by
  unfold heightRightOf
  by_cases h : p.left ≤ c ∧ c < p.right
  · simp [List.filter_append, List.filter_cons, h]
  · simp [List.filter_append, List.filter_cons, h]

/-- Boxes stacked without vertical overlap inside the band `[T, B]` have heights that sum to at
most the height of the band. -/
theorem sum_height_le_of_stacked :
    ∀ (n : Nat) (ms : List stuBoundingBox) (T B : ℚ), ms.length ≤ n → T ≤ B →
      (∀ m ∈ ms, T ≤ m.top ∧ m.bottom ≤ B ∧ 0 < m.height) →
      ms.Pairwise (fun a b => a.bottom ≤ b.top ∨ b.bottom ≤ a.top) →
      (ms.map fun m => m.height).sum ≤ B - T
  | _, [], T, B, _, hTB, _, _ => by simpa using hTB
  | 0, x :: xs, _, _, hlen, _, _, _ => by simp at hlen
  | n + 1, x :: xs, T, B, hlen, hTB, hin, hpw => by
    rw [List.pairwise_cons] at hpw
    have hx := hin x (List.mem_cons_self _ _)
    have hxb : x.bottom = x.top + x.height := by
      simp [stuBoundingBox.bottom, stuBoundingBox.top, stuBoundingBox.height]
    have hlen' : xs.length ≤ n := by simpa using hlen
    have hlo := sum_height_le_of_stacked n (xs.filter fun m => decide (m.bottom ≤ x.top)) T x.top
      (le_trans (List.length_filter_le _ _) hlen') hx.1
      (by
        intro m hm
        rw [List.mem_filter] at hm
        have := hin m (List.mem_cons_of_mem _ hm.1)
        exact ⟨this.1, by simpa using hm.2, this.2.2⟩)
      (hpw.2.sublist (List.filter_sublist _))
    have hhi := sum_height_le_of_stacked n (xs.filter fun m => !decide (m.bottom ≤ x.top))
      x.bottom B (le_trans (List.length_filter_le _ _) hlen') hx.2.1
      (by
        intro m hm
        rw [List.mem_filter] at hm
        have hm' := hin m (List.mem_cons_of_mem _ hm.1)
        have hnot : ¬ m.bottom ≤ x.top := by simpa using hm.2
        rcases hpw.1 m hm.1 with h | h
        · exact ⟨h, hm'.2.1, hm'.2.2⟩
        · exact absurd h hnot)
      (hpw.2.sublist (List.filter_sublist _))
    have hsplit : (xs.map fun m => m.height).sum =
        ((xs.filter fun m => decide (m.bottom ≤ x.top)).map fun m => m.height).sum +
          ((xs.filter fun m => !decide (m.bottom ≤ x.top)).map fun m => m.height).sum := by
      clear hlo hhi hpw hin hlen hlen'
      induction xs with
      | nil => simp
      | cons y ys ih =>
        by_cases hy : y.bottom ≤ x.top
        · simp only [List.map_cons, List.sum_cons, List.filter_cons, hy, decide_True,
            Bool.not_true, if_true, ih]
          simp only [Bool.false_eq_true, if_false]
          ring
        · simp only [List.map_cons, List.sum_cons, List.filter_cons, hy, decide_False,
            Bool.not_false, if_true, ih]
          simp only [Bool.false_eq_true, if_false, List.map_cons, List.sum_cons]
          ring
    simp only [List.map_cons, List.sum_cons]
    rw [hsplit]
    linarith

end PDFLA

namespace PDFLA

theorem heightLeftOf_nonneg {ms : List stuBoundingBox} (hms : ∀ m ∈ ms, 0 ≤ m.height)
    (c : ℚ) : 0 ≤ heightLeftOf ms c := by
  unfold heightLeftOf
  apply List.sum_nonneg
  intro x hx
  rw [List.mem_map] at hx
  obtain ⟨m, hm, rfl⟩ := hx
  exact hms m (List.mem_filter.1 hm).1

theorem heightRightOf_nonneg {ms : List stuBoundingBox} (hms : ∀ m ∈ ms, 0 ≤ m.height)
    (c : ℚ) : 0 ≤ heightRightOf ms c := by
  unfold heightRightOf
  apply List.sum_nonneg
  intro x hx
  rw [List.mem_map] at hx
  obtain ⟨m, hm, rfl⟩ := hx
  exact hms m (List.mem_filter.1 hm).1

theorem stackedCore_mono {γ γ' : ℚ} {S : stuBoundingBox} {ms : List stuBoundingBox}
    (h : γ' ≤ γ) (hinv : stackedCore γ S ms) : stackedCore γ' S ms := by
  obtain ⟨c₁, c₂, h1, h2, h3, hA, hB, hC, hC', hD⟩ := hinv
  refine ⟨c₁, c₂, h1, h2, h3, ?_, ?_, hC, hC', ?_⟩
  · have := mul_le_mul_of_nonneg_right h (sub_nonneg.2 h3)
    linarith
  · have := mul_le_mul_of_nonneg_right h (sub_nonneg.2 h1)
    linarith
  · have := mul_le_mul_of_nonneg_right h (sub_nonneg.2 (le_trans h1 (le_trans h2.le h3)))
    linarith

theorem stackedCore_singleton {γ : ℚ} {S p : stuBoundingBox} (hγ : γ ≤ 20)
    (hL : S.left = p.left) (hR : S.right = p.right) (hw : 0 < p.right - p.left)
    (hh : p.right - p.left < p.height) : stackedCore γ S [p] := by
  have hl : ∀ c, p.left < c → c ≤ p.right → heightLeftOf [p] c = p.height := by
    intro c h₁ h₂
    simp [heightLeftOf, List.filter_cons, h₁, h₂]
  have hr : ∀ c, p.left ≤ c → c < p.right → heightRightOf [p] c = p.height := by
    intro c h₁ h₂
    simp [heightRightOf, List.filter_cons, h₁, h₂]
  have hlt : p.left < p.right := by linarith
  refine ⟨p.left, p.right, hL.le, hlt, hR.ge, ?_, ?_, ?_, ?_, ?_⟩
  · rw [hl _ hlt le_rfl, hR]; linarith
  · rw [hr _ le_rfl hlt, hL]; linarith
  · intro c h₁ h₂; rw [hr _ h₁ h₂]; linarith
  · intro c h₁ h₂; rw [hl _ h₁ h₂]; linarith
  · rw [hL, hR]
    have := mul_le_mul_of_nonneg_right hγ hw.le
    linarith

end PDFLA

namespace PDFLA

/-- One merge of the union-merge loop keeps the invariant, at the price of one twentieth of the
factor: the candidate `p` overlaps the stored item `S` over at least 95% of the narrower of the
two, and `S'` spans both. -/
theorem stackedCore_merge {γ : ℚ} {S S' p : stuBoundingBox} {ms : List stuBoundingBox}
    (hγ₁ : 1 < γ) (hγ₂ : γ ≤ 20) (hms : ∀ m ∈ ms, 0 ≤ m.height)
    (hL : S'.left = min S.left p.left) (hR : S'.right = max S.right p.right)
    (hw : 0 < p.right - p.left) (hh : p.right - p.left < p.height)
    (hov : 19 / 20 * min (S.right - S.left) (p.right - p.left) ≤
      min S.right p.right - max S.left p.left)
    (hinv : stackedCore γ S ms) : stackedCore (19 / 20 * γ) S' (ms ++ [p]) := by
  obtain ⟨c₁, c₂, h1, h2, h3, hA, hB, hC, hC', hD⟩ := hinv
  have hγ₀ : 0 ≤ γ := by linarith
  have hpos : 0 < p.height := by linarith
  have nnL := heightLeftOf_nonneg hms
  have nnR := heightRightOf_nonneg hms
  have geL : ∀ c, heightLeftOf ms c ≤ heightLeftOf (ms ++ [p]) c := by
    intro c
    rw [heightLeftOf_append_singleton]
    split_ifs <;> linarith
  have geR : ∀ c, heightRightOf ms c ≤ heightRightOf (ms ++ [p]) c := by
    intro c
    rw [heightRightOf_append_singleton]
    split_ifs <;> linarith
  have eqL : ∀ c, p.left < c → c ≤ p.right →
      heightLeftOf (ms ++ [p]) c = heightLeftOf ms c + p.height := by
    intro c h₁ h₂
    rw [heightLeftOf_append_singleton, if_pos ⟨h₁, h₂⟩]
  have eqR : ∀ c, p.left ≤ c → c < p.right →
      heightRightOf (ms ++ [p]) c = heightRightOf ms c + p.height := by
    intro c h₁ h₂
    rw [heightRightOf_append_singleton, if_pos ⟨h₁, h₂⟩]
  have hWpos : 0 < S.right - S.left := by linarith
  unfold stackedCore
  rw [hL, hR]
  by_cases ha : S.left ≤ p.left
  · by_cases hb : p.right ≤ S.right
    · -- the candidate lies within the stored item
      rw [min_eq_left ha, max_eq_left hb]
      refine ⟨c₁, c₂, h1, h2, h3, ?_, ?_, ?_, ?_, ?_⟩
      · have := mul_nonneg hγ₀ (sub_nonneg.2 h3)
        have := geL c₂
        linarith
      · have := mul_nonneg hγ₀ (sub_nonneg.2 h1)
        have := geR c₁
        linarith
      · intro c h₁ h₂; exact le_trans (hC c h₁ h₂) (geR c)
      · intro c h₁ h₂; exact le_trans (hC' c h₁ h₂) (geL c)
      · have := mul_nonneg hγ₀ hWpos.le
        linarith
    · -- the candidate sticks out on the right
      rw [not_le] at hb
      rw [min_eq_left ha, max_eq_right hb.le]
      rw [min_eq_left hb.le, max_eq_right ha] at hov
      by_cases hwW : p.right - p.left ≤ S.right - S.left
      · rw [min_eq_right hwW] at hov
        refine ⟨c₁, c₂, h1, h2, by linarith, ?_, ?_, ?_, ?_, ?_⟩
        · by_cases hac : p.left < c₂
          · rw [eqL c₂ hac (by linarith)]
            have := mul_nonneg hγ₀ (sub_nonneg.2 h3)
            have := mul_nonneg (sub_nonneg.2 hγ₂) (sub_nonneg.2 hb.le)
            linarith
          · rw [not_lt] at hac
            have := geL c₂
            have : 0 ≤ γ * ((S.right - c₂) - 19 * (p.right - S.right)) :=
              mul_nonneg hγ₀ (by linarith)
            linarith
        · have := mul_nonneg hγ₀ (sub_nonneg.2 h1)
          have := geR c₁
          linarith
        · intro c h₁ h₂; exact le_trans (hC c h₁ h₂) (geR c)
        · intro c h₁ h₂; exact le_trans (hC' c h₁ h₂) (geL c)
        · have : 0 ≤ γ * ((S.right - S.left) - 20 * (p.right - S.right)) :=
            mul_nonneg hγ₀ (by linarith)
          have := mul_nonneg hγ₀ hWpos.le
          linarith
      · rw [not_le] at hwW
        rw [min_eq_left hwW.le] at hov
        by_cases hac : p.left ≤ c₁
        · refine ⟨c₁, p.right, h1, by linarith, le_rfl, ?_, ?_, ?_, ?_, ?_⟩
          · rw [eqL p.right (by linarith) le_rfl]
            have := nnL p.right
            linarith
          · rw [eqR c₁ hac (by linarith)]
            have := mul_nonneg hγ₀ (sub_nonneg.2 h1)
            linarith
          · intro c h₁ h₂
            rw [eqR c (by linarith) h₂]
            have := nnR c
            linarith
          · intro c h₁ h₂
            rw [eqL c (by linarith) h₂]
            have := nnL c
            linarith
          · have := mul_nonneg (sub_nonneg.2 hγ₂) (sub_nonneg.2 hb.le)
            have := mul_nonneg hγ₀ hWpos.le
            linarith
        · rw [not_le] at hac
          have hac₂ : p.left < c₂ := by
            have : 0 < (γ - 1) * (S.right - S.left) := mul_pos (by linarith) hWpos
            linarith
          refine ⟨p.left, p.right, ha, by linarith, le_rfl, ?_, ?_, ?_, ?_, ?_⟩
          · rw [eqL p.right (by linarith) le_rfl]
            have := nnL p.right
            linarith
          · rw [eqR p.left le_rfl (by linarith)]
            have := hC p.left hac.le hac₂
            have : 0 ≤ γ * ((S.right - S.left) - 20 * (p.left - S.left)) :=
              mul_nonneg hγ₀ (by linarith)
            have := mul_nonneg hγ₀ (sub_nonneg.2 ha)
            linarith
          · intro c h₁ h₂
            rw [eqR c h₁ h₂]
            have := nnR c
            linarith
          · intro c h₁ h₂
            rw [eqL c h₁ h₂]
            have := nnL c
            linarith
          · have := mul_nonneg (sub_nonneg.2 hγ₂) hw.le
            have := mul_nonneg (sub_nonneg.2 hγ₂) (sub_nonneg.2 ha)
            linarith
  · rw [not_le] at ha
    by_cases hb : p.right ≤ S.right
    · -- the candidate sticks out on the left
      rw [min_eq_right ha.le, max_eq_left hb]
      rw [min_eq_right hb, max_eq_left ha.le] at hov
      by_cases hwW : p.right - p.left ≤ S.right - S.left
      · rw [min_eq_right hwW] at hov
        refine ⟨c₁, c₂, by linarith, h2, h3, ?_, ?_, ?_, ?_, ?_⟩
        · have := mul_nonneg hγ₀ (sub_nonneg.2 h3)
          have := geL c₂
          linarith
        · by_cases hbc : c₁ < p.right
          · rw [eqR c₁ (by linarith) hbc]
            have := mul_nonneg hγ₀ (sub_nonneg.2 h1)
            have := mul_nonneg (sub_nonneg.2 hγ₂) (sub_nonneg.2 ha.le)
            linarith
          · rw [not_lt] at hbc
            have := geR c₁
            have : 0 ≤ γ * ((c₁ - S.left) - 19 * (S.left - p.left)) :=
              mul_nonneg hγ₀ (by linarith)
            linarith
        · intro c h₁ h₂; exact le_trans (hC c h₁ h₂) (geR c)
        · intro c h₁ h₂; exact le_trans (hC' c h₁ h₂) (geL c)
        · have : 0 ≤ γ * ((S.right - S.left) - 20 * (S.left - p.left)) :=
            mul_nonneg hγ₀ (by linarith)
          have := mul_nonneg hγ₀ hWpos.le
          linarith
      · rw [not_le] at hwW
        rw [min_eq_left hwW.le] at hov
        by_cases hbc : c₂ ≤ p.right
        · refine ⟨p.left, c₂, le_rfl, by linarith, h3, ?_, ?_, ?_, ?_, ?_⟩
          · rw [eqL c₂ (by linarith) hbc]
            have := mul_nonneg hγ₀ (sub_nonneg.2 h3)
            linarith
          · rw [eqR p.left le_rfl (by linarith)]
            have := nnR p.left
            linarith
          · intro c h₁ h₂
            rw [eqR c h₁ (by linarith)]
            have := nnR c
            linarith
          · intro c h₁ h₂
            rw [eqL c h₁ (by linarith)]
            have := nnL c
            linarith
          · have := mul_nonneg (sub_nonneg.2 hγ₂) (sub_nonneg.2 ha.le)
            have := mul_nonneg hγ₀ hWpos.le
            linarith
        · rw [not_le] at hbc
          have hbc₁ : c₁ < p.right := by
            have : 0 < (γ - 1) * (S.right - S.left) := mul_pos (by linarith) hWpos
            linarith
          refine ⟨p.left, p.right, le_rfl, by linarith, hb, ?_, ?_, ?_, ?_, ?_⟩
          · rw [eqL p.right (by linarith) le_rfl]
            have := hC' p.right hbc₁ hbc.le
            have : 0 ≤ γ * ((S.right - S.left) - 20 * (S.right - p.right)) :=
              mul_nonneg hγ₀ (by linarith)
            have := mul_nonneg hγ₀ (sub_nonneg.2 hb)
            linarith
          · rw [eqR p.left le_rfl (by linarith)]
            have := nnR p.left
            linarith
          · intro c h₁ h₂
            rw [eqR c h₁ h₂]
            have := nnR c
            linarith
          · intro c h₁ h₂
            rw [eqL c h₁ h₂]
            have := nnL c
            linarith
          · have := mul_nonneg (sub_nonneg.2 hγ₂) hw.le
            have := mul_nonneg (sub_nonneg.2 hγ₂) (sub_nonneg.2 hb)
            linarith
    · -- the candidate spans the stored item
      rw [not_le] at hb
      rw [min_eq_right ha.le, max_eq_right hb.le]
      refine ⟨p.left, p.right, le_rfl, by linarith, le_rfl, ?_, ?_, ?_, ?_, ?_⟩
      · rw [eqL p.right (by linarith) le_rfl]
        have := nnL p.right
        linarith
      · rw [eqR p.left le_rfl (by linarith)]
        have := nnR p.left
        linarith
      · intro c h₁ h₂
        rw [eqR c h₁ h₂]
        have := nnR c
        linarith
      · intro c h₁ h₂
        rw [eqL c h₁ h₂]
        have := nnL c
        linarith
      · have := mul_nonneg (sub_nonneg.2 hγ₂) hw.le
        linarith

end PDFLA

namespace PDFLA

theorem mergeSlack_succ (n : Nat) : mergeSlack (n + 1) = 19 / 20 * mergeSlack n := by
  unfold mergeSlack
  rw [pow_succ]
  ring

theorem mergeSlack_le (n : Nat) : mergeSlack n ≤ 20 := by
  unfold mergeSlack
  have : ((19 : ℚ) / 20) ^ n ≤ 1 := pow_le_one₀ (by norm_num) (by norm_num)
  linarith

theorem mergeSlack_anti {m n : Nat} (h : m ≤ n) : mergeSlack n ≤ mergeSlack m := by
  unfold mergeSlack
  have : ((19 : ℚ) / 20) ^ n ≤ (19 / 20) ^ m :=
    pow_le_pow_of_le_one (by norm_num) (by norm_num) h
  linarith

theorem two_le_mergeSlack {n : Nat} (h : n ≤ MAX_COVER_NUMBER_OF_ITEMS) : 2 ≤ mergeSlack n := by
  refine le_trans ?_ (mergeSlack_anti h)
  unfold mergeSlack MAX_COVER_NUMBER_OF_ITEMS
  norm_num

/-- A stored item that satisfies the invariant with a factor of at least two is vertical: the
raw items over an edge of the core do not intersect, so they stack inside the item. -/
theorem width_lt_height_of_stackedCore {γ : ℚ} {S : stuBoundingBox}
    {ms : List stuBoundingBox} (hγ : 2 ≤ γ) (hfrom : mergedFrom S ms)
    (hinv : stackedCore γ S ms) : S.width < S.height := by
  obtain ⟨c₁, c₂, h1, h2, h3, hA, hB, -, -, -⟩ := hinv
  obtain ⟨hin, hpw⟩ := hfrom
  have stack : ∀ (q : stuBoundingBox → Bool),
      (∀ a ∈ ms, ∀ b ∈ ms, q a = true → q b = true → 0 < a.horizontalOverlap b) →
      0 < ((ms.filter q).map fun m => m.height).sum →
      ((ms.filter q).map fun m => m.height).sum ≤ S.height := by
    intro q hq hposs
    have hne : ms.filter q ≠ [] := by
      intro h
      rw [h] at hposs
      simp at hposs
    obtain ⟨m₀, hm₀⟩ := List.exists_mem_of_ne_nil _ hne
    have hm₀' := hin m₀ (List.mem_filter.1 hm₀).1
    have hTB : S.top ≤ S.bottom := by
      have := stuBoundingBox.height_eq m₀
      linarith [hm₀'.2.2.1, hm₀'.2.2.2.1, hm₀'.2.2.2.2.1, hm₀'.2.2.2.2.2]
    rw [stuBoundingBox.height_eq S]
    refine sum_height_le_of_stacked _ _ _ _ le_rfl hTB ?_ ?_
    · intro m hm
      have := hin m (List.mem_filter.1 hm).1
      exact ⟨this.2.2.1, this.2.2.2.1, by linarith [this.2.2.2.2.1, this.2.2.2.2.2]⟩
    · refine List.Pairwise.imp_of_mem ?_ (hpw.sublist (List.filter_sublist _))
      intro a b ha hb hab
      rw [List.mem_filter] at ha hb
      have hov := hq a ha.1 b hb.1 ha.2 hb.2
      have hv : a.verticalOverlap b ≤ 0 := by
        by_contra hcon
        rw [not_le] at hcon
        have : a.hasIntersectionWith b = true := by
          simp [stuBoundingBox.hasIntersectionWith, hov, hcon]
        rw [hab] at this
        cases this
      have ha' := hin a ha.1
      have hb' := hin b hb.1
      have hat : a.top < a.bottom := by
        have := stuBoundingBox.height_eq a
        linarith [ha'.2.2.2.2.1, ha'.2.2.2.2.2]
      have hbt : b.top < b.bottom := by
        have := stuBoundingBox.height_eq b
        linarith [hb'.2.2.2.2.1, hb'.2.2.2.2.2]
      unfold stuBoundingBox.verticalOverlap at hv
      rcases le_total a.bottom b.bottom with h | h
      · rw [min_eq_left h] at hv
        rcases le_total a.top b.top with h' | h'
        · rw [max_eq_right h'] at hv; left; linarith
        · rw [max_eq_left h'] at hv; linarith
      · rw [min_eq_right h] at hv
        rcases le_total a.top b.top with h' | h'
        · rw [max_eq_right h'] at hv; linarith
        · rw [max_eq_left h'] at hv; right; linarith
  have hl : heightLeftOf ms c₂ ≤ S.height := by
    refine stack _ ?_ ?_
    · intro a _ b _ ha hb
      simp only [decide_eq_true_eq] at ha hb
      unfold stuBoundingBox.horizontalOverlap
      have h₁ : c₂ ≤ min a.right b.right := le_min ha.2 hb.2
      have h₂ : max a.left b.left < c₂ := max_lt ha.1 hb.1
      linarith
    · have := mul_nonneg (by linarith : (0 : ℚ) ≤ γ) (sub_nonneg.2 h3)
      unfold heightLeftOf at hA
      linarith
  have hr : heightRightOf ms c₁ ≤ S.height := by
    refine stack _ ?_ ?_
    · intro a _ b _ ha hb
      simp only [decide_eq_true_eq] at ha hb
      unfold stuBoundingBox.horizontalOverlap
      have h₁ : c₁ < min a.right b.right := lt_min ha.2 hb.2
      have h₂ : max a.left b.left ≤ c₁ := max_le ha.1 hb.1
      linarith
    · have := mul_nonneg (by linarith : (0 : ℚ) ≤ γ) (sub_nonneg.2 h1)
      unfold heightRightOf at hB
      linarith
  have e₁ := mul_le_mul_of_nonneg_right hγ (sub_nonneg.2 h3)
  have e₂ := mul_le_mul_of_nonneg_right hγ (sub_nonneg.2 h1)
  rw [stuBoundingBox.width_eq S]
  linarith

/-- The extension loop keeps the horizontal extent of a cover item and can only stretch it
vertically. -/
theorem foldl_extendCoverItem (MIN_ITEM_SIZE : ℚ) (Helpers : List stuBoundingBox) :
    ∀ CoverItem : stuBoundingBox,
      (Helpers.foldl (extendCoverItem MIN_ITEM_SIZE) CoverItem).left = CoverItem.left ∧
      (Helpers.foldl (extendCoverItem MIN_ITEM_SIZE) CoverItem).right = CoverItem.right ∧
      (Helpers.foldl (extendCoverItem MIN_ITEM_SIZE) CoverItem).top ≤ CoverItem.top ∧
      CoverItem.bottom ≤ (Helpers.foldl (extendCoverItem MIN_ITEM_SIZE) CoverItem).bottom := by
  induction Helpers with
  | nil => intro C; simp
  | cons H Hs ih =>
    intro C
    simp only [List.foldl_cons]
    have key : (extendCoverItem MIN_ITEM_SIZE C H).left = C.left ∧
        (extendCoverItem MIN_ITEM_SIZE C H).right = C.right ∧
        (extendCoverItem MIN_ITEM_SIZE C H).top ≤ C.top ∧
        C.bottom ≤ (extendCoverItem MIN_ITEM_SIZE C H).bottom := by
      unfold extendCoverItem
      split
      · refine ⟨rfl, rfl, ?_, ?_⟩
        · exact min_le_left _ _
        · simp only [stuBoundingBox.bottom]
          have := le_max_left (C.Origin.Y + C.Size.Height) H.bottom
          simp only [stuBoundingBox.bottom] at this ⊢
          linarith
      · exact ⟨rfl, rfl, le_rfl, le_rfl⟩
    obtain ⟨k₁, k₂, k₃, k₄⟩ := key
    obtain ⟨i₁, i₂, i₃, i₄⟩ := ih (extendCoverItem MIN_ITEM_SIZE C H)
    exact ⟨i₁.trans k₁, i₂.trans k₂, i₃.trans k₃, k₄.trans i₄⟩

end PDFLA

namespace PDFLA

theorem getRawWhitespaceCoverLoop_length (_bounds : stuBoundingBox) :
    ∀ (n : Nat) (Obstacles Result out : List stuBoundingBox),
      getRawWhitespaceCoverLoop _bounds n Obstacles Result = some out →
      out.length ≤ Result.length + n
  | 0, _, Result, out, h => by
    simp only [getRawWhitespaceCoverLoop, Option.some.injEq] at h
    subst h
    simp
  | n + 1, Obstacles, Result, out, h => by
    simp only [getRawWhitespaceCoverLoop] at h
    cases hnext : findNextLargetsCover _bounds Obstacles with
    | none => rw [hnext] at h; cases h
    | some NextCover =>
      rw [hnext] at h
      simp only at h
      split at h
      · have := getRawWhitespaceCoverLoop_length _bounds n _ _ out h
        simp only [List.length_append, List.length_singleton] at this
        omega
      · simp only [Option.some.injEq] at h
        subst h
        omega

/-- One round of the union-merge loop: every stored item is still made of raw items processed
so far and satisfies the invariant, with the factor of the next round. -/
theorem mergeCoverItem_invariant {pre Cover : List stuBoundingBox} {V E : stuBoundingBox}
    (hlen : pre.length < MAX_COVER_NUMBER_OF_ITEMS)
    (hV : 0 < V.width ∧ V.width < V.height)
    (hpre : ∀ m ∈ pre, m.hasIntersectionWith V = false)
    (hE : E.left = V.left ∧ E.right = V.right ∧ E.top ≤ V.top ∧ V.bottom ≤ E.bottom)
    (hinv : ∀ S ∈ Cover, ∃ ms, mergedFrom S ms ∧ (∀ m ∈ ms, m ∈ pre) ∧
      stackedCore (mergeSlack pre.length) S ms) :
    ∀ S ∈ mergeCoverItem Cover E, ∃ ms, mergedFrom S ms ∧ (∀ m ∈ ms, m ∈ pre ++ [V]) ∧
      stackedCore (mergeSlack (pre ++ [V]).length) S ms := by
  have hslack : mergeSlack (pre ++ [V]).length = 19 / 20 * mergeSlack pre.length := by
    rw [List.length_append, List.length_singleton, mergeSlack_succ]
  have h2 : 2 ≤ mergeSlack pre.length := two_le_mergeSlack hlen.le
  have hdown : 19 / 20 * mergeSlack pre.length ≤ mergeSlack pre.length := by linarith
  have hVw : 0 < V.right - V.left := by
    have := stuBoundingBox.width_eq V
    linarith [hV.1]
  have hVh : V.right - V.left < V.height := by
    have := stuBoundingBox.width_eq V
    linarith [hV.2]
  have keep : ∀ S ∈ Cover, ∃ ms, mergedFrom S ms ∧ (∀ m ∈ ms, m ∈ pre ++ [V]) ∧
      stackedCore (mergeSlack (pre ++ [V]).length) S ms := by
    intro S hS
    obtain ⟨ms, h₁, h₂, h₃⟩ := hinv S hS
    refine ⟨ms, h₁, fun m hm => List.mem_append_left _ (h₂ m hm), ?_⟩
    rw [hslack]
    exact stackedCore_mono hdown h₃
  intro S' hS'
  unfold mergeCoverItem at hS'
  simp only at hS'
  split at hS'
  · rw [List.mem_map] at hS'
    obtain ⟨S, hS, rfl⟩ := hS'
    split
    · rename_i hfit
      rw [Bool.and_eq_true, decide_eq_true_eq] at hfit
      obtain ⟨ms, ⟨hin, hpw⟩, hmem, hcore⟩ := hinv S hS
      have hSw : 0 < S.right - S.left := by
        obtain ⟨c₁, c₂, h1, h2, h3, -⟩ := hcore
        linarith
      have hov : 19 / 20 * min (S.right - S.left) (V.right - V.left) ≤
          min S.right V.right - max S.left V.left := by
        have hr := hfit.2
        unfold stuBoundingBox.horizontalOverlapRatio at hr
        rw [stuBoundingBox.width_eq S, stuBoundingBox.width_eq E, hE.1, hE.2.1] at hr
        have hmin : 0 < min (S.right - S.left) (V.right - V.left) := lt_min hSw hVw
        rw [ge_iff_le, le_div_iff₀ hmin] at hr
        unfold stuBoundingBox.horizontalOverlap at hr
        rw [hE.1, hE.2.1] at hr
        linarith
      refine ⟨ms ++ [V], ⟨?_, ?_⟩, ?_, ?_⟩
      · intro m hm
        rcases List.mem_append.1 hm with hm | hm
        · obtain ⟨i₁, i₂, i₃, i₄, i₅⟩ := hin m hm
          refine ⟨?_, ?_, ?_, ?_, i₅⟩
          · rw [stuBoundingBox.left_unionWith]; exact le_trans (min_le_left _ _) i₁
          · rw [stuBoundingBox.right_unionWith]; exact le_trans i₂ (le_max_left _ _)
          · rw [stuBoundingBox.top_unionWith]; exact le_trans (min_le_left _ _) i₃
          · rw [stuBoundingBox.bottom_unionWith]; exact le_trans i₄ (le_max_left _ _)
        · simp only [List.mem_singleton] at hm
          subst hm
          refine ⟨?_, ?_, ?_, ?_, hV⟩
          · rw [stuBoundingBox.left_unionWith, hE.1]; exact min_le_right _ _
          · rw [stuBoundingBox.right_unionWith, hE.2.1]; exact le_max_right _ _
          · rw [stuBoundingBox.top_unionWith]; exact le_trans (min_le_right _ _) hE.2.2.1
          · rw [stuBoundingBox.bottom_unionWith]; exact le_trans hE.2.2.2 (le_max_right _ _)
      · rw [List.pairwise_append]
        refine ⟨hpw, List.pairwise_singleton _ _, ?_⟩
        intro a ha b hb
        simp only [List.mem_singleton] at hb
        subst hb
        exact hpre a (hmem a ha)
      · intro m hm
        rcases List.mem_append.1 hm with hm | hm
        · exact List.mem_append_left _ (hmem m hm)
        · exact List.mem_append_right _ hm
      · rw [hslack]
        refine stackedCore_merge (by linarith) (mergeSlack_le _) ?_ ?_ ?_ hVw hVh hov hcore
        · intro m hm
          have := hin m hm
          linarith [this.2.2.2.2.1, this.2.2.2.2.2]
        · rw [stuBoundingBox.left_unionWith, hE.1]
        · rw [stuBoundingBox.right_unionWith, hE.2.1]
    · exact keep S hS
  · rcases List.mem_append.1 hS' with hS' | hS'
    · exact keep S' hS'
    · simp only [List.mem_singleton] at hS'
      subst hS'
      refine ⟨[V], ⟨?_, List.pairwise_singleton _ _⟩, ?_, ?_⟩
      · intro m hm
        simp only [List.mem_singleton] at hm
        subst hm
        exact ⟨hE.1.le, hE.2.1.ge, hE.2.2.1, hE.2.2.2, hV⟩
      · intro m hm
        exact List.mem_append_right _ hm
      · exact stackedCore_singleton (mergeSlack_le _) hE.1 hE.2.1 hVw hVh

/-- The union-merge loop over the extended vertical items, started on stored items that satisfy
the invariant, ends on stored items that satisfy it. -/
theorem foldl_mergeCoverItem_invariant (ext : stuBoundingBox → stuBoundingBox)
    (hext : ∀ V, (ext V).left = V.left ∧ (ext V).right = V.right ∧ (ext V).top ≤ V.top ∧
      V.bottom ≤ (ext V).bottom) :
    ∀ (rest pre Cover : List stuBoundingBox),
      (pre ++ rest).length ≤ MAX_COVER_NUMBER_OF_ITEMS →
      (∀ V ∈ rest, 0 < V.width ∧ V.width < V.height) →
      (pre ++ rest).Pairwise (fun a b => a.hasIntersectionWith b = false) →
      (∀ S ∈ Cover, ∃ ms, mergedFrom S ms ∧ (∀ m ∈ ms, m ∈ pre) ∧
        stackedCore (mergeSlack pre.length) S ms) →
      ∀ S ∈ (rest.map ext).foldl mergeCoverItem Cover, ∃ ms, mergedFrom S ms ∧
        (∀ m ∈ ms, m ∈ pre ++ rest) ∧ stackedCore (mergeSlack (pre ++ rest).length) S ms
  | [], pre, Cover, _, _, _, hinv => by simpa using hinv
  | V :: rest, pre, Cover, hlen, hvert, hpw, hinv => by
    have hstep := mergeCoverItem_invariant (V := V) (E := ext V)
      (by
        simp only [List.length_append, List.length_cons] at hlen
        omega)
      (hvert V (List.mem_cons_self _ _))
      (by
        intro m hm
        rw [List.pairwise_append] at hpw
        exact hpw.2.2 m hm V (List.mem_cons_self _ _))
      (hext V) hinv
    have hassoc : pre ++ V :: rest = (pre ++ [V]) ++ rest := by simp
    rw [hassoc] at hlen hpw ⊢
    simp only [List.map_cons, List.foldl_cons]
    exact foldl_mergeCoverItem_invariant ext hext rest (pre ++ [V]) _ hlen
      (fun W hW => hvert W (List.mem_cons_of_mem _ hW)) hpw hstep

/-- The post-processing of a raw cover of at most `MAX_COVER_NUMBER_OF_ITEMS` acceptable,
pairwise non-intersecting rectangles returns vertical rectangles only. -/
theorem postProcessCover_vertical (MIN_ITEM_SIZE : ℚ) (RawCover : List stuBoundingBox)
    (hlen : RawCover.length ≤ MAX_COVER_NUMBER_OF_ITEMS)
    (hacc : ∀ r ∈ RawCover, candidateIsAcceptable r = true)
    (hpw : RawCover.Pairwise fun a b => a.hasIntersectionWith b = false) :
    ∀ r ∈ postProcessCover MIN_ITEM_SIZE RawCover, r.width < r.height := by
  intro r hr
  unfold postProcessCover at hr
  simp only at hr
  have hfold := foldl_mergeCoverItem_invariant
    (fun CoverItem => (RawCover.filter fun a => decide (a.width ≥ a.height)).foldl
      (extendCoverItem MIN_ITEM_SIZE) CoverItem)
    (fun V => foldl_extendCoverItem MIN_ITEM_SIZE _ V)
    (RawCover.filter fun a => decide (a.width < a.height)) [] []
    (by
      simp only [List.nil_append]
      exact le_trans (List.length_filter_le _ _) hlen)
    (by
      intro V hV
      rw [List.mem_filter, decide_eq_true_eq] at hV
      have := (candidateIsAcceptable_iff V).1 (hacc V hV.1)
      exact ⟨by linarith [this.1], hV.2⟩)
    (by
      simp only [List.nil_append]
      exact hpw.sublist (List.filter_sublist _))
    (by simp) r hr
  obtain ⟨ms, hfrom, -, hcore⟩ := hfold
  refine width_lt_height_of_stackedCore (two_le_mergeSlack ?_) hfrom hcore
  simp only [List.nil_append]
  exact le_trans (List.length_filter_le _ _) hlen

/-- Claim C18: every rectangle of a cover that `getWhitespaceCoverage` returns has width
strictly less than height, on every input, in exact arithmetic. The raw cover holds at most `MAX_COVER_NUMBER_OF_ITEMS` rectangles,
none intersecting another; each merge needs an overlap of 95% of the narrower width, so a
merged rectangle keeps a column over which its raw items stack higher than it is wide. -/
theorem getWhitespaceCoverage_vertical_only (MIN_ITEM_SIZE : ℚ)
    (_sortedDocItems : List stuDocItem) (_pageSize : stuSize) (_wordSeparationThreshold : ℚ)
    (Cover : List stuBoundingBox)
    (h : getWhitespaceCoverage MIN_ITEM_SIZE _sortedDocItems _pageSize
      _wordSeparationThreshold = some Cover)
    (r : stuBoundingBox) (hr : r ∈ Cover) : r.width < r.height := by
  unfold getWhitespaceCoverage at h
  rw [Option.map_eq_some'] at h
  obtain ⟨RawCover, hraw, hpost⟩ := h
  subst hpost
  have hsound := getRawWhitespaceCoverLoop_sound _ _ MAX_COVER_NUMBER_OF_ITEMS [] RawCover
    (by simp) List.Pairwise.nil (by simpa [getRawWhitespaceCover] using hraw)
  have hlen := getRawWhitespaceCoverLoop_length _ _ _ _ RawCover hraw
  exact postProcessCover_vertical MIN_ITEM_SIZE RawCover (by simpa using hlen)
    (fun r hr => (hsound.1 r hr).1) hsound.2 r hr

/-- Claim C18 (witness): the theorem at a page of `200` by `300` with one figure
`(80,100,120,200)`; the cover holds the four strips around the figure, and the one below it,
`(80,200,120,300)`, is `40` wide and `100` high. -/
theorem getWhitespaceCoverage_vertical_only_witness :
    (stuBoundingBox.fromEdges 80 200 120 300).width <
      (stuBoundingBox.fromEdges 80 200 120 300).height :=
  getWhitespaceCoverage_vertical_only 1 [⟨.Figure, stuBoundingBox.fromEdges 80 100 120 200⟩]
    ⟨200, 300⟩ 0
    [stuBoundingBox.fromEdges 120 0 200 300, stuBoundingBox.fromEdges 0 0 80 300,
     stuBoundingBox.fromEdges 80 200 120 300, stuBoundingBox.fromEdges 80 0 120 100]
    (by decide!) _ (by simp)

end PDFLA

namespace PDFLA

/-! ## Histogram writes for characters within the page -/

theorem length_updateAt {α : Type} (f : α → α) :
    ∀ (n : Nat) (l : List α), (updateAt f n l).length = l.length
  | n, [] => by cases n <;> rfl
  | 0, _ :: _ => rfl
  | n + 1, x :: xs => by simp [updateAt, length_updateAt f n xs]

theorem incrementAt_of_lt {H : List Int} {i : Int} (h₀ : 0 ≤ i) (h₁ : i < H.length) :
    ∃ H1, incrementAt H i = some H1 ∧ H1.length = H.length := by
  have : i.toNat < H.length := by omega
  exact ⟨updateAt (· + 1) i.toNat H, by simp [incrementAt, h₀, this], length_updateAt _ _ _⟩

/-- The body of the loop completes, and keeps the size of the histogram, when every index it
writes is inside the histogram. -/
theorem histogramStep_of_writtenIndexes {MIN_ITEM_SIZE _meanCharWidth : ℚ} {H : List Int}
    {PrevItem ThisItem : stuDocItem}
    (h : ∀ i ∈ writtenIndexes MIN_ITEM_SIZE _meanCharWidth H.length PrevItem ThisItem,
      0 ≤ i ∧ i < H.length) :
    ∃ H1, histogramStep MIN_ITEM_SIZE _meanCharWidth H PrevItem ThisItem = some H1 ∧
      H1.length = H.length := by
  unfold writtenIndexes at h
  unfold histogramStep
  split
  · rename_i hv
    rw [if_pos hv] at h
    simp only at h ⊢
    generalize toInt32 (ThisItem.BoundingBox.left - PrevItem.BoundingBox.right + 1 / 2) = dx
      at h ⊢
    split
    · rename_i hdx
      rw [if_pos hdx] at h
      have h0 := h dx (by simp)
      obtain ⟨H1, e₁, l₁⟩ := incrementAt_of_lt h0.1 h0.2
      rw [e₁, Option.some_bind]
      have step2 : ∃ H2, (if dx > 1 then incrementAt H1 (dx - 1) else some H1) = some H2 ∧
          H2.length = H.length := by
        split
        · rename_i hgt
          have hm := h (dx - 1) (by simp [hgt])
          obtain ⟨H2, e₂, l₂⟩ := incrementAt_of_lt (H := H1) hm.1 (by rw [l₁]; exact hm.2)
          exact ⟨H2, e₂, l₂.trans l₁⟩
        · exact ⟨H1, rfl, l₁⟩
      obtain ⟨H2, e₂, l₂⟩ := step2
      rw [e₂, Option.some_bind]
      split
      · rename_i hlt
        have hm := h (dx + 1) (by simp [hlt])
        obtain ⟨H3, e₃, l₃⟩ := incrementAt_of_lt (H := H2) hm.1 (by rw [l₂]; exact hm.2)
        exact ⟨H3, e₃, l₃.trans l₂⟩
      · exact ⟨H2, rfl, l₂⟩
    · exact ⟨H, rfl, rfl⟩
  · exact ⟨H, rfl, rfl⟩

/-- For two boxes within the page, each at least one unit wide, every index written for the
pair is inside a histogram of `⌈W⌉` bins. -/
theorem writtenIndexes_in_range {MIN_ITEM_SIZE _meanCharWidth W : ℚ}
    {PrevItem ThisItem : stuDocItem} (hW : 0 < W)
    (hPrev : 0 ≤ PrevItem.BoundingBox.left ∧ 1 ≤ PrevItem.BoundingBox.width)
    (hThis : ThisItem.BoundingBox.right ≤ W ∧ 1 ≤ ThisItem.BoundingBox.width) :
    ∀ i ∈ writtenIndexes MIN_ITEM_SIZE _meanCharWidth ⌈W⌉.toNat PrevItem ThisItem,
      0 ≤ i ∧ i < ⌈W⌉ := by
  have hceil : 0 ≤ ⌈W⌉ := Int.ceil_nonneg hW.le
  have hnat : ((⌈W⌉.toNat : Nat) : Int) = ⌈W⌉ := Int.toNat_of_nonneg hceil
  intro i hi
  unfold writtenIndexes at hi
  split at hi
  · simp only at hi
    split at hi
    · rename_i hdx
      have hgap : ThisItem.BoundingBox.left - PrevItem.BoundingBox.right + 1 / 2 ≤
          W - 3 / 2 := by
        have e₁ := stuBoundingBox.width_eq PrevItem.BoundingBox
        have e₂ := stuBoundingBox.width_eq ThisItem.BoundingBox
        linarith [hPrev.1, hPrev.2, hThis.1, hThis.2]
      have hdxle : ((toInt32 (ThisItem.BoundingBox.left - PrevItem.BoundingBox.right +
          1 / 2) : Int) : ℚ) ≤ W - 3 / 2 := by
        unfold toInt32 at hdx ⊢
        split
        · exact le_trans (Int.floor_le _) hgap
        · rename_i hneg
          rw [if_neg hneg] at hdx
          rw [not_le] at hneg
          have : ⌈ThisItem.BoundingBox.left - PrevItem.BoundingBox.right + 1 / 2⌉ ≤ 0 :=
            Int.ceil_le.2 (by simpa using hneg.le)
          have : ((⌈ThisItem.BoundingBox.left - PrevItem.BoundingBox.right + 1 / 2⌉ : Int) :
              ℚ) ≤ 0 := by exact_mod_cast this
          linarith [hdx.1]
      have hlt : toInt32 (ThisItem.BoundingBox.left - PrevItem.BoundingBox.right + 1 / 2) <
          ⌈W⌉ := by
        have : ((toInt32 (ThisItem.BoundingBox.left - PrevItem.BoundingBox.right +
            1 / 2) : Int) : ℚ) < ((⌈W⌉ : Int) : ℚ) := by
          linarith [Int.le_ceil W]
        exact_mod_cast this
      have hge : (3 : Int) ≤ toInt32 (ThisItem.BoundingBox.left -
          PrevItem.BoundingBox.right + 1 / 2) := by
        exact_mod_cast hdx.1
      simp only [List.mem_append, List.mem_singleton] at hi
      rcases hi with (hi | hi) | hi
      · subst hi
        exact ⟨by omega, hlt⟩
      · split at hi
        · simp only [List.mem_singleton] at hi
          subst hi
          exact ⟨by omega, by omega⟩
        · simp at hi
      · split at hi
        · rename_i hguard
          simp only [List.mem_singleton] at hi
          subst hi
          rw [hnat] at hguard
          exact ⟨by omega, by omega⟩
        · simp at hi
    · simp at hi
  · simp at hi

theorem histogramLoop_in_range {MIN_ITEM_SIZE _meanCharWidth W : ℚ} (hW : 0 < W) :
    ∀ (rest : List stuDocItem) (PrevItem : stuDocItem) (H : List Int),
      H.length = ⌈W⌉.toNat →
      (∀ Item ∈ PrevItem :: rest, 0 ≤ Item.BoundingBox.left ∧ Item.BoundingBox.right ≤ W ∧
        1 ≤ Item.BoundingBox.width) →
      ∃ H1, histogramLoop MIN_ITEM_SIZE _meanCharWidth H PrevItem rest = some H1
  | [], _, H, _, _ => ⟨H, rfl⟩
  | ThisItem :: rest, PrevItem, H, hlen, hin => by
    have hceil : 0 ≤ ⌈W⌉ := Int.ceil_nonneg hW.le
    have hP := hin PrevItem (List.mem_cons_self _ _)
    have hT := hin ThisItem (List.mem_cons_of_mem _ (List.mem_cons_self _ _))
    obtain ⟨H1, e₁, l₁⟩ := @histogramStep_of_writtenIndexes MIN_ITEM_SIZE _meanCharWidth H
      PrevItem ThisItem (by
        intro i hi
        rw [hlen] at hi ⊢
        have := writtenIndexes_in_range hW ⟨hP.1, hP.2.2⟩ ⟨hT.2.1, hT.2.2⟩ i hi
        rw [Int.toNat_of_nonneg hceil]
        exact this)
    simp only [histogramLoop, e₁, Option.some_bind]
    exact histogramLoop_in_range hW rest ThisItem H1 (l₁.trans hlen)
      (fun Item hItem => hin Item (List.mem_cons_of_mem _ hItem))

/-- Claim C22: for every page width `W > 0` and every list of boxes that lie horizontally
within `[0, W]` and are at least one unit wide, every index that the loop of
`computeWordSeparationThreshold` writes for an adjacent pair (`dx`, `dx - 1`, `dx + 1`) lies in
`[0, ⌈W⌉)`, and the function returns a threshold: no write falls outside the histogram. -/
theorem computeWordSeparationThreshold_writes_in_range (MIN_ITEM_SIZE _meanCharWidth W : ℚ)
    (_sortedDocItems : List stuDocItem) (hW : 0 < W)
    (hin : ∀ Item ∈ _sortedDocItems, 0 ≤ Item.BoundingBox.left ∧
      Item.BoundingBox.right ≤ W ∧ 1 ≤ Item.BoundingBox.width) :
    (∀ pair ∈ _sortedDocItems.zip _sortedDocItems.tail,
      ∀ i ∈ writtenIndexes MIN_ITEM_SIZE _meanCharWidth ⌈W⌉.toNat pair.1 pair.2,
        0 ≤ i ∧ i < ⌈W⌉) ∧
    ∃ Threshold, computeWordSeparationThreshold MIN_ITEM_SIZE _sortedDocItems _meanCharWidth
      W = some Threshold := by
  refine ⟨?_, ?_⟩
  · intro pair hpair
    have h₁ := hin pair.1 (List.of_mem_zip hpair).1
    have h₂ := hin pair.2 (List.mem_of_mem_tail (List.of_mem_zip hpair).2)
    exact writtenIndexes_in_range hW ⟨h₁.1, h₁.2.2⟩ ⟨h₂.2.1, h₂.2.2⟩
  · unfold computeWordSeparationThreshold
    cases _sortedDocItems with
    | nil => exact ⟨_, rfl⟩
    | cons first rest =>
      obtain ⟨H1, e⟩ := @histogramLoop_in_range MIN_ITEM_SIZE _meanCharWidth W hW rest first
        (List.replicate ⌈W⌉.toNat 0) (by simp) hin
      simp only [e, Option.map_some']
      exact ⟨_, rfl⟩

/-- Claim C22 (witness): the theorem at `MIN_ITEM_SIZE = 1`, mean character width `8`, page
width `200` and two characters of one row with a gap of `5`: the writes go to the bins `5`, `4`
and `6`, and the threshold is returned. -/
theorem computeWordSeparationThreshold_writes_in_range_witness :
    (∀ pair ∈ ([⟨.Char, stuBoundingBox.fromEdges 0 0 8 12⟩,
        ⟨.Char, stuBoundingBox.fromEdges 13 0 21 12⟩] : List stuDocItem).zip
        ([⟨.Char, stuBoundingBox.fromEdges 0 0 8 12⟩,
          ⟨.Char, stuBoundingBox.fromEdges 13 0 21 12⟩] : List stuDocItem).tail,
      ∀ i ∈ writtenIndexes 1 8 ⌈(200 : ℚ)⌉.toNat pair.1 pair.2, 0 ≤ i ∧ i < ⌈(200 : ℚ)⌉) ∧
    ∃ Threshold, computeWordSeparationThreshold 1
      [⟨.Char, stuBoundingBox.fromEdges 0 0 8 12⟩, ⟨.Char, stuBoundingBox.fromEdges 13 0 21 12⟩]
      8 200 = some Threshold :=
  computeWordSeparationThreshold_writes_in_range 1 8 200
    [⟨.Char, stuBoundingBox.fromEdges 0 0 8 12⟩, ⟨.Char, stuBoundingBox.fromEdges 13 0 21 12⟩]
    (by norm_num) (by decide!)

end PDFLA

namespace PDFLA

/-! ## The whitespace search in binary32 arithmetic: rounding of the split edges -/

/-- One iteration of the binary32 loop that does not return: `X` is the triple that `argmax`
picks, `Pivot` its largest obstacle and `Next` the working set after the iteration. -/
theorem binary32_findNextLargetsCoverLoop_step (fuel : Nat) (Candidates Next : List Candidate_t)
    (X : Candidate_t) (Pivot : stuBoundingBox)
    (hX : Candidates[argmax Candidates fun _candidate =>
      if Binary32.candidateIsAcceptable _candidate.2.1 then _candidate.1 else -1]? = some X)
    (hgo : ¬(X.2.2.isEmpty ∨ X.1 < 1))
    (hp : minOf X.2.2 (fun _obstacle => -Binary32.area _obstacle) = some Pivot)
    (hnext : (Candidates ++ Binary32.newCandidates X.2.1 Pivot X.2.2).eraseIdx
      (argmax Candidates fun _candidate =>
        if Binary32.candidateIsAcceptable _candidate.2.1 then _candidate.1 else -1) = Next) :
    Binary32.findNextLargetsCoverLoop (fuel + 1) Candidates =
      Binary32.findNextLargetsCoverLoop fuel Next := by
  obtain ⟨Score, Cover, Obstacles⟩ := X
  have hne : Candidates.isEmpty = false := by
    cases Candidates with
    | nil => simp at hX
    | cons a l => rfl
  rw [Binary32.findNextLargetsCoverLoop]
  simp only [hne, Bool.false_eq_true, if_false, hX, if_neg hgo, hp, hnext]

/-- A result of the binary32 loop does not depend on the iterations left over: one more
iteration gives the same rectangle. -/
theorem binary32_findNextLargetsCoverLoop_fuel_succ :
    ∀ (fuel : Nat) (Candidates : List Candidate_t) (r : stuBoundingBox),
      Binary32.findNextLargetsCoverLoop fuel Candidates = some r →
      Binary32.findNextLargetsCoverLoop (fuel + 1) Candidates = some r
  | 0, _, _, h => by simp [Binary32.findNextLargetsCoverLoop] at h
  | fuel + 1, Candidates, r, h => by
    rw [Binary32.findNextLargetsCoverLoop] at h ⊢
    by_cases hempty : Candidates.isEmpty = true
    · rw [if_pos hempty] at h ⊢
      exact h
    · rw [if_neg hempty] at h ⊢
      simp only at h ⊢
      cases hX : Candidates[argmax Candidates fun _candidate =>
          if Binary32.candidateIsAcceptable _candidate.2.1 then _candidate.1 else -1]? with
      | none => rw [hX] at h; cases h
      | some X =>
        obtain ⟨Score, Cover, Obstacles⟩ := X
        rw [hX] at h
        simp only at h ⊢
        by_cases hcond : Obstacles.isEmpty = true ∨ Score < 1
        · rw [if_pos hcond] at h ⊢
          exact h
        · rw [if_neg hcond] at h ⊢
          cases hp : minOf Obstacles (fun _obstacle => -Binary32.area _obstacle) with
          | none => rw [hp] at h; cases h
          | some Pivot =>
            rw [hp] at h
            simp only at h ⊢
            exact binary32_findNextLargetsCoverLoop_fuel_succ fuel _ r h

/-- A rectangle that the binary32 loop returns within `fuel` iterations is returned for every
larger number of iterations. -/
theorem binary32_findNextLargetsCoverLoop_fuel_add (fuel : Nat) (Candidates : List Candidate_t)
    (r : stuBoundingBox) (h : Binary32.findNextLargetsCoverLoop fuel Candidates = some r) :
    ∀ k, Binary32.findNextLargetsCoverLoop (fuel + k) Candidates = some r
  | 0 => h
  | k + 1 => binary32_findNextLargetsCoverLoop_fuel_succ (fuel + k) Candidates r
      (binary32_findNextLargetsCoverLoop_fuel_add fuel Candidates r h k)

/-- Claim C21 (the code at the failing input): bounds `(0,0,100,200)` and the two obstacles
`(0,0,25.9,200)` and `(62.7,35,100,165)`, in binary32. After two iterations the working set
holds one triple: the rectangle built left of the pivot `(62.7,35,100,165)`, with origin `25.9`
and width `fl (62.7 - 25.9)`. Its `right()` lies `2 ^ -18` above the left edge of the pivot, so
the pivot intersects it and stays in its obstacle list; splitting it around the pivot gives the
same triple again, and the loop returns for no number of iterations, nor does
`getRawWhitespaceCover`, whose first search this is. -/
theorem findNextLargetsCover_binary32_never_returns :
    Binary32.right Binary32.exampleGutter = Binary32.exampleFigure.left + 1 / 2 ^ 18 ∧
    Binary32.hasIntersectionWith Binary32.exampleFigure Binary32.exampleGutter = true ∧
    Binary32.newCandidates Binary32.exampleGutter Binary32.exampleFigure
        [Binary32.exampleFigure] =
      [(Binary32.calculateCandidateScore Binary32.exampleGutter, Binary32.exampleGutter,
        [Binary32.exampleFigure])] ∧
    (∀ fuel, Binary32.findNextLargetsCover fuel Binary32.examplePage
      [Binary32.exampleStrip, Binary32.exampleFigure] = none) ∧
    ∀ fuel, Binary32.getRawWhitespaceCover fuel Binary32.examplePage
      [Binary32.exampleStrip, Binary32.exampleFigure] = none := by
  refine ⟨by decide!, by decide!, by decide!, ?_⟩
  suffices hsearch : ∀ fuel, Binary32.findNextLargetsCover fuel Binary32.examplePage
      [Binary32.exampleStrip, Binary32.exampleFigure] = none by
    refine ⟨hsearch, fun fuel => ?_⟩
    have hmax : MAX_COVER_NUMBER_OF_ITEMS = 29 + 1 := rfl
    unfold Binary32.getRawWhitespaceCover
    rw [hmax, Binary32.getRawWhitespaceCoverLoop]
    simp only [hsearch fuel]
  have hloop : ∀ fuel, Binary32.findNextLargetsCoverLoop fuel
      [(Binary32.calculateCandidateScore Binary32.exampleGutter, Binary32.exampleGutter,
        [Binary32.exampleFigure])] = none := by
    intro fuel
    induction fuel with
    | zero => rfl
    | succ fuel ih =>
      rw [binary32_findNextLargetsCoverLoop_step fuel _
        [(Binary32.calculateCandidateScore Binary32.exampleGutter, Binary32.exampleGutter,
          [Binary32.exampleFigure])]
        (Binary32.calculateCandidateScore Binary32.exampleGutter, Binary32.exampleGutter,
          [Binary32.exampleFigure])
        Binary32.exampleFigure (by decide!) (by decide!) (by decide!) (by decide!)]
      exact ih
  intro fuel
  unfold Binary32.findNextLargetsCover
  cases fuel with
  | zero => rfl
  | succ fuel =>
    rw [binary32_findNextLargetsCoverLoop_step fuel _
      [(Binary32.calculateCandidateScore (Binary32.fromEdges (Binary32.fl (259 / 10)) 0 100 200),
        Binary32.fromEdges (Binary32.fl (259 / 10)) 0 100 200, [Binary32.exampleFigure])]
      (Binary32.calculateCandidateScore Binary32.examplePage, Binary32.examplePage,
        [Binary32.exampleStrip, Binary32.exampleFigure])
      Binary32.exampleStrip (by decide!) (by decide!) (by decide!) (by decide!)]
    cases fuel with
    | zero => rfl
    | succ fuel =>
      rw [binary32_findNextLargetsCoverLoop_step fuel _
        [(Binary32.calculateCandidateScore Binary32.exampleGutter, Binary32.exampleGutter,
          [Binary32.exampleFigure])]
        (Binary32.calculateCandidateScore (Binary32.fromEdges (Binary32.fl (259 / 10)) 0 100 200),
          Binary32.fromEdges (Binary32.fl (259 / 10)) 0 100 200, [Binary32.exampleFigure])
        Binary32.exampleFigure (by decide!) (by decide!) (by decide!) (by decide!)]
      exact hloop fuel

/-- The first search of the raw cover on the obstacles `(62.7,0,100,200)` and `(0,0,25.9,200)`
returns in its third iteration. -/
theorem binary32_first_search (k : Nat) :
    Binary32.findNextLargetsCover (4 + k) Binary32.examplePage
      [Binary32.exampleColumn, Binary32.exampleStrip] = some Binary32.exampleGutter :=
  binary32_findNextLargetsCoverLoop_fuel_add 4 _ _ (by decide!) k

/-- The second search, with the first result among the obstacles, finds nothing: its working
set runs empty in the fourth iteration. -/
theorem binary32_second_search (k : Nat) :
    Binary32.findNextLargetsCover (4 + k) Binary32.examplePage
      ([Binary32.exampleColumn, Binary32.exampleStrip] ++ [Binary32.exampleGutter]) =
      some stuBoundingBox.zero :=
  binary32_findNextLargetsCoverLoop_fuel_add 4 _ _ (by decide!) k

/-- Claim C13 (the code at the failing input): bounds `(0,0,100,200)` and the two obstacles
`(62.7,0,100,200)` and `(0,0,25.9,200)`, in binary32. Every search returns within four
iterations, and for every larger number of iterations `getRawWhitespaceCover` returns the same
cover of one rectangle, with origin `25.9` and width `fl (62.7 - 25.9)`. That rectangle passes
the acceptance predicate; its `right()` lies `2 ^ -18` above the left edge of the obstacle
`(62.7,0,100,200)`, the two share the rows from `0` to `200`, and `hasIntersectionWith` is true
between them, in both directions. -/
theorem getRawWhitespaceCover_binary32_overlaps_obstacle :
    (∀ k, Binary32.getRawWhitespaceCover (4 + k) Binary32.examplePage
        [Binary32.exampleColumn, Binary32.exampleStrip] = some [Binary32.exampleGutter]) ∧
    Binary32.candidateIsAcceptable Binary32.exampleGutter = true ∧
    Binary32.right Binary32.exampleGutter = Binary32.exampleColumn.left + 1 / 2 ^ 18 ∧
    (Binary32.exampleGutter.top = 0 ∧ Binary32.bottom Binary32.exampleGutter = 200 ∧
      Binary32.exampleColumn.top = 0 ∧ Binary32.bottom Binary32.exampleColumn = 200) ∧
    Binary32.hasIntersectionWith Binary32.exampleGutter Binary32.exampleColumn = true ∧
    Binary32.hasIntersectionWith Binary32.exampleColumn Binary32.exampleGutter = true := by
  refine ⟨?_, by decide!, by decide!, by decide!, by decide!, by decide!⟩
  intro k
  have hacc₁ : Binary32.candidateIsAcceptable Binary32.exampleGutter = true := by decide!
  have hacc₂ : Binary32.candidateIsAcceptable stuBoundingBox.zero = false := by decide!
  have hmax : MAX_COVER_NUMBER_OF_ITEMS = 28 + 1 + 1 := rfl
  unfold Binary32.getRawWhitespaceCover
  rw [hmax, Binary32.getRawWhitespaceCoverLoop]
  simp only [binary32_first_search k, hacc₁, if_true]
  rw [Binary32.getRawWhitespaceCoverLoop]
  simp only [binary32_second_search k, hacc₂, Bool.false_eq_true, if_false, List.nil_append]

/-- Claim C20 (the code at the failing input): bounds `(0,0,100,200)` and the two obstacles
`(62.7,0,100,200)` and `(12,50,25.9,60)`, in binary32. The rectangle `(30,0,60,200)` lies inside
the bounds, passes the acceptance predicate and intersects no obstacle, so the claim promises a
result that intersects no obstacle. `findNextLargetsCover` returns in its third iteration, and
for every larger number of iterations, the rectangle with origin `25.9` and width
`fl (62.7 - 25.9)`; its `right()` lies `2 ^ -18` above the left edge of the obstacle
`(62.7,0,100,200)`, and `hasIntersectionWith` is true between the two, in both directions. -/
theorem findNextLargetsCover_binary32_result_overlaps :
    (Binary32.examplePage.left ≤ (Binary32.fromEdges 30 0 60 200).left ∧
      Binary32.examplePage.top ≤ (Binary32.fromEdges 30 0 60 200).top ∧
      Binary32.right (Binary32.fromEdges 30 0 60 200) ≤ Binary32.right Binary32.examplePage ∧
      Binary32.bottom (Binary32.fromEdges 30 0 60 200) ≤
        Binary32.bottom Binary32.examplePage) ∧
    Binary32.candidateIsAcceptable (Binary32.fromEdges 30 0 60 200) = true ∧
    (∀ _obstacle ∈ [Binary32.exampleColumn, Binary32.exampleBlob],
      Binary32.hasIntersectionWith (Binary32.fromEdges 30 0 60 200) _obstacle = false ∧
      Binary32.hasIntersectionWith _obstacle (Binary32.fromEdges 30 0 60 200) = false) ∧
    (∀ k, Binary32.findNextLargetsCover (3 + k) Binary32.examplePage
        [Binary32.exampleColumn, Binary32.exampleBlob] = some Binary32.exampleGutter) ∧
    Binary32.right Binary32.exampleGutter = Binary32.exampleColumn.left + 1 / 2 ^ 18 ∧
    Binary32.hasIntersectionWith Binary32.exampleGutter Binary32.exampleColumn = true ∧
    Binary32.hasIntersectionWith Binary32.exampleColumn Binary32.exampleGutter = true := by
  refine ⟨by decide!, by decide!, ?_, ?_, by decide!, by decide!, by decide!⟩
  · intro _obstacle hmem
    simp only [List.mem_cons, List.mem_singleton, List.not_mem_nil, or_false] at hmem
    rcases hmem with rfl | rfl
    · exact ⟨by decide!, by decide!⟩
    · exact ⟨by decide!, by decide!⟩
  · exact binary32_findNextLargetsCoverLoop_fuel_add 3 _ _ (by decide!)

end PDFLA
